import Mathlib

/-!
Verification of the HMR (hot module replacement) engine core: a shallow
embedding of the module dependency graph (`module-graph.ts`), the HMR server
(`hmr-server.ts`), the client runtime (`hmr-runtime.ts`) and the update
batcher (`update-batcher.ts`), together with proofs and refutations of the
specified properties.

JavaScript `Map`s are embedded as insertion-ordered association lists and
JavaScript `Set`s as insertion-ordered duplicate-free lists, matching the
iteration order guarantees of the runtime.
-/

namespace HMR

/-- JS `Set.add` / insertion into an insertion-ordered duplicate-free list:
a member is left in place, a new element is appended. -/
def insertOnce (xs : List String) (x : String) : List String :=
  if x ∈ xs then xs else xs ++ [x]

/-- JS `new Set(array)`: deduplicate a list keeping the first occurrence of
each element, preserving order. -/
def jsSet (l : List String) : List String :=
  l.foldl insertOnce []

/-- JS `Map.get`: the binding of the key in the association list. -/
def mapGet? : List (String × α) → String → Option α
  | [], _ => none
  | p :: rest, k => if p.1 = k then some p.2 else mapGet? rest k

/-- JS `Map.set`: replace the value in place when the key is bound (keeping
the key's position in iteration order), append a new binding otherwise. -/
def mapSet : List (String × α) → String → α → List (String × α)
  | [], k, v => [(k, v)]
  | p :: rest, k, v => if p.1 = k then (k, v) :: rest else p :: mapSet rest k v

/-- JS `Map.delete`: drop the binding of the key, keeping the others in
order. -/
def mapDelete (m : List (String × α)) (k : String) : List (String × α) :=
  m.filter (fun p => decide (p.1 ≠ k))

/-! ## Module graph (`module-graph.ts`)

`ModuleNode` keeps the fields the specified properties are about: the id and
the node-level `imports` / `importers` sets.  The remaining fields of the
source interface (`rawExports`, `exports`, `proxy`, `dependencyTracker`,
`hot`) hold opaque JavaScript runtime objects that no graph operation of the
source ever branches on, and are omitted from the embedding. -/

structure ModuleNode where
  id : String
  importers : List String
  imports : List String
deriving DecidableEq, Repr

/-- State of a `ModuleGraph` instance: the `modules` map, the forward
`dependencyGraph`, the reverse `reverseDependencyGraph` and the `version`
counter.  The `circularDependencyCache` only memoises
`detectStronglyConnectedComponents` and is omitted. -/
structure ModuleGraph where
  modules : List (String × ModuleNode)
  dependencyGraph : List (String × List String)
  reverseDependencyGraph : List (String × List String)
  version : Nat
deriving DecidableEq, Repr

/-- A freshly constructed `ModuleGraph`: all maps empty, version 0. -/
def emptyGraph : ModuleGraph := ⟨[], [], [], 0⟩

/-- `ModuleGraph.getModule`. -/
def getModule (g : ModuleGraph) (id : String) : Option ModuleNode :=
  mapGet? g.modules id

/-- `ModuleGraph.getDependents`: `Array.from(reverseDependencyGraph.get(id) ||
[])`. -/
def getDependents (g : ModuleGraph) (id : String) : List String :=
  (mapGet? g.reverseDependencyGraph id).getD []

/-- The forward import edges of a module as maintained by the graph:
`dependencyGraph.get(id) || []`. -/
def importsOf (g : ModuleGraph) (id : String) : List String :=
  (mapGet? g.dependencyGraph id).getD []

/-- `ModuleGraph.updateDependencies(moduleId, newImports, oldImports)`:
diff the import lists, replace the forward edge set, insert the reverse edge
for each added import, and for each removed import delete the reverse edge,
dropping the reverse entry entirely when it becomes empty. -/
def addReverseEdge (moduleId : String) (h : ModuleGraph) (dep : String) :
    ModuleGraph :=
  let cur := (mapGet? h.reverseDependencyGraph dep).getD []
  { h with reverseDependencyGraph :=
      mapSet h.reverseDependencyGraph dep (insertOnce cur moduleId) }

def removeReverseEdge (moduleId : String) (h : ModuleGraph) (dep : String) :
    ModuleGraph :=
  match mapGet? h.reverseDependencyGraph dep with
  | none => h
  | some dependents =>
    if dependents.filter (fun x => decide (x ≠ moduleId)) = [] then
      { h with reverseDependencyGraph := mapDelete h.reverseDependencyGraph dep }
    else
      { h with reverseDependencyGraph := mapSet h.reverseDependencyGraph dep (dependents.filter (fun x => decide (x ≠ moduleId))) }

def updateDependencies (g : ModuleGraph) (moduleId : String)
    (newImports : List String) (oldImports : List String) : ModuleGraph :=
  let added := jsSet (newImports.filter (fun x => decide (x ∉ oldImports)))
  let removed := jsSet (oldImports.filter (fun x => decide (x ∉ newImports)))
  let g1 : ModuleGraph :=
    { g with dependencyGraph := mapSet g.dependencyGraph moduleId (jsSet newImports) }
  let g2 := added.foldl (addReverseEdge moduleId) g1
  removed.foldl (removeReverseEdge moduleId) g2

/-- `ModuleGraph.updateModule(id, code, isHmrEnabled)`.  The source first runs
`parseImports(id, code)` (an injected collaborator per the specification) and
then only uses its result; the embedding takes that result as the `imports`
argument.  The proxy / exports wiring controlled by `isHmrEnabled` touches
only the omitted opaque fields.  Note that the source never writes to
`node.imports` or `node.importers`: the node (existing or fresh) is stored
back unchanged. -/
def updateModule (g : ModuleGraph) (id : String) (imports : List String)
    (_isHmrEnabled : Bool) : ModuleGraph :=
  let node := (getModule g id).getD { id := id, importers := [], imports := [] }
  let g1 := updateDependencies g id imports node.imports
  { g1 with modules := mapSet g1.modules id node, version := g1.version + 1 }

/-! ### Depth-first traversals

Both `getUpdateChain` and the first pass of
`detectStronglyConnectedComponents` are postorder depth-first searches; the
former additionally keeps a `recursionStack` to detect cycles (the recorded
cycles only feed a `console.warn` and do not affect the returned chain).
The recursion is modelled with explicit fuel; the fuel used by the graph
operations below is provably sufficient, so the embedding computes exactly
the source's traversal. -/

structure DfsState where
  visited : List String
  result : List String
deriving DecidableEq, Repr

/-- One recursive `visit` call.  `checkStack` selects between the
`getUpdateChain` variant (which returns early when `id` is on the current
recursion stack) and the SCC first-pass variant (which has no recursion
stack); in the latter case the `stack` argument is ignored. -/
def dfsVisit (succ : String → List String) (checkStack : Bool) :
    Nat → List String → String → DfsState → DfsState
  | 0, _, _, s => s
  | Nat.succ n, stack, id, s =>
    if checkStack ∧ id ∈ stack then s
    else if id ∈ s.visited then s
    else
      let s1 : DfsState := ⟨s.visited ++ [id], s.result⟩
      let s2 := (succ id).foldl
        (fun t d => dfsVisit succ checkStack n (stack ++ [id]) d t) s1
      ⟨s2.visited, s2.result ++ [id]⟩

/-- Sufficient fuel for a reverse-edge walk starting at `x`: every module the
walk can reach is `x` itself or occurs in some value of
`reverseDependencyGraph`. -/
def udFuel (g : ModuleGraph) (x : String) : Nat :=
  (x :: (g.reverseDependencyGraph.map Prod.snd).flatten).length + 1

/-- `ModuleGraph.getUpdateChain(changedFile)`: postorder DFS from the changed
file through `getDependents`, result reversed. -/
def getUpdateChain (g : ModuleGraph) (changedFile : String) : List String :=
  (dfsVisit (getDependents g) true (udFuel g changedFile) [] changedFile
    ⟨[], []⟩).result.reverse

/-- Sufficient fuel for the forward walks of the SCC computation. -/
def sccFuel (g : ModuleGraph) : Nat :=
  (g.modules.map Prod.fst ++ (g.dependencyGraph.map Prod.snd).flatten).length + 1

/-- First pass of `detectStronglyConnectedComponents`: for each module key in
insertion order, a postorder DFS over the forward `dependencyGraph`, pushing
finished nodes onto `order` (the `result` field). -/
def sccPass1 (g : ModuleGraph) : DfsState :=
  (g.modules.map Prod.fst).foldl
    (fun s id => dfsVisit (importsOf g) false (sccFuel g) [] id s) ⟨[], []⟩

/-- The transposed graph built by `detectStronglyConnectedComponents`. -/
def buildTransposed (g : ModuleGraph) : List (String × List String) :=
  g.dependencyGraph.foldl (fun t p =>
    p.2.foldl (fun t' depId =>
      mapSet t' depId (insertOnce ((mapGet? t' depId).getD []) p.1)) t) []

/-- The `assign` phase: preorder DFS over the transposed graph, collecting the
component.  State is `(visited, component)`. -/
def assignVisit (tsucc : String → List String) :
    Nat → String → List String × List String → List String × List String
  | 0, _, st => st
  | Nat.succ n, id, st =>
    if id ∈ st.1 then st
    else (tsucc id).foldl (fun st' d => assignVisit tsucc n d st')
      (st.1 ++ [id], st.2 ++ [id])

/-- The `while (order.length > 0)` loop of the second pass, consuming the
order stack from its top (the argument list is the reversed order).  Only
components of length `> 1` are kept. -/
def sccLoop (tsucc : String → List String) (fuel : Nat) :
    List String → List String → List (List String) →
    List String × List (List String)
  | [], vis, comps => (vis, comps)
  | id :: rest, vis, comps =>
    if id ∈ vis then sccLoop tsucc fuel rest vis comps
    else
      let st := assignVisit tsucc fuel id (vis, [])
      sccLoop tsucc fuel rest st.1
        (if st.2.length > 1 then comps ++ [st.2] else comps)

/-- `ModuleGraph.detectStronglyConnectedComponents()`: Kosaraju's algorithm —
forward postorder pass, transposition, then assignment in reverse finishing
order, keeping only components of size at least 2. -/
def detectStronglyConnectedComponents (g : ModuleGraph) : List (List String) :=
  let order := (sccPass1 g).result
  let t := buildTransposed g
  (sccLoop (fun id => (mapGet? t id).getD []) (sccFuel g) order.reverse [] []).2

/-- One `updateModule` call: module id, parsed imports, `isHmrEnabled`. -/
abbrev UpdateOp := String × List String × Bool

/-- Run a sequence of `updateModule` calls on a fresh graph. -/
def applyOps (ops : List UpdateOp) : ModuleGraph :=
  ops.foldl (fun g op => updateModule g op.1 op.2.1 op.2.2) emptyGraph

/-! ## HMR server (`hmr-server.ts`)

The server state consists of the module graph, the transformed-code cache
(`moduleCache : file ↦ (code, hash)`), the `clientModules` map
(`file ↦ set of sockets`), the set of connected sockets (`wss.clients`) and,
per connection, the local `clientModules` set captured by the connection
handler closure.  Sockets are identified by numbers; `isOpen` models
`readyState === WebSocket.OPEN`.  I/O boundaries are parameters: the file
content read from disk, the sha-256 `hash` function, the esbuild transform
result (`Except` models a thrown transform error) and `Date.now()`. -/

structure WsClient where
  cid : Nat
  isOpen : Bool
deriving DecidableEq, Repr

structure ServerState where
  moduleGraph : ModuleGraph
  moduleCache : List (String × (String × String))
  clientModules : List (String × List Nat)
  wssClients : List WsClient
  connLoaded : List (Nat × List String)
deriving DecidableEq, Repr

/-- The server with no connections and empty caches. -/
def initServer : ServerState := ⟨emptyGraph, [], [], [], []⟩

/-- A message sent to one client over its socket: the `type`, `file` and
`timestamp` fields of the JSON frame (the stringified `update` object also
carries its `clients` array and the `error` frame a `stack`; neither affects
who receives what). -/
inductive ServerMsg where
  | update (file : String) (timestamp : Nat)
  | errorMsg (file : String) (errText : String) (timestamp : Nat)
deriving DecidableEq, Repr

/-- Connection-level events handled by `setupWebSocketHooks`: a new
connection, a client `module-loaded` message, and a connection close. -/
inductive ConnEvent where
  | connect (c : Nat)
  | moduleLoaded (c : Nat) (file : String)
  | close (c : Nat)
deriving DecidableEq, Repr

/-- One step of the `close` handler's cleanup loop: remove the socket from
the `clientModules` entry of one file, deleting the entry when it becomes
empty. -/
def removeClientFromFile (c : Nat) (m : List (String × List Nat))
    (file : String) : List (String × List Nat) :=
  match mapGet? m file with
  | none => m
  | some clients =>
    if clients.filter (fun x => decide (x ≠ c)) = [] then mapDelete m file
    else mapSet m file (clients.filter (fun x => decide (x ≠ c)))

/-- `setupWebSocketHooks`: the `connection` handler allocates an empty local
`clientModules` set; the `module-loaded` message handler adds the file to the
local set and adds the socket to `this.clientModules[file]` (creating the
entry); the `close` handler removes the socket from each entry it joined,
deleting an entry that becomes empty.  Events for an unknown socket are
no-ops (the runtime never delivers them). -/
def applyConnEvent (s : ServerState) : ConnEvent → ServerState
  | .connect c =>
    if (s.connLoaded.find? (fun p => p.1 = c)).isSome then s
    else { s with wssClients := s.wssClients ++ [⟨c, true⟩],
                  connLoaded := s.connLoaded ++ [(c, [])] }
  | .moduleLoaded c file =>
    match (s.connLoaded.find? (fun p => p.1 = c)).map (fun p => p.2) with
    | none => s
    | some loaded =>
      let loaded' := insertOnce loaded file
      let cur := (mapGet? s.clientModules file).getD []
      { s with
        connLoaded := s.connLoaded.map
          (fun p => if p.1 = c then (c, loaded') else p),
        clientModules := mapSet s.clientModules file
          (if c ∈ cur then cur else cur ++ [c]) }
  | .close c =>
    match (s.connLoaded.find? (fun p => p.1 = c)).map (fun p => p.2) with
    | none => s
    | some files =>
      { s with clientModules := files.foldl (removeClientFromFile c) s.clientModules,
               connLoaded := s.connLoaded.filter (fun p => decide (p.1 ≠ c)),
               wssClients := s.wssClients.filter (fun w => decide (w.cid ≠ c)) }

/-- Run a sequence of connection events on a fresh server. -/
def applyConnEvents (evs : List ConnEvent) : ServerState :=
  evs.foldl applyConnEvent initServer

/-- `HMRServer.transformModule(file)`, with the file content, the content
hash function and the esbuild transform outcome supplied as parameters.  When
the cache holds the current content hash the cached code is returned and the
state is untouched; otherwise the transform runs (a thrown error propagates)
and the cache is updated. -/
def transformModule (s : ServerState) (file content : String)
    (hash : String → String) (esbuild : Except String String) :
    Except String (String × ServerState) :=
  let currentHash := hash content
  match mapGet? s.moduleCache file with
  | some cached =>
    if cached.2 = currentHash then .ok (cached.1, s)
    else
      match esbuild with
      | .error e => .error e
      | .ok code =>
        .ok (code, { s with moduleCache := mapSet s.moduleCache file (code, currentHash) })
  | none =>
    match esbuild with
    | .error e => .error e
    | .ok code =>
      .ok (code, { s with moduleCache := mapSet s.moduleCache file (code, currentHash) })

/-- `HMRServer.calculateUpdates(updateChain)`: one `update` record per chain
element, carrying the clients registered for that file. -/
def calculateUpdates (s : ServerState) (chain : List String) (_now : Nat) :
    List (String × List Nat) :=
  chain.map (fun file => (file, (mapGet? s.clientModules file).getD []))

/-- `HMRServer.notifyClients(updates)`: each update goes to each of its
clients whose socket is open. -/
def notifyClients (s : ServerState) (updates : List (String × List Nat))
    (now : Nat) : List (Nat × ServerMsg) :=
  updates.flatMap (fun u =>
    (u.2.filter (fun c =>
        (s.wssClients.find? (fun w => w.cid = c ∧ w.isOpen)).isSome)).map
      (fun c => (c, ServerMsg.update u.1 now)))

/-- `HMRServer.notifyError(file, error)`: the error frame is sent to every
connected socket (`this.wss.clients`) that is open — not only to the clients
that loaded `file`. -/
def notifyError (s : ServerState) (file errText : String) (now : Nat) :
    List (Nat × ServerMsg) :=
  (s.wssClients.filter (fun w => w.isOpen)).map
    (fun w => (w.cid, ServerMsg.errorMsg file errText now))

/-- `HMRServer.processUpdate(file)`: transform, compute the update chain,
build the per-file updates and notify; a thrown error (from the transform)
is caught and turned into `notifyError`.  Returns the new server state and
the list of messages sent, each tagged with the receiving socket. -/
def processUpdate (s : ServerState) (file content : String)
    (hash : String → String) (esbuild : Except String String) (now : Nat) :
    ServerState × List (Nat × ServerMsg) :=
  match transformModule s file content hash esbuild with
  | .ok (_code, s') =>
    let chain := getUpdateChain s'.moduleGraph file
    (s', notifyClients s' (calculateUpdates s' chain now) now)
  | .error e => (s, notifyError s file e now)

/-! ## Client runtime (`hmr-runtime.ts`)

Per-module client state as created by `createHotContext`.  Callbacks are
identified by numbers; a behaviour map `throws : Nat → Bool` says whether
running a callback throws.  `hot.data` and module namespace objects are
opaque runtime values, represented by numeric tokens. -/

structure HotModuleState where
  dataV : Nat
  hotAcceptCallbacks : List Nat
  hotDisposeCallbacks : List Nat
  isAccepted : Bool
  isDeclined : Bool
deriving DecidableEq, Repr

/-- The record stored in `state.modules[id]`: the `hot` substate plus the
record-level `acceptCallbacks` / `disposeCallbacks` lists (these, not the
ones nested under `hot`, are the lists `hot.accept` / `hot.dispose` push to
and `applyUpdate` runs). -/
structure ClientModule where
  exportsV : Nat
  hot : HotModuleState
  acceptCallbacks : List Nat
  disposeCallbacks : List Nat
deriving DecidableEq, Repr

/-- The fresh record `createHotContext` installs on first use of an id. -/
def freshClientModule : ClientModule :=
  ⟨0, ⟨0, [], [], false, false⟩, [], []⟩

/-- `hot.accept(callback?)`: with a callback, push it onto the record-level
`acceptCallbacks`; with no argument, set `hot.isAccepted`. -/
def hotAccept (m : ClientModule) (callback : Option Nat) : ClientModule :=
  match callback with
  | some cb => { m with acceptCallbacks := m.acceptCallbacks ++ [cb] }
  | none => { m with hot := { m.hot with isAccepted := true } }

/-- `hot.decline()`. -/
def hotDecline (m : ClientModule) : ClientModule :=
  { m with hot := { m.hot with isDeclined := true } }

/-- `hot.dispose(callback)`. -/
def hotDispose (m : ClientModule) (cb : Nat) : ClientModule :=
  { m with disposeCallbacks := m.disposeCallbacks ++ [cb] }

/-- `Array.prototype.forEach` over callbacks when a callback may throw: the
callbacks run in order up to and including the first throwing one, whose id
is returned; the exception aborts the iteration. -/
def runCallbacks (throws : Nat → Bool) : List Nat → List Nat × Option Nat
  | [] => ([], none)
  | cb :: rest =>
    if throws cb then ([cb], some cb)
    else
      let r := runCallbacks throws rest
      (cb :: r.1, r.2)

/-- Result of one `applyUpdate(file)` call: the updated module record (if one
existed), the dispose and accept callbacks that actually ran, and the id of a
dispose callback whose exception escaped `applyUpdate` (the dispose loop is
outside the `try`). -/
structure ApplyResult where
  moduleState : Option ClientModule
  ranDispose : List Nat
  ranAccept : List Nat
  escaped : Option Nat
deriving DecidableEq, Repr

/-- `applyUpdate(file)`: no-op when the module record is missing.  Otherwise
run the dispose callbacks (uncaught: a throw escapes before the hot data is
captured or the module re-fetched), capture `hot.data`, re-import the module
(`importRes`; a rejection is caught and logged), replace `exports`, restore
`hot.data`, and run the accept callbacks inside the same `try` (a throw is
caught after aborting the remaining accept callbacks). -/
def applyUpdate (throws : Nat → Bool) (importRes : Except Unit Nat)
    (modState : Option ClientModule) : ApplyResult :=
  match modState with
  | none => ⟨none, [], [], none⟩
  | some m =>
    let d := runCallbacks throws m.disposeCallbacks
    match d.2 with
    | some cb => ⟨some m, d.1, [], some cb⟩
    | none =>
      let hotData := m.hot.dataV
      match importRes with
      | .error _ => ⟨some m, d.1, [], none⟩
      | .ok newExports =>
        let m' := { m with exportsV := newExports,
                           hot := { m.hot with dataV := hotData } }
        let a := runCallbacks throws m'.acceptCallbacks
        ⟨some m', d.1, a.1, none⟩

/-! ## Update batcher (`update-batcher.ts`)

The batcher is modelled as a labelled transition system whose atomic steps
are the synchronous blocks between `await` points of the source (the server
runs on one cooperative scheduler): `enqueue` (synchronous), the start of a
batch (`collectBatch` plus the synchronous invocation of every handler by
`Promise.all(batch.map(...))`), the completion of one handler, and the
resolution (`processBatch` continuation) or rejection (its `catch`) of a
batch.  `invocations` and `enqueueLog` are history variables recording the
handler invocations and, per `enqueue` call, the file, the returned
completion handle and whether a new job was created. -/

inductive JobPriority where
  | high
  | normal
  | low
deriving DecidableEq, Repr

/-- Numeric rank of a priority; the source comparator orders `a` before `b`
(returns a negative number) exactly when `a` has a smaller rank, or equal
priorities and a smaller (older) timestamp. -/
def prioRank : JobPriority → Nat
  | .high => 0
  | .normal => 1
  | .low => 2

structure UpdateJob where
  file : String
  priority : JobPriority
  timestamp : Nat
  handle : Nat
deriving DecidableEq, Repr

/-- The source comparator viewed as a strict order: `jobLtB a b` iff
`compare(a, b) < 0`. -/
def jobLtB (a b : UpdateJob) : Bool :=
  if prioRank a.priority = prioRank b.priority then
    decide (a.timestamp < b.timestamp)
  else decide (prioRank a.priority < prioRank b.priority)

/-- `PriorityQueue.peek` of `typescript-collections`: the queue hands out the
element that compares greatest under the supplied comparator (the library
wraps a min-heap with the reversed comparator).  Among equal elements the
heap order is unspecified; the model keeps the earliest inserted. -/
def pickMax : List UpdateJob → Option UpdateJob
  | [] => none
  | j :: rest => some (rest.foldl (fun m x => if jobLtB m x then x else m) j)

/-- `collectBatch`: repeatedly dequeue the greatest job while the batch holds
fewer than 10 jobs and the candidate shares the first job's priority and is
younger than the batch window (`now - job.timestamp < batchWindow`, computed
over the integers as in JavaScript).  Returns the batch and remaining
queue. -/
def collectBatch (window now : Nat) :
    Nat → List UpdateJob → List UpdateJob → List UpdateJob × List UpdateJob
  | 0, batch, q => (batch, q)
  | Nat.succ n, batch, q =>
    match pickMax q with
    | none => (batch, q)
    | some j =>
      if batch = [] then collectBatch window now n (batch ++ [j]) (q.erase j)
      else if (now : Int) - (j.timestamp : Int) < (window : Int) ∧
          batch.head?.map (fun b => b.priority) = some j.priority then
        collectBatch window now n (batch ++ [j]) (q.erase j)
      else (batch, q)

/-- A batch whose handlers have been invoked: `done[i] = none` while job `i`'s
handler is still running, `some true` once resolved, `some false` once
rejected. -/
structure InFlightBatch where
  jobs : List UpdateJob
  done : List (Option Bool)
deriving DecidableEq, Repr

structure BatcherState where
  queue : List UpdateJob
  pending : List (String × Nat)
  inFlight : List InFlightBatch
  nextHandle : Nat
  invocations : List String
  enqueueLog : List (String × Nat × Bool)
deriving DecidableEq, Repr

def initBatcher : BatcherState := ⟨[], [], [], 0, [], []⟩

inductive BatcherAction where
  | enqueue (file : String) (priority : JobPriority) (timestamp : Nat)
  | startBatch (now : Nat)
  | handlerEnd (b i : Nat) (ok : Bool)
  | settleBatch (b : Nat)
  | failBatch (b : Nat)
deriving DecidableEq, Repr

/-- One transition of the batcher; `none` when the action is not enabled.

`enqueue` returns the pending handle unchanged when one exists (the dedup
path), otherwise allocates a handle and queues a job.  `startBatch` requires
a free worker (fewer than `conc` batches in flight) and a non-empty queue; it
collects a batch and invokes every handler.  `handlerEnd` records one
handler's outcome.  `settleBatch` fires when all handlers of a batch resolved:
the jobs resolve and their `pendingPromises` entries are deleted.  `failBatch`
fires as soon as some handler rejected (`Promise.all` short-circuits): the
`catch` in `processBatch` deletes the batch's `pendingPromises` entries and
the worker rejects the jobs. -/
def batcherStep (conc window : Nat) (s : BatcherState) :
    BatcherAction → Option BatcherState
  | .enqueue f p t =>
    match mapGet? s.pending f with
    | some h => some { s with enqueueLog := s.enqueueLog ++ [(f, h, false)] }
    | none =>
      let h := s.nextHandle
      some { s with queue := s.queue ++ [⟨f, p, t, h⟩],
                    pending := s.pending ++ [(f, h)],
                    nextHandle := h + 1,
                    enqueueLog := s.enqueueLog ++ [(f, h, true)] }
  | .startBatch now =>
    if s.inFlight.length < conc ∧ s.queue ≠ [] then
      let r := collectBatch window now 10 [] s.queue
      some { s with queue := r.2,
                    inFlight := s.inFlight ++ [⟨r.1, r.1.map (fun _ => none)⟩],
                    invocations := s.invocations ++ r.1.map (fun j => j.file) }
    else none
  | .handlerEnd b i ok =>
    match s.inFlight.get? b with
    | none => none
    | some batch =>
      match batch.done.get? i with
      | some none =>
        some { s with inFlight :=
          s.inFlight.set b { batch with done := batch.done.set i (some ok) } }
      | _ => none
  | .settleBatch b =>
    match s.inFlight.get? b with
    | none => none
    | some batch =>
      if batch.done.all (fun d => d = some true) then
        some { s with
          pending := batch.jobs.foldl (fun p j => mapDelete p j.file) s.pending,
          inFlight := s.inFlight.eraseIdx b }
      else none
  | .failBatch b =>
    match s.inFlight.get? b with
    | none => none
    | some batch =>
      if batch.done.any (fun d => d = some false) then
        some { s with
          pending := batch.jobs.foldl (fun p j => mapDelete p j.file) s.pending,
          inFlight := s.inFlight.eraseIdx b }
      else none

/-- Run a sequence of actions from the initial batcher state; `none` when
some action was not enabled. -/
def runBatcher (conc window : Nat) (acts : List BatcherAction) :
    Option BatcherState :=
  acts.foldl (fun s? a => s?.bind (fun s => batcherStep conc window s a))
    (some initBatcher)

/-- Number of occurrences of `f` in a list of files. -/
def countFile (f : String) (l : List String) : Nat :=
  (l.filter (fun x => decide (x = f))).length

/-- Number of `enqueue(f)` calls that created a job (were made while no
completion for `f` was pending). -/
def countNewEnqueues (f : String) (log : List (String × Nat × Bool)) : Nat :=
  (log.filter (fun e => decide (e.1 = f) && e.2.2)).length

/-- Number of jobs for `f` in a job list. -/
def countJobs (f : String) (q : List UpdateJob) : Nat :=
  (q.filter (fun j => decide (j.file = f))).length

/-- Number of jobs for `f` across the in-flight batches. -/
def countInFlight (f : String) (bs : List InFlightBatch) : Nat :=
  (bs.map (fun b => countJobs f b.jobs)).sum

/-! ## Basic lemmas about the JS collection embeddings -/

theorem mem_insertOnce {xs : List String} {x y : String} :
    y ∈ insertOnce xs x ↔ y ∈ xs ∨ y = x := by
  unfold insertOnce
  by_cases h : x ∈ xs
  · simp only [if_pos h]
    constructor
    · exact Or.inl
    · rintro (hy | rfl)
      · exact hy
      · exact h
  · simp [if_neg h]

theorem self_mem_insertOnce (xs : List String) (x : String) :
    x ∈ insertOnce xs x :=
  mem_insertOnce.mpr (Or.inr rfl)

theorem subset_insertOnce (xs : List String) (x : String) :
    xs ⊆ insertOnce xs x :=
  fun _ h => mem_insertOnce.mpr (Or.inl h)

theorem mem_foldl_insertOnce {l acc : List String} {y : String} :
    y ∈ l.foldl insertOnce acc ↔ y ∈ acc ∨ y ∈ l := by
  induction l generalizing acc with
  | nil => simp
  | cons x rest ih =>
    simp only [List.foldl_cons, ih, mem_insertOnce, List.mem_cons]
    tauto

theorem mem_jsSet {l : List String} {y : String} : y ∈ jsSet l ↔ y ∈ l := by
  unfold jsSet
  simp [mem_foldl_insertOnce]

theorem mapGet?_mapSet_self (m : List (String × α)) (k : String) (v : α) :
    mapGet? (mapSet m k v) k = some v := by
  induction m with
  | nil => simp [mapSet, mapGet?]
  | cons p rest ih =>
    by_cases h : p.1 = k
    · simp [mapSet, mapGet?, h]
    · simp [mapSet, mapGet?, h, ih]

theorem mapGet?_mapSet_ne (m : List (String × α)) (k : String) (v : α)
    (k' : String) (h : k' ≠ k) :
    mapGet? (mapSet m k v) k' = mapGet? m k' := by
  have hkk' : ¬k = k' := Ne.symm h
  induction m with
  | nil => simp [mapSet, mapGet?, hkk']
  | cons p rest ih =>
    by_cases hp : p.1 = k
    · have hpk' : ¬p.1 = k' := by rw [hp]; exact hkk'
      simp [mapSet, mapGet?, hp, hpk', hkk']
    · by_cases hp' : p.1 = k'
      · simp [mapSet, mapGet?, hp, hp', hkk', h]
      · simp [mapSet, mapGet?, hp, hp', ih]

theorem mapDelete_cons (p : String × α) (rest : List (String × α))
    (k : String) :
    mapDelete (p :: rest) k =
      if p.1 = k then mapDelete rest k else p :: mapDelete rest k := by
  by_cases h : p.1 = k <;> simp [mapDelete, List.filter_cons, h]

theorem mapGet?_mapDelete_self (m : List (String × α)) (k : String) :
    mapGet? (mapDelete m k) k = none := by
  induction m with
  | nil => simp [mapDelete, mapGet?]
  | cons p rest ih =>
    rw [mapDelete_cons]
    by_cases h : p.1 = k
    · simpa [h] using ih
    · simpa [h, mapGet?] using ih

theorem mapGet?_mapDelete_ne (m : List (String × α)) (k k' : String)
    (h : k' ≠ k) : mapGet? (mapDelete m k) k' = mapGet? m k' := by
  induction m with
  | nil => simp [mapDelete, mapGet?]
  | cons p rest ih =>
    rw [mapDelete_cons]
    by_cases hp : p.1 = k
    · have hpk' : ¬p.1 = k' := by rw [hp]; exact Ne.symm h
      have hkk' : ¬k = k' := Ne.symm h
      simp [mapGet?, hp, hpk', hkk', ih]
    · simp only [if_neg hp, mapGet?]
      by_cases hp' : p.1 = k'
      · simp [hp']
      · simp [hp', ih]

theorem mapGet?_isSome_mapSet (m : List (String × α)) (k : String) (v : α)
    (k' : String) (h : (mapGet? m k').isSome) :
    (mapGet? (mapSet m k v) k').isSome := by
  by_cases hk : k' = k
  · subst hk; simp [mapGet?_mapSet_self]
  · rwa [mapGet?_mapSet_ne m k v k' hk]

theorem mem_mapSet {m : List (String × α)} {k : String} {v : α}
    {p : String × α} (h : p ∈ mapSet m k v) : p ∈ m ∨ p = (k, v) := by
  induction m with
  | nil => simpa [mapSet] using h
  | cons q rest ih =>
    by_cases hq : q.1 = k
    · simp only [mapSet, if_pos hq, List.mem_cons] at h
      rcases h with h | h
      · exact Or.inr h
      · exact Or.inl (List.mem_cons_of_mem _ h)
    · simp only [mapSet, if_neg hq, List.mem_cons] at h
      rcases h with h | h
      · exact Or.inl (h ▸ List.mem_cons_self _ _)
      · rcases ih h with h' | h'
        · exact Or.inl (List.mem_cons_of_mem _ h')
        · exact Or.inr h'

theorem mapGet?_eq_some_mem {m : List (String × α)} {k : String} {v : α}
    (h : mapGet? m k = some v) : (k, v) ∈ m := by
  induction m with
  | nil => simp [mapGet?] at h
  | cons p rest ih =>
    by_cases hp : p.1 = k
    · simp only [mapGet?, if_pos hp, Option.some.injEq] at h
      have hpv : (k, v) = p := by
        cases p
        simp_all
      exact hpv ▸ List.mem_cons_self _ _
    · simp only [mapGet?, if_neg hp] at h
      exact List.mem_cons_of_mem _ (ih h)

theorem mapGet?_isSome_iff (m : List (String × α)) (k : String) :
    (mapGet? m k).isSome ↔ k ∈ m.map Prod.fst := by
  induction m with
  | nil => simp [mapGet?]
  | cons p rest ih =>
    by_cases h : p.1 = k
    · simp [mapGet?, h]
    · simp [mapGet?, h, ih, Ne.symm h]

/-! ## Reachable-state invariants of the module graph

`updateModule` never writes to the node-level `imports` / `importers` sets
(the node is stored back unchanged), it diffs against the node-level
`imports` (hence against the empty set), and every new forward edge gets its
reverse edge inserted while the removal loop never runs.  `GraphInv` packages
the resulting invariants of every state reachable by `updateModule` calls. -/

def GraphInv (g : ModuleGraph) : Prop :=
  (∀ p ∈ g.modules, p.2.imports = [] ∧ p.2.importers = []) ∧
  (∀ a b, b ∈ importsOf g a → a ∈ getDependents g b) ∧
  (∀ p ∈ g.dependencyGraph, p.1 ∈ g.modules.map Prod.fst)

theorem graphInv_empty : GraphInv emptyGraph := by
  refine ⟨?_, ?_, ?_⟩
  · intro p hp
    simp [emptyGraph] at hp
  · intro a b hb
    simp [importsOf, emptyGraph, mapGet?] at hb
  · intro p hp
    simp [emptyGraph] at hp

theorem foldl_addReverseEdge_frame (mid : String) (l : List String)
    (g : ModuleGraph) :
    (l.foldl (addReverseEdge mid) g).modules = g.modules ∧
    (l.foldl (addReverseEdge mid) g).dependencyGraph = g.dependencyGraph ∧
    (l.foldl (addReverseEdge mid) g).version = g.version := by
  induction l generalizing g with
  | nil => exact ⟨rfl, rfl, rfl⟩
  | cons d rest ih =>
    simpa only [List.foldl_cons, addReverseEdge] using ih _

theorem getDependents_addReverseEdge_mono (mid : String) (g : ModuleGraph)
    (d b c : String) (h : c ∈ getDependents g b) :
    c ∈ getDependents (addReverseEdge mid g d) b := by
  unfold getDependents at *
  unfold addReverseEdge
  by_cases hb : b = d
  · subst hb
    simp only [mapGet?_mapSet_self, Option.getD_some]
    exact subset_insertOnce _ _ h
  · simpa only [mapGet?_mapSet_ne _ _ _ _ hb] using h

theorem getDependents_foldl_addReverseEdge_mono (mid : String)
    (l : List String) (g : ModuleGraph) (b c : String)
    (h : c ∈ getDependents g b) :
    c ∈ getDependents (l.foldl (addReverseEdge mid) g) b := by
  induction l generalizing g with
  | nil => exact h
  | cons d rest ih =>
    exact ih _ (getDependents_addReverseEdge_mono mid g d b c h)

theorem mid_mem_getDependents_foldl (mid : String) (l : List String) :
    ∀ (g : ModuleGraph) (d : String), d ∈ l →
      mid ∈ getDependents (l.foldl (addReverseEdge mid) g) d := by
  induction l with
  | nil =>
    intro g d hd
    cases hd
  | cons a rest ih =>
    intro g d hd
    rcases List.mem_cons.mp hd with rfl | hd'
    · refine getDependents_foldl_addReverseEdge_mono mid rest _ d mid ?_
      unfold getDependents addReverseEdge
      simp only [mapGet?_mapSet_self, Option.getD_some]
      exact self_mem_insertOnce _ _
    · exact ih _ _ hd'

theorem filter_not_mem_nil (l : List String) :
    l.filter (fun x => decide (x ∉ ([] : List String))) = l := by
  simp

theorem updateDependencies_nil_old (g : ModuleGraph) (mid : String)
    (new : List String) :
    updateDependencies g mid new [] =
      (jsSet new).foldl (addReverseEdge mid)
        { g with dependencyGraph := mapSet g.dependencyGraph mid (jsSet new) } := by
  unfold updateDependencies
  simp [jsSet]

theorem foldl_removeReverseEdge_frame (mid : String) (l : List String)
    (g : ModuleGraph) :
    (l.foldl (removeReverseEdge mid) g).modules = g.modules ∧
    (l.foldl (removeReverseEdge mid) g).dependencyGraph = g.dependencyGraph ∧
    (l.foldl (removeReverseEdge mid) g).version = g.version := by
  induction l generalizing g with
  | nil => exact ⟨rfl, rfl, rfl⟩
  | cons d rest ih =>
    have hstep : (removeReverseEdge mid g d).modules = g.modules ∧
        (removeReverseEdge mid g d).dependencyGraph = g.dependencyGraph ∧
        (removeReverseEdge mid g d).version = g.version := by
      cases hm : mapGet? g.reverseDependencyGraph d with
      | none =>
        simp only [removeReverseEdge, hm]
        exact ⟨trivial, trivial, trivial⟩
      | some dependents =>
        simp only [removeReverseEdge, hm]
        refine ⟨?_, ?_, ?_⟩ <;> split <;> rfl
    obtain ⟨h1, h2, h3⟩ := ih (removeReverseEdge mid g d)
    refine ⟨?_, ?_, ?_⟩
    · rw [List.foldl_cons, h1, hstep.1]
    · rw [List.foldl_cons, h2, hstep.2.1]
    · rw [List.foldl_cons, h3, hstep.2.2]

theorem updateDependencies_frame (g : ModuleGraph) (mid : String)
    (newImports oldImports : List String) :
    (updateDependencies g mid newImports oldImports).modules = g.modules ∧
    (updateDependencies g mid newImports oldImports).dependencyGraph =
      mapSet g.dependencyGraph mid (jsSet newImports) ∧
    (updateDependencies g mid newImports oldImports).version = g.version := by
  unfold updateDependencies
  obtain ⟨ha1, ha2, ha3⟩ := foldl_addReverseEdge_frame mid
    (jsSet (newImports.filter (fun x => decide (x ∉ oldImports))))
    { g with dependencyGraph := mapSet g.dependencyGraph mid (jsSet newImports) }
  obtain ⟨hr1, hr2, hr3⟩ := foldl_removeReverseEdge_frame mid
    (jsSet (oldImports.filter (fun x => decide (x ∉ newImports))))
    ((jsSet (newImports.filter (fun x => decide (x ∉ oldImports)))).foldl
      (addReverseEdge mid)
      { g with dependencyGraph := mapSet g.dependencyGraph mid (jsSet newImports) })
  exact ⟨by rw [hr1, ha1], by rw [hr2, ha2], by rw [hr3, ha3]⟩

/-- The node written back by `updateModule`: the existing node unchanged, or a
fresh node with empty edge sets. -/
def nodeFor (g : ModuleGraph) (id : String) : ModuleNode :=
  (getModule g id).getD { id := id, importers := [], imports := [] }

theorem updateModule_modules (g : ModuleGraph) (id : String)
    (imports : List String) (hmr : Bool) :
    (updateModule g id imports hmr).modules =
      mapSet g.modules id (nodeFor g id) := by
  simp only [updateModule, nodeFor]
  rw [(updateDependencies_frame g id imports _).1]

theorem updateModule_dependencyGraph (g : ModuleGraph) (id : String)
    (imports : List String) (hmr : Bool) :
    (updateModule g id imports hmr).dependencyGraph =
      mapSet g.dependencyGraph id (jsSet imports) := by
  simp only [updateModule]
  exact (updateDependencies_frame g id imports _).2.1

theorem updateModule_reverse_of_nilOld (g : ModuleGraph) (id : String)
    (imports : List String) (hmr : Bool)
    (hnil : (nodeFor g id).imports = []) :
    (updateModule g id imports hmr).reverseDependencyGraph =
      ((jsSet imports).foldl (addReverseEdge id)
        { g with dependencyGraph :=
            mapSet g.dependencyGraph id (jsSet imports) }).reverseDependencyGraph := by
  simp only [updateModule]
  unfold nodeFor at hnil
  rw [hnil, updateDependencies_nil_old]

theorem nodeFor_imports_nil (g : ModuleGraph)
    (hA : ∀ p ∈ g.modules, p.2.imports = [] ∧ p.2.importers = [])
    (id : String) : (nodeFor g id).imports = [] ∧ (nodeFor g id).importers = [] := by
  unfold nodeFor
  cases hg : getModule g id with
  | none => exact ⟨rfl, rfl⟩
  | some n => simpa using hA _ (mapGet?_eq_some_mem hg)

theorem getDependents_congr_reverse (g g' : ModuleGraph)
    (h : g.reverseDependencyGraph = g'.reverseDependencyGraph) (b : String) :
    getDependents g b = getDependents g' b := by
  unfold getDependents
  rw [h]

theorem graphInv_updateModule (g : ModuleGraph) (id : String)
    (imports : List String) (hmr : Bool) (h : GraphInv g) :
    GraphInv (updateModule g id imports hmr) := by
  obtain ⟨hA, hB, hC⟩ := h
  have hflat := nodeFor_imports_nil g hA id
  set u := updateModule g id imports hmr with hu
  set g1 : ModuleGraph :=
    { g with dependencyGraph := mapSet g.dependencyGraph id (jsSet imports) }
    with hg1def
  have hrev : u.reverseDependencyGraph =
      ((jsSet imports).foldl (addReverseEdge id) g1).reverseDependencyGraph :=
    updateModule_reverse_of_nilOld g id imports hmr hflat.1
  have hdep : ∀ b, getDependents u b =
      getDependents ((jsSet imports).foldl (addReverseEdge id) g1) b :=
    fun b => getDependents_congr_reverse _ _ hrev b
  have hg1dep : ∀ b, getDependents g1 b = getDependents g b := fun _ => rfl
  refine ⟨?_, ?_, ?_⟩
  · intro p hp
    rw [updateModule_modules] at hp
    rcases mem_mapSet hp with hp' | hp'
    · exact hA _ hp'
    · rw [hp']
      exact hflat
  · intro a b hb
    rw [hdep b]
    unfold importsOf at hb
    rw [updateModule_dependencyGraph] at hb
    by_cases ha : a = id
    · subst ha
      rw [mapGet?_mapSet_self] at hb
      simp only [Option.getD_some] at hb
      exact mid_mem_getDependents_foldl a (jsSet imports) g1 b hb
    · rw [mapGet?_mapSet_ne _ _ _ _ ha] at hb
      have hgb : a ∈ getDependents g b := hB a b hb
      rw [← hg1dep b] at hgb
      exact getDependents_foldl_addReverseEdge_mono id (jsSet imports) g1 b a hgb
  · intro p hp
    rw [updateModule_dependencyGraph] at hp
    have hmodkeys : ∀ k, k ∈ g.modules.map Prod.fst →
        k ∈ u.modules.map Prod.fst := by
      intro k hk
      rw [← mapGet?_isSome_iff] at hk ⊢
      rw [updateModule_modules]
      exact mapGet?_isSome_mapSet _ _ _ _ hk
    rcases mem_mapSet hp with hp' | hp'
    · exact hmodkeys _ (hC _ hp')
    · rw [hp', ← mapGet?_isSome_iff, updateModule_modules, mapGet?_mapSet_self]
      rfl

theorem graphInv_applyOps (ops : List UpdateOp) : GraphInv (applyOps ops) := by
  suffices h : ∀ g, GraphInv g →
      GraphInv (ops.foldl (fun g' op => updateModule g' op.1 op.2.1 op.2.2) g) by
    exact h emptyGraph graphInv_empty
  induction ops with
  | nil =>
    intro g hg
    exact hg
  | cons op rest ih =>
    intro g hg
    exact ih _ (graphInv_updateModule g op.1 op.2.1 op.2.2 hg)

theorem getModule_updateModule_isSome (g : ModuleGraph) (id : String)
    (imports : List String) (hmr : Bool) (m : String)
    (h : (getModule g m).isSome) :
    (getModule (updateModule g id imports hmr) m).isSome := by
  unfold getModule at *
  rw [updateModule_modules]
  exact mapGet?_isSome_mapSet _ _ _ _ h

theorem getDependents_updateModule_mono (g : ModuleGraph) (hinv : GraphInv g)
    (id : String) (imports : List String) (hmr : Bool) (b c : String)
    (h : c ∈ getDependents g b) :
    c ∈ getDependents (updateModule g id imports hmr) b := by
  have hflat := nodeFor_imports_nil g hinv.1 id
  have hrev := updateModule_reverse_of_nilOld g id imports hmr hflat.1
  rw [getDependents_congr_reverse _ _ hrev b]
  exact getDependents_foldl_addReverseEdge_mono id (jsSet imports) _ b c h

/-! ## Claim C1 -/

/-- C1: after any sequence of `updateModule` calls, for every pair of module
nodes present in the graph, `b` is in `a`'s node-level `imports` set iff `a`
is in `b`'s node-level `importers` set.  The equivalence holds because the
source never writes to either node-level set: both sides are always false
(the live edge sets are the `dependencyGraph` / `reverseDependencyGraph`
maps, not the node fields). -/
theorem claim1_node_import_importer_symmetry (ops : List UpdateOp)
    (a b : String) (na nb : ModuleNode)
    (ha : getModule (applyOps ops) a = some na)
    (hb : getModule (applyOps ops) b = some nb) :
    b ∈ na.imports ↔ a ∈ nb.importers := by
  obtain ⟨hA, _, _⟩ := graphInv_applyOps ops
  have h1 := hA _ (mapGet?_eq_some_mem ha)
  have h2 := hA _ (mapGet?_eq_some_mem hb)
  rw [h1.1, h2.2]
  simp

/-- Witness for C1 at a concrete two-module graph. -/
theorem claim1_witness :
    (getModule (applyOps [("a", [], true), ("b", ["a"], true)]) "a" =
      some ⟨"a", [], []⟩ ∧
     getModule (applyOps [("a", [], true), ("b", ["a"], true)]) "b" =
      some ⟨"b", [], []⟩) ∧
    ("a" ∈ (⟨"b", [], []⟩ : ModuleNode).imports ↔
      "b" ∈ (⟨"a", [], []⟩ : ModuleNode).importers) :=
  ⟨⟨by decide, by decide⟩,
    claim1_node_import_importer_symmetry
      [("a", [], true), ("b", ["a"], true)] "b" "a" ⟨"b", [], []⟩ ⟨"a", [], []⟩
      (by decide) (by decide)⟩

/-! ## Claim C5 -/

/-- C5 counterexample: build `b`, make `a` import `b`, then update `a` so it
imports nothing.  The import edge to `b` is removed (no module's forward
edges contain `b` any more), `b` is not an entry point (the source has no
notion of one), yet `getModule "b"` still returns the node — modules are
never dropped — and `b`'s recorded importers still contain `a` (the removal
loop diffs against the always-empty node-level `imports`, so no reverse edge
is ever deleted). -/
theorem claim5_counterexample :
    "b" ∈ importsOf (applyOps [("b", [], true), ("a", ["b"], true)]) "a" ∧
    importsOf (applyOps [("b", [], true), ("a", ["b"], true), ("a", [], true)]) "a"
      = [] ∧
    ((applyOps [("b", [], true), ("a", ["b"], true), ("a", [], true)]).dependencyGraph.all
      (fun p => decide ("b" ∉ p.2)) = true) ∧
    getDependents (applyOps [("b", [], true), ("a", ["b"], true), ("a", [], true)]) "b"
      = ["a"] ∧
    getModule (applyOps [("b", [], true), ("a", ["b"], true), ("a", [], true)]) "b"
      = some ⟨"b", [], []⟩ := by
  decide

/-- C5 amended: `updateModule` never drops a module from the graph and never
deletes a recorded reverse edge — after any `updateModule` call on a
reachable graph, every previously present module is still returned by
`getModule` and every previously recorded importer is still recorded. -/
theorem claim5_amended (ops : List UpdateOp) (id : String)
    (imports : List String) (hmr : Bool) (m b c : String)
    (hm : (getModule (applyOps ops) m).isSome)
    (hc : c ∈ getDependents (applyOps ops) b) :
    (getModule (updateModule (applyOps ops) id imports hmr) m).isSome ∧
    c ∈ getDependents (updateModule (applyOps ops) id imports hmr) b :=
  ⟨getModule_updateModule_isSome _ id imports hmr m hm,
   getDependents_updateModule_mono _ (graphInv_applyOps ops) id imports hmr b c hc⟩

/-- Witness for the amended C5 on a concrete graph. -/
theorem claim5_amended_witness :
    ((getModule (applyOps [("b", [], true), ("a", ["b"], true)]) "b").isSome ∧
     "a" ∈ getDependents (applyOps [("b", [], true), ("a", ["b"], true)]) "b") ∧
    ((getModule (updateModule (applyOps [("b", [], true), ("a", ["b"], true)])
        "a" [] true) "b").isSome ∧
     "a" ∈ getDependents (updateModule (applyOps [("b", [], true), ("a", ["b"], true)])
        "a" [] true) "b") :=
  ⟨⟨by decide, by decide⟩,
    claim5_amended [("b", [], true), ("a", ["b"], true)] "a" [] true "b" "b" "a"
      (by decide) (by decide)⟩

/-! ## Claim C4 -/

/-- C4 counterexample: calling `hot.accept` with a callback on a fresh module
record appends the callback but leaves `isAccepted` false — the source's
`accept` only sets `isAccepted` in the no-argument branch. -/
theorem claim4_counterexample :
    (hotAccept freshClientModule (some 0)).acceptCallbacks = [0] ∧
    (hotAccept freshClientModule (some 0)).hot.isAccepted = false := by
  decide

/-- C4 amended: `hot.accept()` with no argument sets `isAccepted` and leaves
the accept-callback list unchanged; `hot.accept(cb)` appends `cb` to the
record-level accept-callback list and leaves the whole `hot` state (in
particular `isAccepted`) unchanged. -/
theorem claim4_amended (m : ClientModule) (cb : Nat) :
    ((hotAccept m none).hot.isAccepted = true ∧
     (hotAccept m none).acceptCallbacks = m.acceptCallbacks) ∧
    ((hotAccept m (some cb)).acceptCallbacks = m.acceptCallbacks ++ [cb] ∧
     (hotAccept m (some cb)).hot = m.hot) := by
  refine ⟨⟨rfl, rfl⟩, rfl, rfl⟩

/-! ## Claim C7 -/

theorem runCallbacks_eq (throws : Nat → Bool) (l : List Nat) :
    runCallbacks throws l =
      (l.takeWhile (fun cb => !throws cb) ++
         (l.dropWhile (fun cb => !throws cb)).take 1,
       (l.dropWhile (fun cb => !throws cb)).head?) := by
  induction l with
  | nil => rfl
  | cons c rest ih =>
    by_cases hc : throws c = true
    · simp [runCallbacks, hc, List.takeWhile_cons, List.dropWhile_cons]
    · simp only [Bool.not_eq_true] at hc
      simp [runCallbacks, hc, List.takeWhile_cons, List.dropWhile_cons, ih]

/-- Callback behaviour used in the C7 scenarios: callback `0` throws, every
other callback returns normally. -/
def zeroThrows : Nat → Bool := fun c => decide (c = 0)

/-- A module record with dispose callbacks `[0, 1]` (the first throws under
`zeroThrows`) and one accept callback. -/
def c7module : ClientModule :=
  { freshClientModule with disposeCallbacks := [0, 1], acceptCallbacks := [9] }

/-- A module record with dispose callbacks `[1, 0, 2]` (the middle one throws
under `zeroThrows`). -/
def c7module' : ClientModule :=
  { freshClientModule with disposeCallbacks := [1, 0, 2] }

/-- C7 counterexample: a module with two dispose callbacks whose first one
throws.  Only the first dispose callback runs, its error escapes
`applyUpdate` uncaught (the dispose loop sits outside the `try`), and the
rest of the update — including the module swap and the accept callbacks —
never happens. -/
theorem claim7_counterexample :
    (applyUpdate zeroThrows (Except.ok 5) (some c7module)).ranDispose = [0] ∧
    (applyUpdate zeroThrows (Except.ok 5) (some c7module)).escaped = some 0 ∧
    (applyUpdate zeroThrows (Except.ok 5) (some c7module)).ranAccept = [] := by
  decide

/-- C7 amended: `applyUpdate` runs the dispose callbacks in registration
order up to and including the first one that throws; the thrown error is not
caught — when some dispose callback throws, it escapes `applyUpdate`, no
accept callback runs and the module record is left unchanged.  When no
dispose callback throws, all of them run in registration order
(`takeWhile` is the whole list) and nothing escapes. -/
theorem claim7_amended (throws : Nat → Bool) (importRes : Except Unit Nat)
    (m : ClientModule) :
    (applyUpdate throws importRes (some m)).ranDispose =
        m.disposeCallbacks.takeWhile (fun cb => !throws cb) ++
          (m.disposeCallbacks.dropWhile (fun cb => !throws cb)).take 1 ∧
    (applyUpdate throws importRes (some m)).escaped =
        (m.disposeCallbacks.dropWhile (fun cb => !throws cb)).head? ∧
    (∀ c, (m.disposeCallbacks.dropWhile (fun cb => !throws cb)).head? = some c →
      (applyUpdate throws importRes (some m)).ranAccept = [] ∧
      (applyUpdate throws importRes (some m)).moduleState = some m) := by
  cases hd : (m.disposeCallbacks.dropWhile (fun cb => !throws cb)).head? with
  | none =>
    have h1 : runCallbacks throws m.disposeCallbacks =
        (m.disposeCallbacks.takeWhile (fun cb => !throws cb) ++
          (m.disposeCallbacks.dropWhile (fun cb => !throws cb)).take 1, none) := by
      rw [runCallbacks_eq, hd]
    cases importRes with
    | error e =>
      refine ⟨by simp [applyUpdate, h1], by simp [applyUpdate, h1], ?_⟩
      intro c hc
      exact absurd hc (by simp)
    | ok v =>
      refine ⟨by simp [applyUpdate, h1], by simp [applyUpdate, h1], ?_⟩
      intro c hc
      exact absurd hc (by simp)
  | some c0 =>
    have h1 : runCallbacks throws m.disposeCallbacks =
        (m.disposeCallbacks.takeWhile (fun cb => !throws cb) ++
          (m.disposeCallbacks.dropWhile (fun cb => !throws cb)).take 1, some c0) := by
      rw [runCallbacks_eq, hd]
    refine ⟨by simp [applyUpdate, h1], by simp [applyUpdate, h1], ?_⟩
    intro c hc
    exact ⟨by simp [applyUpdate, h1], by simp [applyUpdate, h1]⟩

/-- Witness for the amended C7: dispose list `[1, 0, 2]` where callback `0`
throws. -/
theorem claim7_amended_witness :
    ((c7module'.disposeCallbacks.dropWhile (fun cb => !zeroThrows cb)).head? =
      some 0) ∧
    ((applyUpdate zeroThrows (Except.ok 5) (some c7module')).ranAccept = [] ∧
     (applyUpdate zeroThrows (Except.ok 5) (some c7module')).moduleState =
       some c7module') :=
  ⟨by decide,
    (claim7_amended zeroThrows (Except.ok 5) c7module').2.2 0 (by decide)⟩

/-! ## Claim C3 -/

/-- A server state with one module, a cached transform of `"f"` under hash
`"H"` and one open client that loaded `"f"`. -/
def c3server : ServerState :=
  { moduleGraph := applyOps [("f", [], true)]
    moduleCache := [("f", ("code", "H"))]
    clientModules := [("f", [7])]
    wssClients := [⟨7, true⟩]
    connLoaded := [(7, ["f"])] }

/-- C3 counterexample: the content hashes to the cached hash (`"H"`), so the
server state — graph and cache — is untouched, but `processUpdate` still
walks the update chain and sends an `update` message to the client that
loaded `"f"`: the no-notification half of the claim fails. -/
theorem claim3_counterexample :
    (processUpdate c3server "f" "content" (fun _ => "H")
        (Except.ok "newcode") 42).1 = c3server ∧
    (processUpdate c3server "f" "content" (fun _ => "H")
        (Except.ok "newcode") 42).2 = [(7, ServerMsg.update "f" 42)] := by
  decide

/-- C3 amended: when the file content hashes to the cached hash, processing
the change leaves the whole server state — in particular the module graph —
unchanged, but the update notifications for the chain of the changed file are
still sent to the registered open clients (they are not suppressed). -/
theorem claim3_amended (s : ServerState) (file content : String)
    (hash : String → String) (esbuild : Except String String) (now : Nat)
    (cached : String × String)
    (hc : mapGet? s.moduleCache file = some cached)
    (hh : cached.2 = hash content) :
    (processUpdate s file content hash esbuild now).1 = s ∧
    (processUpdate s file content hash esbuild now).2 =
      notifyClients s
        (calculateUpdates s (getUpdateChain s.moduleGraph file) now) now := by
  have ht : transformModule s file content hash esbuild = .ok (cached.1, s) := by
    simp only [transformModule, hc, if_pos hh]
  simp only [processUpdate, ht]
  exact ⟨trivial, trivial⟩

/-- Witness for the amended C3 at the concrete server state. -/
theorem claim3_amended_witness :
    (mapGet? c3server.moduleCache "f" = some ("code", "H") ∧
      ("code", "H").2 = (fun _ => "H") "content") ∧
    ((processUpdate c3server "f" "content" (fun _ => "H")
        (Except.ok "newcode") 42).1 = c3server ∧
     (processUpdate c3server "f" "content" (fun _ => "H")
        (Except.ok "newcode") 42).2 =
       notifyClients c3server
         (calculateUpdates c3server
           (getUpdateChain c3server.moduleGraph "f") 42) 42) :=
  ⟨⟨by decide, rfl⟩,
    claim3_amended c3server "f" "content" (fun _ => "H") (Except.ok "newcode")
      42 ("code", "H") (by decide) rfl⟩

/-! ## Claim C8 -/

/-- A server with two open clients, of which only client `0` loaded `"f"`. -/
def c8server : ServerState :=
  { moduleGraph := emptyGraph
    moduleCache := []
    clientModules := [("f", [0])]
    wssClients := [⟨0, true⟩, ⟨1, true⟩]
    connLoaded := [(0, ["f"]), (1, [])] }

/-- C8 counterexample: the transform for `"f"` fails; client `1` never
reported loading `"f"`, yet it receives the `error` frame too —
`notifyError` iterates over `wss.clients`, not over the loaders of the
file. -/
theorem claim8_counterexample :
    mapGet? c8server.clientModules "f" = some [0] ∧
    (processUpdate c8server "f" "content" (fun _ => "H")
        (Except.error "boom") 42).2 =
      [(0, ServerMsg.errorMsg "f" "boom" 42),
       (1, ServerMsg.errorMsg "f" "boom" 42)] := by
  decide

/-- C8 amended: when the transform for a file fails (and the cache cannot
serve the content), the server sends the `error` frame to every connected
socket that is open — regardless of which modules each client loaded — and
mutates nothing. -/
theorem claim8_amended (s : ServerState) (file content : String)
    (hash : String → String) (e : String) (now : Nat)
    (hmiss : ∀ cached, mapGet? s.moduleCache file = some cached →
      ¬cached.2 = hash content) :
    (processUpdate s file content hash (Except.error e) now).2 =
      (s.wssClients.filter (fun w => w.isOpen)).map
        (fun w => (w.cid, ServerMsg.errorMsg file e now)) ∧
    (processUpdate s file content hash (Except.error e) now).1 = s := by
  have ht : transformModule s file content hash (Except.error e) = .error e := by
    cases hc : mapGet? s.moduleCache file with
    | none => simp only [transformModule, hc]
    | some cached => simp only [transformModule, hc, if_neg (hmiss cached hc)]
  simp only [processUpdate, ht]
  exact ⟨rfl, trivial⟩

/-- Witness for the amended C8 at the concrete server state. -/
theorem claim8_amended_witness :
    ((processUpdate c8server "f" "content" (fun _ => "H")
        (Except.error "boom") 42).2 =
      (c8server.wssClients.filter (fun w => w.isOpen)).map
        (fun w => (w.cid, ServerMsg.errorMsg "f" "boom" 42)) ∧
     (processUpdate c8server "f" "content" (fun _ => "H")
        (Except.error "boom") 42).1 = c8server) :=
  claim8_amended c8server "f" "content" (fun _ => "H") "boom" 42
    (by intro cached hc; simp [c8server, mapGet?] at hc)

/-! ## Claim C10 -/

theorem removeClientFromFile_inv (c : Nat) (m : List (String × List Nat))
    (file : String) (hm : ∀ p ∈ m, p.2 ≠ []) :
    ∀ p ∈ removeClientFromFile c m file, p.2 ≠ [] := by
  intro p hp
  cases hc : mapGet? m file with
  | none =>
    simp only [removeClientFromFile, hc] at hp
    exact hm p hp
  | some clients =>
    simp only [removeClientFromFile, hc] at hp
    by_cases hnil : clients.filter (fun x => decide (x ≠ c)) = []
    · rw [if_pos hnil] at hp
      exact hm p (List.mem_of_mem_filter hp)
    · rw [if_neg hnil] at hp
      rcases mem_mapSet hp with hp' | hp'
      · exact hm p hp'
      · rw [hp']
        exact hnil

theorem foldl_removeClientFromFile_inv (c : Nat) (files : List String)
    (m : List (String × List Nat)) (hm : ∀ p ∈ m, p.2 ≠ []) :
    ∀ p ∈ files.foldl (removeClientFromFile c) m, p.2 ≠ [] := by
  induction files generalizing m with
  | nil => exact hm
  | cons f rest ih =>
    exact ih _ (removeClientFromFile_inv c m f hm)

theorem applyConnEvent_inv (s : ServerState)
    (hs : ∀ p ∈ s.clientModules, p.2 ≠ []) (ev : ConnEvent) :
    ∀ p ∈ (applyConnEvent s ev).clientModules, p.2 ≠ [] := by
  cases ev with
  | connect c =>
    intro p hp
    simp only [applyConnEvent] at hp
    split at hp
    · exact hs p hp
    · exact hs p hp
  | moduleLoaded c file =>
    intro p hp
    simp only [applyConnEvent] at hp
    split at hp
    · exact hs p hp
    · rcases mem_mapSet hp with hp' | hp'
      · exact hs p hp'
      · rw [hp']
        by_cases hmem : c ∈ (mapGet? s.clientModules file).getD []
        · simp only [if_pos hmem]
          exact List.ne_nil_of_mem hmem
        · simp only [if_neg hmem]
          simp
  | close c =>
    intro p hp
    simp only [applyConnEvent] at hp
    split at hp
    · exact hs p hp
    · exact foldl_removeClientFromFile_inv c _ s.clientModules hs p hp

/-- C10: after any sequence of connection events — connects, `module-loaded`
messages and closes — every entry of the server's `clientModules` map has a
non-empty socket set: the `close` handler removes emptied entries, and
`module-loaded` only ever adds sockets. -/
theorem claim10_clientModules_nonempty (evs : List ConnEvent)
    (p : String × List Nat)
    (hp : p ∈ (applyConnEvents evs).clientModules) : p.2 ≠ [] := by
  revert p hp
  suffices h : ∀ s, (∀ q ∈ s.clientModules, q.2 ≠ []) →
      ∀ p ∈ (evs.foldl applyConnEvent s).clientModules, p.2 ≠ [] by
    intro p hp
    refine h initServer ?_ p hp
    intro q hq
    cases hq
  induction evs with
  | nil => exact fun s hs => hs
  | cons ev rest ih =>
    intro s hs
    exact ih _ (applyConnEvent_inv s hs ev)

/-- Witness for C10 at a concrete event sequence. -/
theorem claim10_witness :
    ("x", [1]) ∈ (applyConnEvents
      [ConnEvent.connect 1, ConnEvent.moduleLoaded 1 "x"]).clientModules ∧
    (("x", [1]) : String × List Nat).2 ≠ [] :=
  ⟨by decide,
    claim10_clientModules_nonempty
      [ConnEvent.connect 1, ConnEvent.moduleLoaded 1 "x"] ("x", [1]) (by decide)⟩

/-! ## Claim C6: batcher counting lemmas -/

theorem countFile_append (f : String) (l m : List String) :
    countFile f (l ++ m) = countFile f l + countFile f m := by
  simp [countFile, List.filter_append]

theorem countJobs_append (f : String) (l m : List UpdateJob) :
    countJobs f (l ++ m) = countJobs f l + countJobs f m := by
  simp [countJobs, List.filter_append]

theorem countNewEnqueues_append (f : String) (l m : List (String × Nat × Bool)) :
    countNewEnqueues f (l ++ m) =
      countNewEnqueues f l + countNewEnqueues f m := by
  simp [countNewEnqueues, List.filter_append]

theorem countFile_map_file (f : String) (l : List UpdateJob) :
    countFile f (l.map (fun j => j.file)) = countJobs f l := by
  induction l with
  | nil => rfl
  | cons j rest ih =>
    by_cases hj : j.file = f
    · simp [countFile, countJobs, List.filter_cons, hj] at ih ⊢
      exact ih
    · simp [countFile, countJobs, List.filter_cons, hj] at ih ⊢
      exact ih

theorem countJobs_perm (f : String) {l m : List UpdateJob} (h : l.Perm m) :
    countJobs f l = countJobs f m := by
  unfold countJobs
  exact (h.filter _).length_eq

theorem pickMax_mem (q : List UpdateJob) (j : UpdateJob)
    (h : pickMax q = some j) : j ∈ q := by
  cases q with
  | nil => cases h
  | cons x rest =>
    simp only [pickMax, Option.some.injEq] at h
    subst h
    have haux : ∀ (rest : List UpdateJob) (acc : UpdateJob),
        rest.foldl (fun m x => if jobLtB m x then x else m) acc ∈ acc :: rest := by
      intro rest
      induction rest with
      | nil =>
        intro acc
        exact List.mem_singleton.mpr rfl
      | cons c rest' ih =>
        intro acc
        rcases List.mem_cons.mp (ih (if jobLtB acc c then c else acc)) with h' | h'
        · rw [List.foldl_cons, h']
          by_cases hlt : jobLtB acc c
          · rw [if_pos hlt]
            exact List.mem_cons_of_mem _ (List.mem_cons_self _ _)
          · rw [if_neg hlt]
            exact List.mem_cons_self _ _
        · exact List.mem_cons_of_mem _ (List.mem_cons_of_mem _ h')
    exact haux rest x

theorem collectBatch_perm (window now : Nat) :
    ∀ (n : Nat) (batch q : List UpdateJob),
      ((collectBatch window now n batch q).1 ++
        (collectBatch window now n batch q).2).Perm (batch ++ q) := by
  intro n
  induction n with
  | zero =>
    intro batch q
    exact List.Perm.refl _
  | succ n ih =>
    intro batch q
    cases hq : pickMax q with
    | none =>
      simp only [collectBatch, hq]
      exact List.Perm.refl _
    | some j =>
      have hjq : j ∈ q := pickMax_mem q j hq
      have hqperm : q.Perm (j :: q.erase j) := List.perm_cons_erase hjq
      have hmid : ((batch ++ [j]) ++ q.erase j).Perm (batch ++ q) := by
        have h1 : (batch ++ [j]) ++ q.erase j = batch ++ (j :: q.erase j) := by
          simp
        rw [h1]
        exact (List.Perm.append_left batch hqperm.symm)
      by_cases hb : batch = []
      · simp only [collectBatch, hq, if_pos hb]
        exact (ih (batch ++ [j]) (q.erase j)).trans hmid
      · simp only [collectBatch, hq, if_neg hb]
        by_cases hcond : (now : Int) - (j.timestamp : Int) < (window : Int) ∧
            batch.head?.map (fun b => b.priority) = some j.priority
        · rw [if_pos hcond]
          exact (ih (batch ++ [j]) (q.erase j)).trans hmid
        · rw [if_neg hcond]

theorem countInFlight_append (f : String) (l m : List InFlightBatch) :
    countInFlight f (l ++ m) = countInFlight f l + countInFlight f m := by
  simp [countInFlight]

theorem countInFlight_cons (f : String) (y : InFlightBatch)
    (l : List InFlightBatch) :
    countInFlight f (y :: l) = countJobs f y.jobs + countInFlight f l := by
  simp [countInFlight]

theorem countInFlight_set_same_jobs (f : String) (bs : List InFlightBatch)
    (b : Nat) (batch batch' : InFlightBatch)
    (hget : bs.get? b = some batch) (hjobs : batch'.jobs = batch.jobs) :
    countInFlight f (bs.set b batch') = countInFlight f bs := by
  induction bs generalizing b with
  | nil => cases hget
  | cons x rest ih =>
    cases b with
    | zero =>
      rw [List.get?_cons_zero] at hget
      injection hget with h
      subst h
      rw [List.set_cons_zero, countInFlight_cons, countInFlight_cons, hjobs]
    | succ b' =>
      rw [List.get?_cons_succ] at hget
      rw [List.set_cons_succ, countInFlight_cons, countInFlight_cons, ih b' hget]

theorem countInFlight_eraseIdx (f : String) (bs : List InFlightBatch)
    (b : Nat) (batch : InFlightBatch) (hget : bs.get? b = some batch) :
    countInFlight f bs =
      countJobs f batch.jobs + countInFlight f (bs.eraseIdx b) := by
  induction bs generalizing b with
  | nil => cases hget
  | cons x rest ih =>
    cases b with
    | zero =>
      rw [List.get?_cons_zero] at hget
      injection hget with h
      subst h
      rw [show (x :: rest).eraseIdx 0 = rest from rfl, countInFlight_cons]
    | succ b' =>
      rw [List.get?_cons_succ] at hget
      rw [show (x :: rest).eraseIdx (b' + 1) = x :: rest.eraseIdx b' from rfl,
        countInFlight_cons, countInFlight_cons, ih b' hget]
      omega

theorem mapGet?_append_left {m m' : List (String × α)} {k : String} {v : α}
    (h : mapGet? m k = some v) : mapGet? (m ++ m') k = some v := by
  induction m with
  | nil => cases h
  | cons p rest ih =>
    by_cases hp : p.1 = k
    · simpa [mapGet?, hp] using h
    · simp only [mapGet?, hp] at h
      simpa [mapGet?, hp] using ih h

theorem mapGet?_append_right {m m' : List (String × α)} {k : String}
    (h : mapGet? m k = none) : mapGet? (m ++ m') k = mapGet? m' k := by
  induction m with
  | nil => rfl
  | cons p rest ih =>
    by_cases hp : p.1 = k
    · simp [mapGet?, hp] at h
    · simp only [mapGet?, hp] at h
      simpa [mapGet?, hp] using ih h

theorem mapGet?_foldl_mapDelete (jobs : List UpdateJob)
    (p : List (String × Nat)) (f : String) :
    mapGet? (jobs.foldl (fun acc j => mapDelete acc j.file) p) f =
      if jobs.any (fun j => decide (j.file = f)) then none else mapGet? p f := by
  induction jobs generalizing p with
  | nil => rfl
  | cons j rest ih =>
    by_cases hj : j.file = f
    · simp only [List.foldl_cons, ih, List.any_cons, hj, decide_True,
        Bool.true_or, if_true]
      by_cases hr : rest.any (fun j => decide (j.file = f)) = true
      · rw [if_pos hr]
      · rw [if_neg hr]
        rw [← hj, mapGet?_mapDelete_self]
    · simp only [List.foldl_cons, ih, List.any_cons, hj, decide_False,
        Bool.false_or]
      by_cases hr : rest.any (fun j => decide (j.file = f)) = true
      · rw [if_pos hr, if_pos hr]
      · rw [if_neg hr, if_neg hr]
        exact mapGet?_mapDelete_ne p j.file f (Ne.symm hj)

theorem countJobs_pos_of_any (f : String) (l : List UpdateJob)
    (h : l.any (fun j => decide (j.file = f)) = true) : 0 < countJobs f l := by
  rcases List.any_eq_true.mp h with ⟨j, hj, hjf⟩
  have : j ∈ l.filter (fun j => decide (j.file = f)) :=
    List.mem_filter.mpr ⟨hj, hjf⟩
  unfold countJobs
  exact List.length_pos.mpr (List.ne_nil_of_mem this)

theorem countJobs_eq_zero_of_not_any (f : String) (l : List UpdateJob)
    (h : ¬l.any (fun j => decide (j.file = f)) = true) : countJobs f l = 0 := by
  unfold countJobs
  rw [List.length_eq_zero]
  rw [List.filter_eq_nil_iff]
  intro j hj
  intro hjf
  exact h (List.any_eq_true.mpr ⟨j, hj, hjf⟩)

/-- The batcher counting invariant for one file `f`: (i) every handler
invocation or queued job for `f` stems from exactly one job-creating
`enqueue(f)`, and (ii) there is a queued or in-flight job for `f` exactly
while a completion for `f` is pending. -/
def BatcherInv (f : String) (s : BatcherState) : Prop :=
  countFile f s.invocations + countJobs f s.queue =
    countNewEnqueues f s.enqueueLog ∧
  countJobs f s.queue + countInFlight f s.inFlight =
    (if (mapGet? s.pending f).isSome then 1 else 0)

theorem mapGet?_append_singleton_ne (m : List (String × α)) (k k' : String)
    (v : α) (h : k' ≠ k) : mapGet? (m ++ [(k, v)]) k' = mapGet? m k' := by
  cases hm : mapGet? m k' with
  | some w => exact mapGet?_append_left hm
  | none =>
    rw [mapGet?_append_right hm]
    simp [mapGet?, Ne.symm h]

theorem settle_pending_inv (f : String) (s : BatcherState) (b : Nat)
    (batch : InFlightBatch) (hb : s.inFlight.get? b = some batch)
    (h2 : countJobs f s.queue + countInFlight f s.inFlight =
      (if (mapGet? s.pending f).isSome then 1 else 0)) :
    countJobs f s.queue + countInFlight f (s.inFlight.eraseIdx b) =
      (if (mapGet? (batch.jobs.foldl (fun p j => mapDelete p j.file)
          s.pending) f).isSome then 1 else 0) := by
  have herase := countInFlight_eraseIdx f s.inFlight b batch hb
  have hP : (if (mapGet? s.pending f).isSome then 1 else 0) = 0 ∨
      (if (mapGet? s.pending f).isSome then 1 else 0) = 1 := by
    by_cases hps : (mapGet? s.pending f).isSome <;> simp [hps]
  rw [mapGet?_foldl_mapDelete]
  by_cases hany : batch.jobs.any (fun j => decide (j.file = f)) = true
  · have hpos := countJobs_pos_of_any f batch.jobs hany
    rw [if_pos hany]
    simp only [Option.isSome_none, Bool.false_eq_true, if_false]
    omega
  · have hzero := countJobs_eq_zero_of_not_any f batch.jobs hany
    rw [if_neg hany]
    omega

theorem batcherStep_inv (conc window : Nat) (f : String) (s s' : BatcherState)
    (a : BatcherAction) (hstep : batcherStep conc window s a = some s')
    (hinv : BatcherInv f s) : BatcherInv f s' := by
  obtain ⟨h1, h2⟩ := hinv
  cases a with
  | enqueue f' p t =>
    cases hp : mapGet? s.pending f' with
    | some h =>
      simp only [batcherStep, hp, Option.some.injEq] at hstep
      subst hstep
      refine ⟨?_, h2⟩
      show countFile f s.invocations + countJobs f s.queue =
        countNewEnqueues f (s.enqueueLog ++ [(f', h, false)])
      rw [countNewEnqueues_append]
      have hz : countNewEnqueues f [(f', h, false)] = 0 := by
        simp [countNewEnqueues]
      omega
    | none =>
      simp only [batcherStep, hp, Option.some.injEq] at hstep
      subst hstep
      have hjob : countJobs f [(⟨f', p, t, s.nextHandle⟩ : UpdateJob)] =
          if f' = f then 1 else 0 := by
        by_cases hf : f' = f <;> simp [countJobs, hf]
      have hlog : countNewEnqueues f [(f', s.nextHandle, true)] =
          if f' = f then 1 else 0 := by
        by_cases hf : f' = f <;> simp [countNewEnqueues, hf]
      refine ⟨?_, ?_⟩
      · show countFile f s.invocations +
          countJobs f (s.queue ++ [⟨f', p, t, s.nextHandle⟩]) =
          countNewEnqueues f (s.enqueueLog ++ [(f', s.nextHandle, true)])
        rw [countJobs_append, countNewEnqueues_append, hjob, hlog]
        omega
      · show countJobs f (s.queue ++ [⟨f', p, t, s.nextHandle⟩]) +
          countInFlight f s.inFlight =
          (if (mapGet? (s.pending ++ [(f', s.nextHandle)]) f).isSome then 1 else 0)
        rw [countJobs_append, hjob]
        by_cases hf : f' = f
        · subst hf
          have hget : mapGet? (s.pending ++ [(f', s.nextHandle)]) f' =
              some s.nextHandle := by
            rw [mapGet?_append_right hp]
            simp [mapGet?]
          rw [hget]
          rw [hp] at h2
          simp only [Option.isSome_none, Bool.false_eq_true, if_false] at h2
          simp only [Option.isSome_some, if_true]
          omega
        · rw [mapGet?_append_singleton_ne s.pending f' f s.nextHandle
            (fun hx => hf hx.symm), if_neg hf]
          omega
  | startBatch now =>
    by_cases hcond : s.inFlight.length < conc ∧ s.queue ≠ []
    · simp only [batcherStep, if_pos hcond, Option.some.injEq] at hstep
      subst hstep
      have hperm := collectBatch_perm window now 10 [] s.queue
      have hcount : countJobs f (collectBatch window now 10 [] s.queue).1 +
          countJobs f (collectBatch window now 10 [] s.queue).2 =
          countJobs f s.queue := by
        have hc := countJobs_perm f hperm
        rw [countJobs_append] at hc
        simpa using hc
      refine ⟨?_, ?_⟩
      · show countFile f (s.invocations ++
            (collectBatch window now 10 [] s.queue).1.map (fun j => j.file)) +
          countJobs f (collectBatch window now 10 [] s.queue).2 =
          countNewEnqueues f s.enqueueLog
        rw [countFile_append, countFile_map_file]
        omega
      · show countJobs f (collectBatch window now 10 [] s.queue).2 +
          countInFlight f (s.inFlight ++
            [⟨(collectBatch window now 10 [] s.queue).1,
              (collectBatch window now 10 [] s.queue).1.map (fun _ => none)⟩]) =
          (if (mapGet? s.pending f).isSome then 1 else 0)
        rw [countInFlight_append]
        have hone : countInFlight f
            [(⟨(collectBatch window now 10 [] s.queue).1,
              (collectBatch window now 10 [] s.queue).1.map (fun _ => none)⟩ :
                InFlightBatch)] =
            countJobs f (collectBatch window now 10 [] s.queue).1 := by
          simp [countInFlight]
        omega
    · simp only [batcherStep, if_neg hcond] at hstep
      exact Option.noConfusion hstep
  | handlerEnd b i ok =>
    cases hb : s.inFlight.get? b with
    | none =>
      simp only [batcherStep, hb] at hstep
      exact Option.noConfusion hstep
    | some batch =>
      cases hd : batch.done.get? i with
      | none =>
        simp only [batcherStep, hb, hd] at hstep
        exact Option.noConfusion hstep
      | some o =>
        cases o with
        | some bv =>
          simp only [batcherStep, hb, hd] at hstep
          exact Option.noConfusion hstep
        | none =>
          simp only [batcherStep, hb, hd, Option.some.injEq] at hstep
          subst hstep
          refine ⟨h1, ?_⟩
          show countJobs f s.queue + countInFlight f
              (s.inFlight.set b { batch with done := batch.done.set i (some ok) }) =
            (if (mapGet? s.pending f).isSome then 1 else 0)
          rw [countInFlight_set_same_jobs f s.inFlight b batch
            { batch with done := batch.done.set i (some ok) } hb rfl]
          exact h2
  | settleBatch b =>
    cases hb : s.inFlight.get? b with
    | none =>
      simp only [batcherStep, hb] at hstep
      exact Option.noConfusion hstep
    | some batch =>
      by_cases hall : batch.done.all (fun d => d = some true) = true
      · simp only [batcherStep, hb, hall, if_true, Option.some.injEq] at hstep
        subst hstep
        exact ⟨h1, settle_pending_inv f s b batch hb h2⟩
      · simp only [batcherStep, hb, hall] at hstep
        exact Option.noConfusion hstep
  | failBatch b =>
    cases hb : s.inFlight.get? b with
    | none =>
      simp only [batcherStep, hb] at hstep
      exact Option.noConfusion hstep
    | some batch =>
      by_cases hany : batch.done.any (fun d => d = some false) = true
      · simp only [batcherStep, hb, hany, if_true, Option.some.injEq] at hstep
        subst hstep
        exact ⟨h1, settle_pending_inv f s b batch hb h2⟩
      · simp only [batcherStep, hb, hany] at hstep
        exact Option.noConfusion hstep

theorem foldl_step_none (conc window : Nat) (acts : List BatcherAction) :
    acts.foldl (fun s? a => s?.bind (fun t => batcherStep conc window t a))
      none = none := by
  induction acts with
  | nil => rfl
  | cons a rest ih => simpa using ih

theorem runBatcher_inv (conc window : Nat) (acts : List BatcherAction)
    (s : BatcherState) (h : runBatcher conc window acts = some s)
    (f : String) : BatcherInv f s := by
  have hinit : BatcherInv f initBatcher := by
    constructor <;>
      simp [initBatcher, countFile, countJobs, countInFlight,
        countNewEnqueues, mapGet?]
  have haux : ∀ (l : List BatcherAction) (s0 : BatcherState),
      BatcherInv f s0 →
      l.foldl (fun s? a => s?.bind (fun t => batcherStep conc window t a))
        (some s0) = some s →
      BatcherInv f s := by
    intro l
    induction l with
    | nil =>
      intro s0 h0 hh
      simp only [List.foldl_nil, Option.some.injEq] at hh
      rwa [← hh]
    | cons a rest ih =>
      intro s0 h0 hh
      rw [List.foldl_cons] at hh
      cases hstep : batcherStep conc window s0 a with
      | none =>
        rw [show (some s0).bind (fun t => batcherStep conc window t a) = none
          from by simp [hstep]] at hh
        rw [foldl_step_none] at hh
        exact Option.noConfusion hh
      | some s1 =>
        rw [show (some s0).bind (fun t => batcherStep conc window t a) = some s1
          from by simp [hstep]] at hh
        exact ih s1 (batcherStep_inv conc window f s0 s1 a hstep h0) hh
  exact haux acts initBatcher hinit h

/-! ## Claim C6 theorems -/

/-- C6 amended: (i) an `enqueue(f)` made while a completion for `f` is
pending — which lasts from the job-creating enqueue until the batch holding
`f`'s job settles or fails, strictly later than the completion of `f`'s own
handler — returns the same pending handle and changes nothing but the log;
(ii) the number of handler invocations with argument `f` equals the number
of job-creating `enqueue(f)` calls (those made while no completion for `f`
was pending) minus the `f` job still sitting in the queue, and there is a
queued or in-flight job for `f` exactly while a completion for `f` is
pending.  The spec's count `1 + #enqueues after the previous handler for f
completed` overcounts, because an enqueue arriving after `f`'s handler
finished but before `f`'s batch settles is deduplicated away. -/
theorem claim6_amended (conc window : Nat) (acts : List BatcherAction)
    (s : BatcherState) (f : String)
    (hrun : runBatcher conc window acts = some s) :
    (∀ (t : BatcherState) (h : Nat) (p : JobPriority) (ts : Nat),
      mapGet? t.pending f = some h →
      batcherStep conc window t (BatcherAction.enqueue f p ts) =
        some { t with enqueueLog := t.enqueueLog ++ [(f, h, false)] }) ∧
    countFile f s.invocations + countJobs f s.queue =
      countNewEnqueues f s.enqueueLog ∧
    countJobs f s.queue + countInFlight f s.inFlight =
      (if (mapGet? s.pending f).isSome then 1 else 0) := by
  obtain ⟨h1, h2⟩ := runBatcher_inv conc window acts s hrun f
  refine ⟨?_, h1, h2⟩
  intro t h p ts hp
  simp only [batcherStep, hp]

/-- Witness for the amended C6: one enqueue, one batch, handler completes,
batch settles. -/
theorem claim6_amended_witness :
    (runBatcher 4 100
      [BatcherAction.enqueue "a" JobPriority.normal 0,
       BatcherAction.startBatch 5,
       BatcherAction.handlerEnd 0 0 true,
       BatcherAction.settleBatch 0] =
      some ⟨[], [], [], 1, ["a"], [("a", 0, true)]⟩) ∧
    ((∀ (t : BatcherState) (h : Nat) (p : JobPriority) (ts : Nat),
      mapGet? t.pending "a" = some h →
      batcherStep 4 100 t (BatcherAction.enqueue "a" p ts) =
        some { t with enqueueLog := t.enqueueLog ++ [("a", h, false)] }) ∧
    countFile "a" (["a"] : List String) +
      countJobs "a" ([] : List UpdateJob) =
      countNewEnqueues "a" [("a", 0, true)] ∧
    countJobs "a" ([] : List UpdateJob) +
      countInFlight "a" ([] : List InFlightBatch) =
      (if (mapGet? ([] : List (String × Nat)) "a").isSome then 1 else 0)) :=
  ⟨by decide,
    claim6_amended 4 100
      [BatcherAction.enqueue "a" JobPriority.normal 0,
       BatcherAction.startBatch 5,
       BatcherAction.handlerEnd 0 0 true,
       BatcherAction.settleBatch 0]
      ⟨[], [], [], 1, ["a"], [("a", 0, true)]⟩ "a" (by decide)⟩

/-- The C6 counterexample trace: two files enqueued into one batch; the
handler for `"a"` (job index 1 of batch 0) completes, then `"a"` is enqueued
again while `"b"`'s handler is still running — the batch has not settled, so
the enqueue is deduplicated — then the batch settles. -/
def c6acts : List BatcherAction :=
  [BatcherAction.enqueue "a" JobPriority.normal 0,
   BatcherAction.enqueue "b" JobPriority.normal 1,
   BatcherAction.startBatch 2,
   BatcherAction.handlerEnd 0 1 true,
   BatcherAction.enqueue "a" JobPriority.normal 3,
   BatcherAction.handlerEnd 0 0 true,
   BatcherAction.settleBatch 0]

/-- C6 counterexample: along `c6acts` the handler for `"a"` is invoked exactly
once, and the one `enqueue("a")` made strictly after `"a"`'s handler
completed was deduplicated (logged with `isNew = false`), so the claimed
count `1 + 1 = 2` does not match the actual single invocation. -/
theorem claim6_counterexample :
    ((runBatcher 4 100 c6acts).map (fun s => countFile "a" s.invocations) =
      some 1) ∧
    ((runBatcher 4 100 c6acts).map (fun s => s.enqueueLog) =
      some [("a", 0, true), ("b", 1, true), ("a", 0, false)]) ∧
    ((runBatcher 4 100 c6acts).map (fun s => countFile "a" s.invocations) ≠
      some (1 + 1)) := by
  decide

/-! ## Depth-first search theory

Shared theory for `getUpdateChain` (reverse edges, `checkStack = true`) and
the first pass of the SCC computation (forward edges, `checkStack = false`):
both are postorder DFS, and under acyclicity the postorder lists successors
before the node that reached them. -/

/-- Reflexive-transitive reachability along a successor function. -/
inductive Reaches (succ : String → List String) : String → String → Prop
  | refl (x : String) : Reaches succ x x
  | step {x y z : String} : Reaches succ x y → z ∈ succ y → Reaches succ x z

theorem Reaches.trans {succ : String → List String} {x y z : String}
    (hxy : Reaches succ x y) (hyz : Reaches succ y z) : Reaches succ x z := by
  induction hyz with
  | refl => exact hxy
  | step _ hedge ih => exact Reaches.step ih hedge

/-- The successor relation has no cycle: no path returning to its start via a
closing edge. -/
def NoCycle (succ : String → List String) : Prop :=
  ∀ y z, Reaches succ y z → y ∈ succ z → False

/-- `a` occurs strictly before `b` in the list. -/
def Before (l : List String) (a b : String) : Prop :=
  ∃ l1 l2 l3, l = l1 ++ a :: (l2 ++ b :: l3)

theorem Before.append_right {l : List String} {a b : String}
    (h : Before l a b) (m : List String) : Before (l ++ m) a b := by
  obtain ⟨l1, l2, l3, rfl⟩ := h
  exact ⟨l1, l2, l3 ++ m, by simp⟩

theorem before_append_new {l : List String} {a : String} (b : String)
    (ha : a ∈ l) : Before (l ++ [b]) a b := by
  obtain ⟨s, t, rfl⟩ := List.append_of_mem ha
  exact ⟨s, t, [], by simp⟩

theorem Before.mem_left {l : List String} {a b : String}
    (h : Before l a b) : a ∈ l := by
  obtain ⟨l1, l2, l3, rfl⟩ := h
  simp

theorem Before.mem_right {l : List String} {a b : String}
    (h : Before l a b) : b ∈ l := by
  obtain ⟨l1, l2, l3, rfl⟩ := h
  simp

/-- The state invariant carried through the DFS: visited nodes stay inside
the universe `U` without duplicates; the visited set is exactly the finished
(`result`) nodes together with the current recursion stack; stack (grey)
nodes are never in `result`; and `result` satisfies the postorder property:
every successor of a finished node is finished and appears strictly
earlier. -/
structure DfsInvState (succ : String → List String) (U stack : List String)
    (s : DfsState) : Prop where
  vsub : ∀ y ∈ s.visited, y ∈ U
  vnodup : s.visited.Nodup
  ssub : ∀ y ∈ stack, y ∈ s.visited
  vchar : ∀ y, y ∈ s.visited ↔ (y ∈ s.result ∨ y ∈ stack)
  snores : ∀ y ∈ stack, y ∉ s.result
  post : ∀ u ∈ s.result, ∀ v ∈ succ u, v ∈ s.result ∧ Before s.result v u
  rnodup : s.result.Nodup

theorem dfsFold_spec (succ : String → List String) (cs : Bool)
    (U : List String) (n : Nat)
    (IH : ∀ (stack : List String) (id : String) (s : DfsState),
      id ∈ U → U.length + 1 ≤ n + s.visited.length →
      (∀ v ∈ stack, Reaches succ v id) → DfsInvState succ U stack s →
      (DfsInvState succ U stack (dfsVisit succ cs n stack id s) ∧
        (∃ v, (dfsVisit succ cs n stack id s).visited = s.visited ++ v) ∧
        (∃ r, (dfsVisit succ cs n stack id s).result = s.result ++ r) ∧
        (∀ y ∈ (dfsVisit succ cs n stack id s).result,
          y ∈ s.result ∨ y ∉ s.visited)) ∧
      id ∈ (dfsVisit succ cs n stack id s).visited) :
    ∀ (l : List String) (stack : List String) (s : DfsState),
      (∀ d ∈ l, d ∈ U) →
      U.length + 1 ≤ n + s.visited.length →
      (∀ d ∈ l, ∀ v ∈ stack, Reaches succ v d) →
      DfsInvState succ U stack s →
      DfsInvState succ U stack
        (l.foldl (fun t d => dfsVisit succ cs n stack d t) s) ∧
      (∃ v, (l.foldl (fun t d => dfsVisit succ cs n stack d t) s).visited =
        s.visited ++ v) ∧
      (∃ r, (l.foldl (fun t d => dfsVisit succ cs n stack d t) s).result =
        s.result ++ r) ∧
      (∀ y ∈ (l.foldl (fun t d => dfsVisit succ cs n stack d t) s).result,
        y ∈ s.result ∨ y ∉ s.visited) ∧
      (∀ d ∈ l,
        d ∈ (l.foldl (fun t d => dfsVisit succ cs n stack d t) s).visited) := by
  intro l
  induction l with
  | nil =>
    intro stack s hU hfuel hreach hinv
    refine ⟨hinv, ⟨[], by simp⟩, ⟨[], by simp⟩, fun y hy => Or.inl hy, ?_⟩
    intro d hd
    cases hd
  | cons d rest ihl =>
    intro stack s hU hfuel hreach hinv
    have hdU : d ∈ U := hU d (List.mem_cons_self _ _)
    have hdreach : ∀ v ∈ stack, Reaches succ v d :=
      fun v hv => hreach d (List.mem_cons_self _ _) v hv
    obtain ⟨⟨hinv1, ⟨v1, hv1⟩, ⟨r1, hr1⟩, hfresh1⟩, hdmem⟩ :=
      IH stack d s hdU hfuel hdreach hinv
    have hfuel1 : U.length + 1 ≤ n + (dfsVisit succ cs n stack d s).visited.length := by
      rw [hv1, List.length_append]
      omega
    have hUrest : ∀ e ∈ rest, e ∈ U :=
      fun e he => hU e (List.mem_cons_of_mem _ he)
    have hreachrest : ∀ e ∈ rest, ∀ v ∈ stack, Reaches succ v e :=
      fun e he => hreach e (List.mem_cons_of_mem _ he)
    obtain ⟨hinv2, ⟨v2, hv2⟩, ⟨r2, hr2⟩, hfresh2, hmem2⟩ :=
      ihl stack (dfsVisit succ cs n stack d s) hUrest hfuel1 hreachrest hinv1
    rw [List.foldl_cons]
    refine ⟨hinv2, ⟨v1 ++ v2, by rw [hv2, hv1, List.append_assoc]⟩,
      ⟨r1 ++ r2, by rw [hr2, hr1, List.append_assoc]⟩, ?_, ?_⟩
    · intro y hy
      rcases hfresh2 y hy with hy1 | hy1
      · rcases hfresh1 y hy1 with hy2 | hy2
        · exact Or.inl hy2
        · exact Or.inr hy2
      · refine Or.inr (fun hmem => hy1 ?_)
        rw [hv1]
        exact List.mem_append_left _ hmem
    · intro e he
      rcases List.mem_cons.mp he with rfl | he'
      · rw [hv2]
        exact List.mem_append_left _ hdmem
      · exact hmem2 e he'

theorem dfsVisit_spec (succ : String → List String) (cs : Bool)
    (U : List String) (hsucc : ∀ u v, v ∈ succ u → v ∈ U)
    (hacyc : NoCycle succ) :
    ∀ (n : Nat) (stack : List String) (id : String) (s : DfsState),
      id ∈ U →
      U.length + 1 ≤ n + s.visited.length →
      (∀ v ∈ stack, Reaches succ v id) →
      DfsInvState succ U stack s →
      (DfsInvState succ U stack (dfsVisit succ cs n stack id s) ∧
        (∃ v, (dfsVisit succ cs n stack id s).visited = s.visited ++ v) ∧
        (∃ r, (dfsVisit succ cs n stack id s).result = s.result ++ r) ∧
        (∀ y ∈ (dfsVisit succ cs n stack id s).result,
          y ∈ s.result ∨ y ∉ s.visited)) ∧
      id ∈ (dfsVisit succ cs n stack id s).visited := by
  intro n
  induction n with
  | zero =>
    intro stack id s hid hfuel hstack hinv
    exfalso
    have hle : s.visited.length ≤ U.length :=
      (hinv.vnodup.subperm (fun y hy => hinv.vsub y hy)).length_le
    omega
  | succ n ih =>
    intro stack id s hid hfuel hstack hinv
    by_cases hskip1 : (cs ∧ id ∈ stack : Prop)
    · rw [show dfsVisit succ cs (n + 1) stack id s = s from by
        simp [dfsVisit, hskip1]]
      exact ⟨⟨hinv, ⟨[], by simp⟩, ⟨[], by simp⟩, fun y hy => Or.inl hy⟩,
        hinv.ssub id hskip1.2⟩
    · by_cases hskip2 : id ∈ s.visited
      · rw [show dfsVisit succ cs (n + 1) stack id s = s from by
          simp [dfsVisit, hskip1, hskip2]]
        exact ⟨⟨hinv, ⟨[], by simp⟩, ⟨[], by simp⟩, fun y hy => Or.inl hy⟩,
          hskip2⟩
      · have hidstack : id ∉ stack := fun h => hskip2 (hinv.ssub id h)
        have hidres : id ∉ s.result := fun h =>
          hskip2 ((hinv.vchar id).mpr (Or.inl h))
        have hinv1 : DfsInvState succ U (stack ++ [id])
            ⟨s.visited ++ [id], s.result⟩ := by
          refine ⟨?_, ?_, ?_, ?_, ?_, ?_, ?_⟩
          · intro y hy
            rcases List.mem_append.mp hy with hy' | hy'
            · exact hinv.vsub y hy'
            · rw [List.mem_singleton.mp hy']
              exact hid
          · rw [List.nodup_append]
            exact ⟨hinv.vnodup, List.nodup_singleton id,
              fun y hy hy' => hskip2 ((List.mem_singleton.mp hy') ▸ hy)⟩
          · intro y hy
            rcases List.mem_append.mp hy with hy' | hy'
            · exact List.mem_append_left _ (hinv.ssub y hy')
            · exact List.mem_append_right _ hy'
          · intro y
            constructor
            · intro hy
              rcases List.mem_append.mp hy with hy' | hy'
              · rcases (hinv.vchar y).mp hy' with hr | hs
                · exact Or.inl hr
                · exact Or.inr (List.mem_append_left _ hs)
              · exact Or.inr (List.mem_append_right _ hy')
            · intro hy
              rcases hy with hr | hs
              · exact List.mem_append_left _ ((hinv.vchar y).mpr (Or.inl hr))
              · rcases List.mem_append.mp hs with hs' | hs'
                · exact List.mem_append_left _ (hinv.ssub y hs')
                · exact List.mem_append_right _ hs'
          · intro y hy
            rcases List.mem_append.mp hy with hy' | hy'
            · exact hinv.snores y hy'
            · rw [List.mem_singleton.mp hy']
              exact hidres
          · exact hinv.post
          · exact hinv.rnodup
        have hfuel1 : U.length + 1 ≤
            n + (⟨s.visited ++ [id], s.result⟩ : DfsState).visited.length := by
          simp only [List.length_append, List.length_singleton]
          omega
        have hsuccU : ∀ e ∈ succ id, e ∈ U := fun e he => hsucc id e he
        have hsuccreach : ∀ e ∈ succ id, ∀ v ∈ stack ++ [id],
            Reaches succ v e := by
          intro e he v hv
          rcases List.mem_append.mp hv with hv' | hv'
          · exact Reaches.step (hstack v hv') he
          · rw [List.mem_singleton.mp hv']
            exact Reaches.step (Reaches.refl id) he
        obtain ⟨hinv2, ⟨v2, hv2⟩, ⟨r2, hr2⟩, hfresh2, hdmem2⟩ :=
          dfsFold_spec succ cs U n ih (succ id) (stack ++ [id])
            ⟨s.visited ++ [id], s.result⟩ hsuccU hfuel1 hsuccreach hinv1
        have hstep : dfsVisit succ cs (n + 1) stack id s =
            ⟨((succ id).foldl
                (fun t d => dfsVisit succ cs n (stack ++ [id]) d t)
                ⟨s.visited ++ [id], s.result⟩).visited,
              ((succ id).foldl
                (fun t d => dfsVisit succ cs n (stack ++ [id]) d t)
                ⟨s.visited ++ [id], s.result⟩).result ++ [id]⟩ := by
          simp only [dfsVisit, hskip1, hskip2]
          simp
        set s2 := (succ id).foldl
          (fun t d => dfsVisit succ cs n (stack ++ [id]) d t)
          ⟨s.visited ++ [id], s.result⟩ with hs2
        rw [hstep]
        have hidv2 : id ∈ s2.visited := by
          rw [hv2]
          exact List.mem_append_left _ (List.mem_append_right _
            (List.mem_singleton.mpr rfl))
        have hids2res : id ∉ s2.result :=
          hinv2.snores id (List.mem_append_right _ (List.mem_singleton.mpr rfl))
        refine ⟨⟨⟨?_, ?_, ?_, ?_, ?_, ?_, ?_⟩, ?_, ?_, ?_⟩, ?_⟩
        · exact fun y hy => hinv2.vsub y hy
        · exact hinv2.vnodup
        · intro y hy
          exact (hinv2.ssub y (List.mem_append_left _ hy))
        · intro y
          constructor
          · intro hy
            rcases (hinv2.vchar y).mp hy with hr | hs
            · exact Or.inl (List.mem_append_left _ hr)
            · rcases List.mem_append.mp hs with hs' | hs'
              · exact Or.inr hs'
              · exact Or.inl (List.mem_append_right _ hs')
          · intro hy
            rcases hy with hr | hs
            · rcases List.mem_append.mp hr with hr' | hr'
              · exact (hinv2.vchar y).mpr (Or.inl hr')
              · exact (hinv2.vchar y).mpr
                  (Or.inr (List.mem_append_right _ hr'))
            · exact (hinv2.vchar y).mpr
                (Or.inr (List.mem_append_left _ hs))
        · intro y hy hmem
          rcases List.mem_append.mp hmem with hm | hm
          · exact hinv2.snores y (List.mem_append_left _ hy) hm
          · exact hidstack ((List.mem_singleton.mp hm) ▸ hy)
        · intro u hu v hv
          rcases List.mem_append.mp hu with hu' | hu'
          · obtain ⟨hv1, hb1⟩ := hinv2.post u hu' v hv
            exact ⟨List.mem_append_left _ hv1, hb1.append_right _⟩
          · rw [List.mem_singleton.mp hu'] at hv ⊢
            have hvvis : v ∈ s2.visited := hdmem2 v hv
            rcases (hinv2.vchar v).mp hvvis with hr | hs
            · exact ⟨List.mem_append_left _ hr, before_append_new id hr⟩
            · exfalso
              rcases List.mem_append.mp hs with hs' | hs'
              · exact hacyc v id (hstack v hs') hv
              · have hveq : v = id := List.mem_singleton.mp hs'
                subst hveq
                exact hacyc v v (Reaches.refl v) hv
        · rw [List.nodup_append]
          exact ⟨hinv2.rnodup, List.nodup_singleton id,
            fun y hy hy' => hids2res ((List.mem_singleton.mp hy') ▸ hy)⟩
        · refine ⟨[id] ++ v2, ?_⟩
          rw [hv2]
          simp
        · refine ⟨r2 ++ [id], ?_⟩
          rw [hr2]
          simp
        · intro y hy
          rcases List.mem_append.mp hy with hy' | hy'
          · rcases hfresh2 y hy' with hr | hr
            · exact Or.inl hr
            · refine Or.inr (fun hmem => hr ?_)
              exact List.mem_append_left _ hmem
          · rw [List.mem_singleton.mp hy']
            exact Or.inr hskip2
        · exact hidv2

theorem dfsVisit_reach (succ : String → List String) (cs : Bool) :
    ∀ (n : Nat) (stack : List String) (id : String) (s : DfsState)
      (y : String),
      y ∈ (dfsVisit succ cs n stack id s).result →
      y ∈ s.result ∨ Reaches succ id y := by
  intro n
  induction n with
  | zero =>
    intro stack id s y hy
    exact Or.inl hy
  | succ n ih =>
    intro stack id s y hy
    by_cases hskip1 : (cs ∧ id ∈ stack : Prop)
    · rw [show dfsVisit succ cs (n + 1) stack id s = s from by
        simp [dfsVisit, hskip1]] at hy
      exact Or.inl hy
    · by_cases hskip2 : id ∈ s.visited
      · rw [show dfsVisit succ cs (n + 1) stack id s = s from by
          simp [dfsVisit, hskip1, hskip2]] at hy
        exact Or.inl hy
      · have haux : ∀ (l : List String) (st : List String) (t : DfsState)
            (y : String),
            y ∈ (l.foldl (fun t' d => dfsVisit succ cs n st d t') t).result →
            y ∈ t.result ∨ ∃ d ∈ l, Reaches succ d y := by
          intro l
          induction l with
          | nil =>
            intro st t y hy
            exact Or.inl hy
          | cons d rest ihl =>
            intro st t y hy
            rw [List.foldl_cons] at hy
            rcases ihl st (dfsVisit succ cs n st d t) y hy with hy1 | hy1
            · rcases ih st d t y hy1 with hy2 | hy2
              · exact Or.inl hy2
              · exact Or.inr ⟨d, List.mem_cons_self _ _, hy2⟩
            · obtain ⟨e, he, hre⟩ := hy1
              exact Or.inr ⟨e, List.mem_cons_of_mem _ he, hre⟩
        rw [show dfsVisit succ cs (n + 1) stack id s =
            ⟨((succ id).foldl
                (fun t d => dfsVisit succ cs n (stack ++ [id]) d t)
                ⟨s.visited ++ [id], s.result⟩).visited,
              ((succ id).foldl
                (fun t d => dfsVisit succ cs n (stack ++ [id]) d t)
                ⟨s.visited ++ [id], s.result⟩).result ++ [id]⟩ from by
          simp only [dfsVisit, hskip1, hskip2]
          simp] at hy
        rcases List.mem_append.mp hy with hy' | hy'
        · rcases haux (succ id) (stack ++ [id])
            ⟨s.visited ++ [id], s.result⟩ y hy' with hy1 | hy1
          · exact Or.inl hy1
          · obtain ⟨d, hd, hrd⟩ := hy1
            exact Or.inr (Reaches.trans (Reaches.step (Reaches.refl id) hd) hrd)
        · rw [List.mem_singleton.mp hy']
          exact Or.inr (Reaches.refl id)

theorem get_append_length (l1 : List String) (a : String) (t : List String)
    (h : l1.length < (l1 ++ a :: t).length) :
    (l1 ++ a :: t).get ⟨l1.length, h⟩ = a := by
  induction l1 with
  | nil => rfl
  | cons x rest ih => exact ih _

theorem before_index_lt {l : List String} (hnd : l.Nodup) {a b : String}
    (hb : Before l a b) {ia ib : Nat} (hia : ia < l.length)
    (hib : ib < l.length) (ha : l.get ⟨ia, hia⟩ = a)
    (hbg : l.get ⟨ib, hib⟩ = b) : ia < ib := by
  obtain ⟨l1, l2, l3, rfl⟩ := hb
  have hpa : l1.length < (l1 ++ a :: (l2 ++ b :: l3)).length := by
    simp
  have hga : (l1 ++ a :: (l2 ++ b :: l3)).get ⟨l1.length, hpa⟩ = a :=
    get_append_length l1 a (l2 ++ b :: l3) hpa
  have hassoc : l1 ++ a :: (l2 ++ b :: l3) = (l1 ++ a :: l2) ++ b :: l3 := by
    simp
  have hpb : (l1 ++ a :: l2).length <
      (l1 ++ a :: (l2 ++ b :: l3)).length := by
    simp
  have hgb : (l1 ++ a :: (l2 ++ b :: l3)).get ⟨(l1 ++ a :: l2).length, hpb⟩
      = b := by
    rw [List.get_of_eq hassoc]
    exact get_append_length (l1 ++ a :: l2) b l3 _
  have hia' : (⟨ia, hia⟩ : Fin _) = ⟨l1.length, hpa⟩ :=
    hnd.get_inj_iff.mp (ha.trans hga.symm)
  have hib' : (⟨ib, hib⟩ : Fin _) = ⟨(l1 ++ a :: l2).length, hpb⟩ :=
    hnd.get_inj_iff.mp (hbg.trans hgb.symm)
  have h1 : ia = l1.length := congrArg Fin.val hia'
  have h2 : ib = (l1 ++ a :: l2).length := congrArg Fin.val hib'
  rw [h1, h2]
  simp

theorem get_reverse_eq (l : List String) (i : Nat) (h : i < l.reverse.length)
    (h2 : l.length - 1 - i < l.length) :
    l.reverse.get ⟨i, h⟩ = l.get ⟨l.length - 1 - i, h2⟩ := by
  simp only [List.get_eq_getElem]
  rw [List.getElem_reverse]

theorem dfsVisit_succ_fresh (succ : String → List String) (cs : Bool)
    (n : Nat) (stack : List String) (id : String) (s : DfsState)
    (h1 : ¬(cs ∧ id ∈ stack)) (h2 : id ∉ s.visited) :
    dfsVisit succ cs (n + 1) stack id s =
      ⟨((succ id).foldl (fun t d => dfsVisit succ cs n (stack ++ [id]) d t)
          ⟨s.visited ++ [id], s.result⟩).visited,
        ((succ id).foldl (fun t d => dfsVisit succ cs n (stack ++ [id]) d t)
          ⟨s.visited ++ [id], s.result⟩).result ++ [id]⟩ := by
  simp only [dfsVisit, h1, h2]
  simp

theorem getUpdateChain_head (g : ModuleGraph) (x : String) :
    (getUpdateChain g x).head? = some x ∧ x ∈ getUpdateChain g x := by
  unfold getUpdateChain udFuel
  rw [dfsVisit_succ_fresh _ _ _ _ _ _ (by simp) (by simp)]
  constructor
  · simp
  · simp

theorem dependents_univ (g : ModuleGraph) (x : String) :
    ∀ u v, v ∈ getDependents g u →
      v ∈ x :: (g.reverseDependencyGraph.map Prod.snd).flatten := by
  intro u v hv
  unfold getDependents at hv
  cases hm : mapGet? g.reverseDependencyGraph u with
  | none =>
    rw [hm] at hv
    cases hv
  | some l =>
    rw [hm] at hv
    simp only [Option.getD_some] at hv
    refine List.mem_cons_of_mem _ (List.mem_flatten.mpr ⟨l, ?_, hv⟩)
    exact List.mem_map.mpr ⟨(u, l), mapGet?_eq_some_mem hm, rfl⟩

theorem dfsInvState_empty (succ : String → List String) (U : List String) :
    DfsInvState succ U [] ⟨[], []⟩ := by
  refine ⟨?_, ?_, ?_, ?_, ?_, ?_, ?_⟩ <;> simp

/-! ## Claim C2 -/

/-- C2 counterexample: a two-module import cycle `a ↔ b`.  The chain from
`"a"` is `["a", "b"]`, yet `"b"` — at position 1 — is among the imports of
`"a"` — at position 0 — so the chain is not topologically ordered: on a
cycle no order can be. -/
theorem claim2_counterexample :
    getUpdateChain (applyOps [("a", ["b"], true), ("b", ["a"], true)]) "a"
      = ["a", "b"] ∧
    "b" ∈ importsOf (applyOps [("a", ["b"], true), ("b", ["a"], true)]) "a" := by
  decide

/-- C2 amended: for every reachable graph state whose recorded importer
relation is acyclic, `getUpdateChain x` contains `x`, contains only modules
reachable from `x` through reverse (importer) edges, starts with `x` (hence
places the changed module before its transitive importers), and is
topologically ordered: for positions `i < j`, the element at `j` is not
among the forward imports of the element at `i`.  On a cyclic graph the
ordering clause fails (see the counterexample), which forces the acyclicity
proviso. -/
theorem claim2_amended (ops : List UpdateOp) (x : String)
    (hacyc : NoCycle (getDependents (applyOps ops))) :
    x ∈ getUpdateChain (applyOps ops) x ∧
    (∀ y ∈ getUpdateChain (applyOps ops) x,
      Reaches (getDependents (applyOps ops)) x y) ∧
    (getUpdateChain (applyOps ops) x).head? = some x ∧
    (∀ (i j : Nat) (hi : i < (getUpdateChain (applyOps ops) x).length)
      (hj : j < (getUpdateChain (applyOps ops) x).length), i < j →
      (getUpdateChain (applyOps ops) x).get ⟨j, hj⟩ ∉
        importsOf (applyOps ops)
          ((getUpdateChain (applyOps ops) x).get ⟨i, hi⟩)) := by
  have hmirror := (graphInv_applyOps ops).2.1
  obtain ⟨⟨hinv, _, _, _⟩, _⟩ :=
    dfsVisit_spec (getDependents (applyOps ops)) true
      (x :: ((applyOps ops).reverseDependencyGraph.map Prod.snd).flatten)
      (dependents_univ (applyOps ops) x) hacyc (udFuel (applyOps ops) x) [] x
      ⟨[], []⟩ (List.mem_cons_self _ _)
      (by unfold udFuel; omega)
      (by intro v hv; cases hv)
      (dfsInvState_empty _ _)
  refine ⟨(getUpdateChain_head (applyOps ops) x).2, ?_,
    (getUpdateChain_head (applyOps ops) x).1, ?_⟩
  · intro y hy
    rw [show getUpdateChain (applyOps ops) x =
      (dfsVisit (getDependents (applyOps ops)) true (udFuel (applyOps ops) x)
        [] x ⟨[], []⟩).result.reverse from rfl, List.mem_reverse] at hy
    rcases dfsVisit_reach (getDependents (applyOps ops)) true
      (udFuel (applyOps ops) x) [] x ⟨[], []⟩ y hy with h | h
    · cases h
    · exact h
  · intro i j hi hj hij hq
    have hchain : getUpdateChain (applyOps ops) x =
        (dfsVisit (getDependents (applyOps ops)) true (udFuel (applyOps ops) x)
          [] x ⟨[], []⟩).result.reverse := rfl
    set r := (dfsVisit (getDependents (applyOps ops)) true
      (udFuel (applyOps ops) x) [] x ⟨[], []⟩).result with hrdef
    have hlen : (getUpdateChain (applyOps ops) x).length = r.length := by
      rw [hchain]
      exact List.length_reverse _
    have hi2 : r.length - 1 - i < r.length := by omega
    have hj2 : r.length - 1 - j < r.length := by omega
    have hpi : (getUpdateChain (applyOps ops) x).get ⟨i, hi⟩ =
        r.get ⟨r.length - 1 - i, hi2⟩ := by
      rw [show (getUpdateChain (applyOps ops) x).get ⟨i, hi⟩ =
        r.reverse.get ⟨i, hchain ▸ hi⟩ from by congr 1]
      exact get_reverse_eq r i _ hi2
    have hpj : (getUpdateChain (applyOps ops) x).get ⟨j, hj⟩ =
        r.get ⟨r.length - 1 - j, hj2⟩ := by
      rw [show (getUpdateChain (applyOps ops) x).get ⟨j, hj⟩ =
        r.reverse.get ⟨j, hchain ▸ hj⟩ from by congr 1]
      exact get_reverse_eq r j _ hj2
    rw [hpi, hpj] at hq
    have hqmem : r.get ⟨r.length - 1 - j, hj2⟩ ∈ r :=
      r.get_mem _ _
    obtain ⟨hpmem, hbefore⟩ := hinv.post _ hqmem _
      (hmirror (r.get ⟨r.length - 1 - i, hi2⟩)
        (r.get ⟨r.length - 1 - j, hj2⟩) hq)
    have hlt := before_index_lt hinv.rnodup hbefore hi2 hj2 rfl rfl
    omega

theorem witness_graph_edge_char (u v : String)
    (hv : v ∈ getDependents (applyOps [("b", [], true), ("a", ["b"], true)]) u) :
    u = "b" ∧ v = "a" := by
  have hrev : (applyOps [("b", [], true), ("a", ["b"], true)]).reverseDependencyGraph
      = [("b", ["a"])] := by decide
  unfold getDependents at hv
  rw [hrev] at hv
  by_cases hu : ("b" : String) = u
  · rw [show mapGet? [("b", ["a"])] u = some ["a"] from by
      simp [mapGet?, hu]] at hv
    simp at hv
    exact ⟨hu.symm, hv⟩
  · rw [show mapGet? [("b", ["a"])] u = none from by
      simp [mapGet?, hu]] at hv
    cases hv

theorem witness_graph_noCycle :
    NoCycle (getDependents (applyOps [("b", [], true), ("a", ["b"], true)])) := by
  intro y z hreach hedge
  obtain ⟨hz, hy⟩ := witness_graph_edge_char z y hedge
  subst hz
  subst hy
  have hmain : ∀ p q,
      Reaches (getDependents (applyOps [("b", [], true), ("a", ["b"], true)]))
        p q → p = "a" → q = "a" := by
    intro p q h
    induction h with
    | refl => exact fun h' => h'
    | step hr hedge' ih =>
      intro _
      exact (witness_graph_edge_char _ _ hedge').2
  have hba : ("b" : String) = "a" := hmain "a" "b" hreach rfl
  exact absurd hba (by decide)

/-- Witness for the amended C2 on the concrete acyclic graph `a → b`
(module `a` imports `b`, so `a` is `b`'s importer). -/
theorem claim2_amended_witness :
    "b" ∈ getUpdateChain (applyOps [("b", [], true), ("a", ["b"], true)]) "b" ∧
    (∀ y ∈ getUpdateChain (applyOps [("b", [], true), ("a", ["b"], true)]) "b",
      Reaches (getDependents (applyOps [("b", [], true), ("a", ["b"], true)]))
        "b" y) ∧
    (getUpdateChain (applyOps [("b", [], true), ("a", ["b"], true)]) "b").head?
      = some "b" ∧
    (∀ (i j : Nat)
      (hi : i < (getUpdateChain (applyOps
        [("b", [], true), ("a", ["b"], true)]) "b").length)
      (hj : j < (getUpdateChain (applyOps
        [("b", [], true), ("a", ["b"], true)]) "b").length), i < j →
      (getUpdateChain (applyOps [("b", [], true), ("a", ["b"], true)]) "b").get
          ⟨j, hj⟩ ∉
        importsOf (applyOps [("b", [], true), ("a", ["b"], true)])
          ((getUpdateChain (applyOps
            [("b", [], true), ("a", ["b"], true)]) "b").get ⟨i, hi⟩)) :=
  claim2_amended [("b", [], true), ("a", ["b"], true)] "b" witness_graph_noCycle

/-! ## Claim C9: SCC lemmas -/

theorem mem_keys_mapSet {m : List (String × α)} {k j : String} {v : α}
    (h : j ∈ (mapSet m k v).map Prod.fst) : j ∈ m.map Prod.fst ∨ j = k := by
  rcases List.mem_map.mp h with ⟨p, hp, rfl⟩
  rcases mem_mapSet hp with hp' | hp'
  · exact Or.inl (List.mem_map.mpr ⟨p, hp', rfl⟩)
  · exact Or.inr (by rw [hp'])

theorem mapSet_keys_nodup {m : List (String × α)}
    (hnd : (m.map Prod.fst).Nodup) (k : String) (v : α) :
    ((mapSet m k v).map Prod.fst).Nodup := by
  induction m with
  | nil => simp [mapSet]
  | cons p rest ih =>
    simp only [List.map_cons, List.nodup_cons] at hnd
    by_cases hp : p.1 = k
    · simp only [mapSet, if_pos hp, List.map_cons, List.nodup_cons]
      exact ⟨hp ▸ hnd.1, hnd.2⟩
    · simp only [mapSet, if_neg hp, List.map_cons, List.nodup_cons]
      refine ⟨?_, ih hnd.2⟩
      intro hmem
      rcases mem_keys_mapSet hmem with h' | h'
      · exact hnd.1 h'
      · exact hp h'

theorem applyOps_dg_keys_nodup (ops : List UpdateOp) :
    ((applyOps ops).dependencyGraph.map Prod.fst).Nodup := by
  have haux : ∀ (l : List UpdateOp) (g : ModuleGraph),
      (g.dependencyGraph.map Prod.fst).Nodup →
      (((l.foldl (fun g' op => updateModule g' op.1 op.2.1 op.2.2) g)).dependencyGraph.map Prod.fst).Nodup := by
    intro l
    induction l with
    | nil => exact fun g hg => hg
    | cons op rest ih =>
      intro g hg
      refine ih _ ?_
      rw [updateModule_dependencyGraph]
      exact mapSet_keys_nodup hg _ _
  exact haux ops emptyGraph (by simp [emptyGraph])

theorem mapGet?_eq_of_mem_nodup {m : List (String × α)}
    (hnd : (m.map Prod.fst).Nodup) {k : String} {v : α} (h : (k, v) ∈ m) :
    mapGet? m k = some v := by
  induction m with
  | nil => cases h
  | cons p rest ih =>
    simp only [List.map_cons, List.nodup_cons] at hnd
    rcases List.mem_cons.mp h with rfl | h'
    · simp [mapGet?]
    · have hpk : ¬p.1 = k := by
        intro hpk
        exact hnd.1 (hpk ▸ List.mem_map.mpr ⟨(k, v), h', rfl⟩)
      simp only [mapGet?, if_neg hpk]
      exact ih hnd.2 h'

theorem transposed_edge (g : ModuleGraph) (w u : String)
    (hu : u ∈ (mapGet? (buildTransposed g) w).getD []) :
    ∃ deps, (u, deps) ∈ g.dependencyGraph ∧ w ∈ deps := by
  have hinner : ∀ (id : String) (deps : List String)
      (t : List (String × List String)) (w u : String),
      u ∈ (mapGet? (deps.foldl (fun t' depId =>
        mapSet t' depId (insertOnce ((mapGet? t' depId).getD []) id)) t) w).getD [] →
      u ∈ (mapGet? t w).getD [] ∨ (u = id ∧ w ∈ deps) := by
    intro id deps
    induction deps with
    | nil => exact fun t w u h => Or.inl h
    | cons d rest ih =>
      intro t w u h
      rw [List.foldl_cons] at h
      rcases ih _ w u h with h' | h'
      · by_cases hw : w = d
        · subst hw
          rw [mapGet?_mapSet_self] at h'
          simp only [Option.getD_some] at h'
          rcases mem_insertOnce.mp h' with h'' | h''
          · exact Or.inl h''
          · exact Or.inr ⟨h'', List.mem_cons_self _ _⟩
        · rw [mapGet?_mapSet_ne _ _ _ _ hw] at h'
          exact Or.inl h'
      · exact Or.inr ⟨h'.1, List.mem_cons_of_mem _ h'.2⟩
  have houter : ∀ (entries : List (String × List String))
      (t : List (String × List String)) (w u : String),
      u ∈ (mapGet? (entries.foldl (fun t p =>
        p.2.foldl (fun t' depId =>
          mapSet t' depId (insertOnce ((mapGet? t' depId).getD []) p.1)) t) t) w).getD [] →
      u ∈ (mapGet? t w).getD [] ∨ ∃ deps, (u, deps) ∈ entries ∧ w ∈ deps := by
    intro entries
    induction entries with
    | nil => exact fun t w u h => Or.inl h
    | cons p rest ih =>
      intro t w u h
      rw [List.foldl_cons] at h
      rcases ih _ w u h with h' | h'
      · rcases hinner p.1 p.2 t w u h' with h'' | h''
        · exact Or.inl h''
        · refine Or.inr ⟨p.2, ?_, h''.2⟩
          rw [h''.1]
          exact List.mem_cons_self _ _
      · obtain ⟨deps, hd, hw⟩ := h'
        exact Or.inr ⟨deps, List.mem_cons_of_mem _ hd, hw⟩
  rcases houter g.dependencyGraph [] w u hu with h | h
  · simp [mapGet?] at h
  · exact h

theorem assignVisit_skip (tsucc : String → List String) (n : Nat) :
    ∀ (l : List String) (st : List String × List String),
      (∀ u ∈ l, u ∈ st.1) →
      l.foldl (fun st' d => assignVisit tsucc n d st') st = st := by
  intro l
  induction l with
  | nil => exact fun st _ => rfl
  | cons u rest ih =>
    intro st hst
    rw [List.foldl_cons]
    have hstep : assignVisit tsucc n u st = st := by
      cases n with
      | zero => rfl
      | succ m =>
        have hu : u ∈ st.1 := hst u (List.mem_cons_self _ _)
        cases st with
        | mk vis comp => simp [assignVisit, hu]
    rw [hstep]
    exact ih st (fun v hv => hst v (List.mem_cons_of_mem _ hv))

theorem assignVisit_all_visited (tsucc : String → List String) (n : Nat)
    (id : String) (vis comp : List String) (hid : id ∉ vis)
    (hsuccs : ∀ u ∈ tsucc id, u ∈ vis) :
    assignVisit tsucc (n + 1) id (vis, comp) = (vis ++ [id], comp ++ [id]) := by
  have h1 : assignVisit tsucc (n + 1) id (vis, comp) =
      (tsucc id).foldl (fun st' d => assignVisit tsucc n d st')
        (vis ++ [id], comp ++ [id]) := by
    simp [assignVisit, hid]
  rw [h1, assignVisit_skip tsucc n (tsucc id) (vis ++ [id], comp ++ [id])
    (fun u hu => List.mem_append_left _ (hsuccs u hu))]

theorem sccLoop_sizes (tsucc : String → List String) (fuel : Nat) :
    ∀ (order vis : List String) (comps : List (List String)),
      (∀ c ∈ comps, 2 ≤ c.length) →
      ∀ c ∈ (sccLoop tsucc fuel order vis comps).2, 2 ≤ c.length := by
  intro order
  induction order with
  | nil => exact fun vis comps h => h
  | cons id rest ih =>
    intro vis comps h
    by_cases hid : id ∈ vis
    · rw [show sccLoop tsucc fuel (id :: rest) vis comps =
        sccLoop tsucc fuel rest vis comps from by simp [sccLoop, hid]]
      exact ih vis comps h
    · rw [show sccLoop tsucc fuel (id :: rest) vis comps =
        sccLoop tsucc fuel rest (assignVisit tsucc fuel id (vis, [])).1
          (if (assignVisit tsucc fuel id (vis, [])).2.length > 1 then
            comps ++ [(assignVisit tsucc fuel id (vis, [])).2] else comps)
        from by simp [sccLoop, hid]]
      refine ih _ _ ?_
      intro c hc
      by_cases hlen : (assignVisit tsucc fuel id (vis, [])).2.length > 1
      · rw [if_pos hlen] at hc
        rcases List.mem_append.mp hc with hc' | hc'
        · exact h c hc'
        · rw [List.mem_singleton.mp hc']
          omega
      · rw [if_neg hlen] at hc
        exact h c hc

theorem mem_take_of_get (l : List String) (k j : Nat) (hj : j < l.length)
    (hjk : j < k) : l.get ⟨j, hj⟩ ∈ l.take k := by
  have hlt : j < (l.take k).length := by
    rw [List.length_take]
    omega
  have heq : l.get ⟨j, hj⟩ = (l.take k).get ⟨j, hlt⟩ := by
    simp [List.get_eq_getElem, List.getElem_take]
  rw [heq]
  exact List.get_mem _ _ _

theorem sccLoop_singletons (tsucc : String → List String) (n : Nat) :
    ∀ (rem processed vis : List String) (comps : List (List String)),
      (∀ y, y ∈ vis ↔ y ∈ processed) →
      (processed ++ rem).Nodup →
      (∀ (i : Nat) (hi : i < rem.length), ∀ u ∈ tsucc (rem.get ⟨i, hi⟩),
        u ∈ processed ++ rem.take i) →
      (sccLoop tsucc (n + 1) rem vis comps).2 = comps := by
  intro rem
  induction rem with
  | nil =>
    intro processed vis comps _ _ _
    rfl
  | cons id rest ih =>
    intro processed vis comps hvis hnd hsuc
    have hidp : id ∉ processed := by
      intro hmem
      exact (List.disjoint_of_nodup_append hnd) hmem (List.mem_cons_self _ _)
    have hidv : id ∉ vis := fun h => hidp ((hvis id).mp h)
    have hsuccs0 : ∀ u ∈ tsucc id, u ∈ vis := by
      intro u hu
      have h0 := hsuc 0 (by simp) u (by simpa using hu)
      refine (hvis u).mpr ?_
      simpa using h0
    rw [show sccLoop tsucc (n + 1) (id :: rest) vis comps =
      sccLoop tsucc (n + 1) rest
        (assignVisit tsucc (n + 1) id (vis, [])).1
        (if (assignVisit tsucc (n + 1) id (vis, [])).2.length > 1 then
          comps ++ [(assignVisit tsucc (n + 1) id (vis, [])).2] else comps)
      from by simp [sccLoop, hidv]]
    rw [assignVisit_all_visited tsucc n id vis [] hidv hsuccs0]
    rw [if_neg (by simp)]
    refine ih (processed ++ [id]) (vis ++ [id]) comps ?_ ?_ ?_
    · intro y
      simp only [List.mem_append, List.mem_singleton]
      constructor
      · intro hy
        rcases hy with hy | hy
        · exact Or.inl ((hvis y).mp hy)
        · exact Or.inr hy
      · intro hy
        rcases hy with hy | hy
        · exact Or.inl ((hvis y).mpr hy)
        · exact Or.inr hy
    · rw [List.append_assoc, List.singleton_append]
      exact hnd
    · intro i hi u hu
      have hlt : i + 1 < (id :: rest).length := by
        simpa using Nat.succ_lt_succ hi
      have h1 := hsuc (i + 1) hlt u hu
      rw [List.take_succ_cons] at h1
      rw [List.append_assoc, List.singleton_append]
      exact h1

/-! ## Claim C9 theorems -/

/-- C9 counterexample: a module with a self-edge.  Its singleton SCC has a
self-loop, but the source only keeps components of size at least 2
(`component.length > 1`), so nothing is returned. -/
theorem claim9_counterexample :
    "a" ∈ importsOf (applyOps [("a", ["a"], true)]) "a" ∧
    (getModule (applyOps [("a", ["a"], true)]) "a").isSome ∧
    detectStronglyConnectedComponents (applyOps [("a", ["a"], true)]) = [] := by
  decide

/-! ## General-graph DFS invariant

The acyclic invariant above is not available on cyclic graphs; for the SCC
computation the postorder property weakens to: every successor of a finished
node is visited, and either finished strictly earlier or reaches back to the
node (it was grey — an ancestor on the recursion stack — when the node
finished). -/

structure DfsInv2 (succ : String → List String) (U stack : List String)
    (s : DfsState) : Prop where
  vsub : ∀ y ∈ s.visited, y ∈ U
  vnodup : s.visited.Nodup
  ssub : ∀ y ∈ stack, y ∈ s.visited
  vchar : ∀ y, y ∈ s.visited ↔ (y ∈ s.result ∨ y ∈ stack)
  snores : ∀ y ∈ stack, y ∉ s.result
  post2 : ∀ u ∈ s.result, ∀ v ∈ succ u,
    v ∈ s.visited ∧ (Before s.result v u ∨ Reaches succ v u)
  rnodup : s.result.Nodup

theorem dfsInv2_empty (succ : String → List String) (U : List String) :
    DfsInv2 succ U [] ⟨[], []⟩ := by
  refine ⟨?_, ?_, ?_, ?_, ?_, ?_, ?_⟩ <;> simp

theorem dfsInv2_push (succ : String → List String) (U stack : List String)
    (s : DfsState) (id : String) (hid : id ∈ U) (hfresh : id ∉ s.visited)
    (hinv : DfsInv2 succ U stack s) :
    DfsInv2 succ U (stack ++ [id]) ⟨s.visited ++ [id], s.result⟩ := by
  have hidres : id ∉ s.result := fun h => hfresh ((hinv.vchar id).mpr (Or.inl h))
  refine ⟨?_, ?_, ?_, ?_, ?_, ?_, ?_⟩
  · intro y hy
    rcases List.mem_append.mp hy with hy' | hy'
    · exact hinv.vsub y hy'
    · rw [List.mem_singleton.mp hy']
      exact hid
  · rw [List.nodup_append]
    exact ⟨hinv.vnodup, List.nodup_singleton id,
      fun y hy hy' => hfresh ((List.mem_singleton.mp hy') ▸ hy)⟩
  · intro y hy
    rcases List.mem_append.mp hy with hy' | hy'
    · exact List.mem_append_left _ (hinv.ssub y hy')
    · exact List.mem_append_right _ hy'
  · intro y
    constructor
    · intro hy
      rcases List.mem_append.mp hy with hy' | hy'
      · rcases (hinv.vchar y).mp hy' with hr | hs
        · exact Or.inl hr
        · exact Or.inr (List.mem_append_left _ hs)
      · exact Or.inr (List.mem_append_right _ hy')
    · intro hy
      rcases hy with hr | hs
      · exact List.mem_append_left _ ((hinv.vchar y).mpr (Or.inl hr))
      · rcases List.mem_append.mp hs with hs' | hs'
        · exact List.mem_append_left _ (hinv.ssub y hs')
        · exact List.mem_append_right _ hs'
  · intro y hy
    rcases List.mem_append.mp hy with hy' | hy'
    · exact hinv.snores y hy'
    · rw [List.mem_singleton.mp hy']
      exact hidres
  · intro u hu v hv
    obtain ⟨h1, h2⟩ := hinv.post2 u hu v hv
    exact ⟨List.mem_append_left _ h1, h2⟩
  · exact hinv.rnodup

theorem dfsFold_spec2 (succ : String → List String) (cs : Bool)
    (U : List String) (n : Nat)
    (IH : ∀ (stack : List String) (id : String) (s : DfsState),
      id ∈ U → U.length + 1 ≤ n + s.visited.length →
      (∀ v ∈ stack, Reaches succ v id) → DfsInv2 succ U stack s →
      (DfsInv2 succ U stack (dfsVisit succ cs n stack id s) ∧
        (∃ v, (dfsVisit succ cs n stack id s).visited = s.visited ++ v) ∧
        (∃ r, (dfsVisit succ cs n stack id s).result = s.result ++ r) ∧
        (∀ y ∈ (dfsVisit succ cs n stack id s).result,
          y ∈ s.result ∨ y ∉ s.visited)) ∧
      id ∈ (dfsVisit succ cs n stack id s).visited) :
    ∀ (l : List String) (stack : List String) (s : DfsState),
      (∀ d ∈ l, d ∈ U) →
      U.length + 1 ≤ n + s.visited.length →
      (∀ d ∈ l, ∀ v ∈ stack, Reaches succ v d) →
      DfsInv2 succ U stack s →
      DfsInv2 succ U stack
        (l.foldl (fun t d => dfsVisit succ cs n stack d t) s) ∧
      (∃ v, (l.foldl (fun t d => dfsVisit succ cs n stack d t) s).visited =
        s.visited ++ v) ∧
      (∃ r, (l.foldl (fun t d => dfsVisit succ cs n stack d t) s).result =
        s.result ++ r) ∧
      (∀ y ∈ (l.foldl (fun t d => dfsVisit succ cs n stack d t) s).result,
        y ∈ s.result ∨ y ∉ s.visited) ∧
      (∀ d ∈ l,
        d ∈ (l.foldl (fun t d => dfsVisit succ cs n stack d t) s).visited) := by
  intro l
  induction l with
  | nil =>
    intro stack s hU hfuel hreach hinv
    refine ⟨hinv, ⟨[], by simp⟩, ⟨[], by simp⟩, fun y hy => Or.inl hy, ?_⟩
    intro d hd
    cases hd
  | cons d rest ihl =>
    intro stack s hU hfuel hreach hinv
    have hdU : d ∈ U := hU d (List.mem_cons_self _ _)
    have hdreach : ∀ v ∈ stack, Reaches succ v d :=
      fun v hv => hreach d (List.mem_cons_self _ _) v hv
    obtain ⟨⟨hinv1, ⟨v1, hv1⟩, ⟨r1, hr1⟩, hfresh1⟩, hdmem⟩ :=
      IH stack d s hdU hfuel hdreach hinv
    have hfuel1 : U.length + 1 ≤ n + (dfsVisit succ cs n stack d s).visited.length := by
      rw [hv1, List.length_append]
      omega
    have hUrest : ∀ e ∈ rest, e ∈ U :=
      fun e he => hU e (List.mem_cons_of_mem _ he)
    have hreachrest : ∀ e ∈ rest, ∀ v ∈ stack, Reaches succ v e :=
      fun e he => hreach e (List.mem_cons_of_mem _ he)
    obtain ⟨hinv2, ⟨v2, hv2⟩, ⟨r2, hr2⟩, hfresh2, hmem2⟩ :=
      ihl stack (dfsVisit succ cs n stack d s) hUrest hfuel1 hreachrest hinv1
    rw [List.foldl_cons]
    refine ⟨hinv2, ⟨v1 ++ v2, by rw [hv2, hv1, List.append_assoc]⟩,
      ⟨r1 ++ r2, by rw [hr2, hr1, List.append_assoc]⟩, ?_, ?_⟩
    · intro y hy
      rcases hfresh2 y hy with hy1 | hy1
      · rcases hfresh1 y hy1 with hy2 | hy2
        · exact Or.inl hy2
        · exact Or.inr hy2
      · refine Or.inr (fun hmem => hy1 ?_)
        rw [hv1]
        exact List.mem_append_left _ hmem
    · intro e he
      rcases List.mem_cons.mp he with rfl | he'
      · rw [hv2]
        exact List.mem_append_left _ hdmem
      · exact hmem2 e he'

theorem dfsVisit_spec2 (succ : String → List String) (cs : Bool)
    (U : List String) (hsucc : ∀ u v, v ∈ succ u → v ∈ U) :
    ∀ (n : Nat) (stack : List String) (id : String) (s : DfsState),
      id ∈ U →
      U.length + 1 ≤ n + s.visited.length →
      (∀ v ∈ stack, Reaches succ v id) →
      DfsInv2 succ U stack s →
      (DfsInv2 succ U stack (dfsVisit succ cs n stack id s) ∧
        (∃ v, (dfsVisit succ cs n stack id s).visited = s.visited ++ v) ∧
        (∃ r, (dfsVisit succ cs n stack id s).result = s.result ++ r) ∧
        (∀ y ∈ (dfsVisit succ cs n stack id s).result,
          y ∈ s.result ∨ y ∉ s.visited)) ∧
      id ∈ (dfsVisit succ cs n stack id s).visited := by
  intro n
  induction n with
  | zero =>
    intro stack id s hid hfuel hstack hinv
    exfalso
    have hle : s.visited.length ≤ U.length :=
      (hinv.vnodup.subperm (fun y hy => hinv.vsub y hy)).length_le
    omega
  | succ n ih =>
    intro stack id s hid hfuel hstack hinv
    by_cases hskip1 : (cs ∧ id ∈ stack : Prop)
    · rw [show dfsVisit succ cs (n + 1) stack id s = s from by
        simp [dfsVisit, hskip1]]
      exact ⟨⟨hinv, ⟨[], by simp⟩, ⟨[], by simp⟩, fun y hy => Or.inl hy⟩,
        hinv.ssub id hskip1.2⟩
    · by_cases hskip2 : id ∈ s.visited
      · rw [show dfsVisit succ cs (n + 1) stack id s = s from by
          simp [dfsVisit, hskip1, hskip2]]
        exact ⟨⟨hinv, ⟨[], by simp⟩, ⟨[], by simp⟩, fun y hy => Or.inl hy⟩,
          hskip2⟩
      · have hidstack : id ∉ stack := fun h => hskip2 (hinv.ssub id h)
        have hidres : id ∉ s.result := fun h =>
          hskip2 ((hinv.vchar id).mpr (Or.inl h))
        have hinv1 : DfsInv2 succ U (stack ++ [id])
            ⟨s.visited ++ [id], s.result⟩ :=
          dfsInv2_push succ U stack s id hid hskip2 hinv
        have hfuel1 : U.length + 1 ≤
            n + (⟨s.visited ++ [id], s.result⟩ : DfsState).visited.length := by
          simp only [List.length_append, List.length_singleton]
          omega
        have hsuccU : ∀ e ∈ succ id, e ∈ U := fun e he => hsucc id e he
        have hsuccreach : ∀ e ∈ succ id, ∀ v ∈ stack ++ [id],
            Reaches succ v e := by
          intro e he v hv
          rcases List.mem_append.mp hv with hv' | hv'
          · exact Reaches.step (hstack v hv') he
          · rw [List.mem_singleton.mp hv']
            exact Reaches.step (Reaches.refl id) he
        obtain ⟨hinv2, ⟨v2, hv2⟩, ⟨r2, hr2⟩, hfresh2, hdmem2⟩ :=
          dfsFold_spec2 succ cs U n ih (succ id) (stack ++ [id])
            ⟨s.visited ++ [id], s.result⟩ hsuccU hfuel1 hsuccreach hinv1
        have hstep : dfsVisit succ cs (n + 1) stack id s =
            ⟨((succ id).foldl
                (fun t d => dfsVisit succ cs n (stack ++ [id]) d t)
                ⟨s.visited ++ [id], s.result⟩).visited,
              ((succ id).foldl
                (fun t d => dfsVisit succ cs n (stack ++ [id]) d t)
                ⟨s.visited ++ [id], s.result⟩).result ++ [id]⟩ := by
          simp only [dfsVisit, hskip1, hskip2]
          simp
        set s2 := (succ id).foldl
          (fun t d => dfsVisit succ cs n (stack ++ [id]) d t)
          ⟨s.visited ++ [id], s.result⟩ with hs2
        rw [hstep]
        have hidv2 : id ∈ s2.visited := by
          rw [hv2]
          exact List.mem_append_left _ (List.mem_append_right _
            (List.mem_singleton.mpr rfl))
        have hids2res : id ∉ s2.result :=
          hinv2.snores id (List.mem_append_right _ (List.mem_singleton.mpr rfl))
        refine ⟨⟨⟨?_, ?_, ?_, ?_, ?_, ?_, ?_⟩, ?_, ?_, ?_⟩, ?_⟩
        · exact fun y hy => hinv2.vsub y hy
        · exact hinv2.vnodup
        · intro y hy
          exact (hinv2.ssub y (List.mem_append_left _ hy))
        · intro y
          constructor
          · intro hy
            rcases (hinv2.vchar y).mp hy with hr | hs
            · exact Or.inl (List.mem_append_left _ hr)
            · rcases List.mem_append.mp hs with hs' | hs'
              · exact Or.inr hs'
              · exact Or.inl (List.mem_append_right _ hs')
          · intro hy
            rcases hy with hr | hs
            · rcases List.mem_append.mp hr with hr' | hr'
              · exact (hinv2.vchar y).mpr (Or.inl hr')
              · exact (hinv2.vchar y).mpr
                  (Or.inr (List.mem_append_right _ hr'))
            · exact (hinv2.vchar y).mpr
                (Or.inr (List.mem_append_left _ hs))
        · intro y hy hmem
          rcases List.mem_append.mp hmem with hm | hm
          · exact hinv2.snores y (List.mem_append_left _ hy) hm
          · exact hidstack ((List.mem_singleton.mp hm) ▸ hy)
        · intro u hu v hv
          rcases List.mem_append.mp hu with hu' | hu'
          · obtain ⟨hv1, hb1⟩ := hinv2.post2 u hu' v hv
            refine ⟨hv1, ?_⟩
            rcases hb1 with hb | hb
            · exact Or.inl (hb.append_right _)
            · exact Or.inr hb
          · rw [List.mem_singleton.mp hu'] at hv ⊢
            have hvvis : v ∈ s2.visited := hdmem2 v hv
            refine ⟨hvvis, ?_⟩
            rcases (hinv2.vchar v).mp hvvis with hr | hs
            · exact Or.inl (before_append_new id hr)
            · rcases List.mem_append.mp hs with hs' | hs'
              · exact Or.inr (hstack v hs')
              · have hveq : v = id := List.mem_singleton.mp hs'
                subst hveq
                exact Or.inr (Reaches.refl v)
        · rw [List.nodup_append]
          exact ⟨hinv2.rnodup, List.nodup_singleton id,
            fun y hy hy' => hids2res ((List.mem_singleton.mp hy') ▸ hy)⟩
        · refine ⟨[id] ++ v2, ?_⟩
          rw [hv2]
          simp
        · refine ⟨r2 ++ [id], ?_⟩
          rw [hr2]
          simp
        · intro y hy
          rcases List.mem_append.mp hy with hy' | hy'
          · rcases hfresh2 y hy' with hr | hr
            · exact Or.inl hr
            · refine Or.inr (fun hmem => hr ?_)
              exact List.mem_append_left _ hmem
          · rw [List.mem_singleton.mp hy']
            exact Or.inr hskip2
        · exact hidv2


/-! ## Constrained reachability

Paths whose vertices all satisfy a predicate (`ReachesIn`) or all avoid a
visited list (`ReachesNotIn`); both mirror `Reaches`. -/

inductive ReachesIn (succ : String → List String) (Q : String → Prop) :
    String → String → Prop
  | refl (x : String) : Q x → ReachesIn succ Q x x
  | step {x y z : String} : ReachesIn succ Q x y → z ∈ succ y → Q z →
      ReachesIn succ Q x z

inductive ReachesNotIn (succ : String → List String) (V : List String) :
    String → String → Prop
  | refl (x : String) : x ∉ V → ReachesNotIn succ V x x
  | step {x y z : String} : ReachesNotIn succ V x y → z ∈ succ y → z ∉ V →
      ReachesNotIn succ V x z

theorem ReachesIn.to_reaches {succ : String → List String}
    {Q : String → Prop} {a b : String} (h : ReachesIn succ Q a b) :
    Reaches succ a b := by
  induction h with
  | refl _ => exact Reaches.refl _
  | step _ he _ ih => exact Reaches.step ih he

theorem ReachesIn.weaken {succ : String → List String}
    {Q Q' : String → Prop} {a b : String} (h : ReachesIn succ Q a b)
    (himp : ∀ v, Q v → Q' v) : ReachesIn succ Q' a b := by
  induction h with
  | refl hq => exact ReachesIn.refl _ (himp _ hq)
  | step _ he hq ih => exact ReachesIn.step ih he (himp _ hq)

theorem ReachesIn.trans_in {succ : String → List String}
    {Q : String → Prop} {a b c : String} (hab : ReachesIn succ Q a b)
    (hbc : ReachesIn succ Q b c) : ReachesIn succ Q a c := by
  induction hbc with
  | refl _ => exact hab
  | step _ he hq ih => exact ReachesIn.step ih he hq

theorem ReachesNotIn.head_not_mem {succ : String → List String}
    {V : List String} {a b : String} (h : ReachesNotIn succ V a b) :
    a ∉ V := by
  induction h with
  | refl hq => exact hq
  | step _ _ _ ih => exact ih

theorem ReachesNotIn.last_not_mem {succ : String → List String}
    {V : List String} {a b : String} (h : ReachesNotIn succ V a b) :
    b ∉ V := by
  cases h with
  | refl hq => exact hq
  | step _ _ hq => exact hq

theorem ReachesNotIn.of_reachesIn {succ : String → List String}
    {Q : String → Prop} {V : List String} {a b : String}
    (h : ReachesIn succ Q a b) (hdis : ∀ v, Q v → v ∉ V) :
    ReachesNotIn succ V a b := by
  induction h with
  | refl hq => exact ReachesNotIn.refl _ (hdis _ hq)
  | step _ he hq ih => exact ReachesNotIn.step ih he (hdis _ hq)

/-- Every walk from `a` to `b` refines to one whose vertices are all between
`a` and `b` in the reachability order. -/
theorem reaches_strengthen {succ : String → List String} {a b : String}
    (h : Reaches succ a b) :
    ReachesIn succ (fun v => Reaches succ a v ∧ Reaches succ v b) a b := by
  induction h with
  | refl => exact ReachesIn.refl _ ⟨Reaches.refl _, Reaches.refl _⟩
  | step hay he ih =>
    refine ReachesIn.step (ih.weaken ?_) he ⟨Reaches.step hay he, Reaches.refl _⟩
    intro v hv
    exact ⟨hv.1, Reaches.step hv.2 he⟩

theorem reaches_first_step {succ : String → List String} {a b : String}
    (h : Reaches succ a b) : a = b ∨ ∃ w ∈ succ a, Reaches succ w b := by
  induction h with
  | refl => exact Or.inl rfl
  | step _ he ih =>
    rcases ih with rfl | ⟨w, hw, hwy⟩
    · exact Or.inr ⟨_, he, Reaches.refl _⟩
    · exact Or.inr ⟨w, hw, Reaches.step hwy he⟩

theorem reaches_last_step {succ : String → List String} {a b : String}
    (h : Reaches succ a b) : a = b ∨ ∃ w, Reaches succ a w ∧ b ∈ succ w := by
  cases h with
  | refl => exact Or.inl rfl
  | step hw he => exact Or.inr ⟨_, hw, he⟩

theorem reaches_prepend {succ : String → List String} {z y a : String}
    (he : y ∈ succ z) (h : Reaches succ y a) : Reaches succ z a :=
  Reaches.trans (Reaches.step (Reaches.refl z) he) h

/-! ## More `Before` lemmas -/

theorem Before.cons {l : List String} {a b : String} (h : Before l a b)
    (x : String) : Before (x :: l) a b := by
  obtain ⟨l1, l2, l3, rfl⟩ := h
  exact ⟨x :: l1, l2, l3, rfl⟩

theorem before_of_indices {l : List String} {a b : String} :
    ∀ (i j : Nat) (hi : i < l.length) (hj : j < l.length), i < j →
      l.get ⟨i, hi⟩ = a → l.get ⟨j, hj⟩ = b → Before l a b := by
  induction l with
  | nil =>
    intro i j hi
    simp at hi
  | cons x t ihl =>
    intro i j hi hj hij ha hb
    cases i with
    | zero =>
      cases j with
      | zero => omega
      | succ j' =>
        have hbt : b ∈ t := by
          have : t.get ⟨j', by simpa using hj⟩ = b := hb
          rw [← this]
          exact List.get_mem _ _ _
        obtain ⟨t1, t2, rfl⟩ := List.append_of_mem hbt
        exact ⟨[], t1, t2, by simpa using ha⟩
    | succ i' =>
      cases j with
      | zero => omega
      | succ j' =>
        have hrec := ihl i' j' (by simpa using hi) (by simpa using hj)
          (by omega) ha hb
        exact hrec.cons x
theorem before_trans {l : List String} (hnd : l.Nodup) {a b c : String}
    (hab : Before l a b) (hbc : Before l b c) : Before l a c := by
  obtain ⟨ia, hga⟩ := List.get_of_mem hab.mem_left
  obtain ⟨ib, hgb⟩ := List.get_of_mem hab.mem_right
  obtain ⟨ic, hgc⟩ := List.get_of_mem hbc.mem_right
  have h1 : ia.1 < ib.1 := before_index_lt hnd hab ia.2 ib.2 hga hgb
  have h2 : ib.1 < ic.1 := before_index_lt hnd hbc ib.2 ic.2 hgb hgc
  exact before_of_indices ia.1 ic.1 ia.2 ic.2 (by omega) hga hgc

/-- If `d` occurs in the prefix and `x` in the appended part, `d` comes
before `x`. -/
theorem before_append_inner {A Δ : List String} {d x : String}
    (hd : d ∈ A) (hx : x ∈ Δ) : Before (A ++ Δ) d x := by
  obtain ⟨a1, a2, rfl⟩ := List.append_of_mem hd
  obtain ⟨d1, d2, rfl⟩ := List.append_of_mem hx
  exact ⟨a1, a2 ++ d1, d2, by simp⟩


/-! ## DFS completeness and the first-discovery property -/

/-- Elements finished by a fold of visits are reachable from some list
element (standalone version of the auxiliary step of `dfsVisit_reach`). -/
theorem dfsFold_reach (succ : String → List String) (cs : Bool) (n : Nat) :
    ∀ (l : List String) (st : List String) (t : DfsState) (y : String),
      y ∈ (l.foldl (fun t' d => dfsVisit succ cs n st d t') t).result →
      y ∈ t.result ∨ ∃ d ∈ l, Reaches succ d y := by
  intro l
  induction l with
  | nil =>
    intro st t y hy
    exact Or.inl hy
  | cons d rest ihl =>
    intro st t y hy
    rw [List.foldl_cons] at hy
    rcases ihl st (dfsVisit succ cs n st d t) y hy with hy1 | hy1
    · rcases dfsVisit_reach succ cs n st d t y hy1 with hy2 | hy2
      · exact Or.inl hy2
      · exact Or.inr ⟨d, List.mem_cons_self _ _, hy2⟩
    · obtain ⟨e, he, hre⟩ := hy1
      exact Or.inr ⟨e, List.mem_cons_of_mem _ he, hre⟩

/-- Completeness of a single `visit` call: every vertex that the call's root
reaches through a path of previously-unvisited vertices is visited when the
call returns. -/
theorem dfsVisit_complete (succ : String → List String) (cs : Bool)
    (U : List String) (hsucc : ∀ u v, v ∈ succ u → v ∈ U)
    (n : Nat) (stack : List String) (id : String) (s : DfsState)
    (hid : id ∈ U) (hfuel : U.length + 1 ≤ n + s.visited.length)
    (hstack : ∀ v ∈ stack, Reaches succ v id)
    (hinv : DfsInv2 succ U stack s) :
    ∀ x, ReachesNotIn succ s.visited id x →
      x ∈ (dfsVisit succ cs n stack id s).visited := by
  obtain ⟨⟨hinv', _, _, _⟩, hidmem⟩ :=
    dfsVisit_spec2 succ cs U hsucc n stack id s hid hfuel hstack hinv
  intro x hx
  induction hx with
  | refl _ => exact hidmem
  | step hpath he hfresh ih =>
    have hy := ih
    have hyfresh := hpath.last_not_mem
    rcases (hinv'.vchar _).mp hy with hr | hs
    · exact (hinv'.post2 _ hr _ he).1
    · exact absurd (hinv.ssub _ hs) hyfresh

/-- Two modules in the same strongly connected component: each reaches the
other. -/
def SameSCC (succ : String → List String) (a b : String) : Prop :=
  Reaches succ a b ∧ Reaches succ b a

theorem SameSCC.refl (succ : String → List String) (a : String) :
    SameSCC succ a a := ⟨Reaches.refl a, Reaches.refl a⟩

theorem SameSCC.symm {succ : String → List String} {a b : String}
    (h : SameSCC succ a b) : SameSCC succ b a := ⟨h.2, h.1⟩

theorem SameSCC.trans_scc {succ : String → List String} {a b c : String}
    (h1 : SameSCC succ a b) (h2 : SameSCC succ b c) : SameSCC succ a c :=
  ⟨h1.1.trans h2.1, h2.2.trans h1.2⟩

/-- The state after the first element of `Q` has been discovered: some `d`
in `Q` is finished; every `Q`-vertex it reaches through `Q` finished before
it; every `Q`-vertex it does not reach finishes after it. -/
def Found (succ : String → List String) (Q : String → Prop)
    (s : DfsState) : Prop :=
  ∃ d, Q d ∧ d ∈ s.result ∧
    (∀ x, Q x → ReachesIn succ Q d x → x = d ∨ Before s.result x d) ∧
    (∀ x, Q x → ¬ Reaches succ d x → x = d ∨
      (x ∈ s.result → Before s.result d x))

theorem Found.extend {succ : String → List String} {Q : String → Prop}
    {s s' : DfsState} (h : Found succ Q s)
    (happ : ∃ r, s'.result = s.result ++ r) : Found succ Q s' := by
  obtain ⟨d, hQd, hdres, hb, hc⟩ := h
  obtain ⟨r, hr⟩ := happ
  refine ⟨d, hQd, by rw [hr]; exact List.mem_append_left _ hdres, ?_, ?_⟩
  · intro x hx hri
    rcases hb x hx hri with h' | h'
    · exact Or.inl h'
    · rw [hr]
      exact Or.inr (h'.append_right _)
  · intro x hx hnr
    rcases hc x hx hnr with h' | h'
    · exact Or.inl h'
    · refine Or.inr ?_
      intro hmem
      rw [hr] at hmem ⊢
      rcases List.mem_append.mp hmem with hm | hm
      · exact (h' hm).append_right _
      · exact before_append_inner hdres hm


theorem genFold (succ : String → List String) (cs : Bool) (U : List String)
    (n : Nat) (Q : String → Prop)
    (IH : ∀ (stack : List String) (id : String) (s : DfsState),
      id ∈ U → U.length + 1 ≤ n + s.visited.length →
      (∀ v ∈ stack, Reaches succ v id) → DfsInv2 succ U stack s →
      (∀ x, Q x → x ∉ s.visited) →
      (∀ x, Q x → x ∉ (dfsVisit succ cs n stack id s).visited) ∨
        Found succ Q (dfsVisit succ cs n stack id s))
    (hsucc : ∀ u v, v ∈ succ u → v ∈ U) :
    ∀ (l : List String) (stack : List String) (s : DfsState),
      (∀ d ∈ l, d ∈ U) → U.length + 1 ≤ n + s.visited.length →
      (∀ d ∈ l, ∀ v ∈ stack, Reaches succ v d) → DfsInv2 succ U stack s →
      (∀ x, Q x → x ∉ s.visited) →
      (∀ x, Q x →
        x ∉ (l.foldl (fun t d => dfsVisit succ cs n stack d t) s).visited) ∨
        Found succ Q (l.foldl (fun t d => dfsVisit succ cs n stack d t) s) := by
  intro l
  induction l with
  | nil =>
    intro stack s hU hfuel hreach hinv hfresh
    exact Or.inl hfresh
  | cons d rest ihl =>
    intro stack s hU hfuel hreach hinv hfresh
    have hdU : d ∈ U := hU d (List.mem_cons_self _ _)
    have hdreach : ∀ v ∈ stack, Reaches succ v d :=
      fun v hv => hreach d (List.mem_cons_self _ _) v hv
    obtain ⟨⟨hinv1, ⟨v1, hv1⟩, ⟨r1, hr1⟩, _⟩, _⟩ :=
      dfsVisit_spec2 succ cs U hsucc n stack d s hdU hfuel hdreach hinv
    have hfuel1 : U.length + 1 ≤
        n + (dfsVisit succ cs n stack d s).visited.length := by
      rw [hv1, List.length_append]
      omega
    have hUrest : ∀ e ∈ rest, e ∈ U :=
      fun e he => hU e (List.mem_cons_of_mem _ he)
    have hreachrest : ∀ e ∈ rest, ∀ v ∈ stack, Reaches succ v e :=
      fun e he => hreach e (List.mem_cons_of_mem _ he)
    rw [List.foldl_cons]
    rcases IH stack d s hdU hfuel hdreach hinv hfresh with hfresh1 | hfound1
    · exact ihl stack (dfsVisit succ cs n stack d s) hUrest hfuel1
        hreachrest hinv1 hfresh1
    · right
      obtain ⟨_, _, ⟨r2, hr2⟩, _, _⟩ :=
        dfsFold_spec2 succ cs U n (dfsVisit_spec2 succ cs U hsucc n) rest
          stack (dfsVisit succ cs n stack d s) hUrest hfuel1 hreachrest hinv1
      exact hfound1.extend ⟨r2, hr2⟩

theorem genVisit (succ : String → List String) (cs : Bool) (U : List String)
    (Q : String → Prop) (hsucc : ∀ u v, v ∈ succ u → v ∈ U) :
    ∀ (n : Nat) (stack : List String) (id : String) (s : DfsState),
      id ∈ U → U.length + 1 ≤ n + s.visited.length →
      (∀ v ∈ stack, Reaches succ v id) → DfsInv2 succ U stack s →
      (∀ x, Q x → x ∉ s.visited) →
      (∀ x, Q x → x ∉ (dfsVisit succ cs n stack id s).visited) ∨
        Found succ Q (dfsVisit succ cs n stack id s) := by
  intro n
  induction n with
  | zero =>
    intro stack id s hid hfuel hstack hinv hfresh
    exfalso
    have hle : s.visited.length ≤ U.length :=
      (hinv.vnodup.subperm (fun y hy => hinv.vsub y hy)).length_le
    omega
  | succ n ih =>
    intro stack id s hid hfuel hstack hinv hfresh
    by_cases hskip1 : (cs ∧ id ∈ stack : Prop)
    · rw [show dfsVisit succ cs (n + 1) stack id s = s from by
        simp [dfsVisit, hskip1]]
      exact Or.inl hfresh
    · by_cases hskip2 : id ∈ s.visited
      · rw [show dfsVisit succ cs (n + 1) stack id s = s from by
          simp [dfsVisit, hskip1, hskip2]]
        exact Or.inl hfresh
      · have hinv1 : DfsInv2 succ U (stack ++ [id])
            ⟨s.visited ++ [id], s.result⟩ :=
          dfsInv2_push succ U stack s id hid hskip2 hinv
        have hfuel1 : U.length + 1 ≤
            n + (⟨s.visited ++ [id], s.result⟩ : DfsState).visited.length := by
          simp only [List.length_append, List.length_singleton]
          omega
        have hsuccU : ∀ e ∈ succ id, e ∈ U := fun e he => hsucc id e he
        have hsuccreach : ∀ e ∈ succ id, ∀ v ∈ stack ++ [id],
            Reaches succ v e := by
          intro e he v hv
          rcases List.mem_append.mp hv with hv' | hv'
          · exact Reaches.step (hstack v hv') he
          · rw [List.mem_singleton.mp hv']
            exact Reaches.step (Reaches.refl id) he
        have hstep := dfsVisit_succ_fresh succ cs n stack id s hskip1 hskip2
        set s2 := (succ id).foldl
          (fun t d => dfsVisit succ cs n (stack ++ [id]) d t)
          ⟨s.visited ++ [id], s.result⟩ with hs2
        by_cases hQid : Q id
        · -- `id` is the first element of `Q` ever discovered
          right
          obtain ⟨hinv2, ⟨v2, hv2⟩, ⟨r2, hr2⟩, hfresh2, hdmem2⟩ :=
            dfsFold_spec2 succ cs U n (dfsVisit_spec2 succ cs U hsucc n)
              (succ id) (stack ++ [id]) ⟨s.visited ++ [id], s.result⟩
              hsuccU hfuel1 hsuccreach hinv1
          have hcompl := dfsVisit_complete succ cs U hsucc (n + 1) stack id s
            hid hfuel hstack hinv
          rw [hstep]
          refine ⟨id, hQid, List.mem_append_right _ (List.mem_singleton.mpr rfl),
            ?_, ?_⟩
          · intro x hx hri
            by_cases hxid : x = id
            · exact Or.inl hxid
            · right
              have hnotin : ReachesNotIn succ s.visited id x :=
                ReachesNotIn.of_reachesIn hri (fun v hv => hfresh v hv)
              have hxvis : x ∈ s2.visited := by
                have h0 := hcompl x hnotin
                rw [hstep] at h0
                exact h0
              have hxres : x ∈ s2.result := by
                rcases (hinv2.vchar x).mp hxvis with hr | hs
                · exact hr
                · rcases List.mem_append.mp hs with hs' | hs'
                  · exact absurd (hinv.ssub x hs') (hfresh x hx)
                  · exact absurd (List.mem_singleton.mp hs') hxid
              exact before_append_inner hxres (List.mem_singleton.mpr rfl)
          · intro x hx hnr
            by_cases hxid : x = id
            · exact Or.inl hxid
            · refine Or.inr ?_
              intro hmem
              exfalso
              rcases List.mem_append.mp hmem with hm | hm
              · rcases dfsFold_reach succ cs n (succ id) (stack ++ [id])
                    ⟨s.visited ++ [id], s.result⟩ x hm with hm' | hm'
                · exact hfresh x hx ((hinv.vchar x).mpr (Or.inl hm'))
                · obtain ⟨e, he, hre⟩ := hm'
                  exact hnr (reaches_prepend he hre)
              · exact hxid (List.mem_singleton.mp hm)
        · -- `id` is not in `Q`: recurse into the children
          have hfresh1 : ∀ x, Q x →
              x ∉ (⟨s.visited ++ [id], s.result⟩ : DfsState).visited := by
            intro x hx hmem
            rcases List.mem_append.mp hmem with hm | hm
            · exact hfresh x hx hm
            · exact hQid ((List.mem_singleton.mp hm) ▸ hx)
          rw [hstep]
          rcases genFold succ cs U n Q ih hsucc (succ id) (stack ++ [id])
              ⟨s.visited ++ [id], s.result⟩ hsuccU hfuel1 hsuccreach hinv1
              hfresh1 with hL | hR
          · exact Or.inl (fun x hx => hL x hx)
          · exact Or.inr (hR.extend ⟨[id], rfl⟩)

theorem gen_top (succ : String → List String) (cs : Bool) (U : List String)
    (Q : String → Prop) (hsucc : ∀ u v, v ∈ succ u → v ∈ U)
    (keys : List String) (hkeys : ∀ k ∈ keys, k ∈ U) :
    (∃ q, Q q ∧ q ∈ (keys.foldl
        (fun t k => dfsVisit succ cs (U.length + 1) [] k t)
        ⟨[], []⟩).visited) →
    Found succ Q (keys.foldl
        (fun t k => dfsVisit succ cs (U.length + 1) [] k t) ⟨[], []⟩) := by
  intro h
  obtain ⟨q, hQq, hqvis⟩ := h
  rcases genFold succ cs U (U.length + 1) Q
      (genVisit succ cs U Q hsucc (U.length + 1)) hsucc keys [] ⟨[], []⟩
      hkeys (by simp)
      (fun d _ v hv => absurd hv (List.not_mem_nil v))
      (dfsInv2_empty succ U)
      (fun x _ hmem => absurd hmem (List.not_mem_nil x)) with hL | hR
  · exact absurd hqvis (hL q hQq)
  · exact hR


/-- The whole first pass: a DFS forest rooted at each key in order. -/
def dfsForest (succ : String → List String) (cs : Bool) (fuel : Nat)
    (keys : List String) : DfsState :=
  keys.foldl (fun t k => dfsVisit succ cs fuel [] k t) ⟨[], []⟩

theorem dfsForest_spec (succ : String → List String) (cs : Bool)
    (U keys : List String) (hsucc : ∀ u v, v ∈ succ u → v ∈ U)
    (hkeys : ∀ k ∈ keys, k ∈ U) :
    DfsInv2 succ U [] (dfsForest succ cs (U.length + 1) keys) ∧
    ∀ k ∈ keys, k ∈ (dfsForest succ cs (U.length + 1) keys).visited := by
  obtain ⟨hinv, _, _, _, hmem⟩ :=
    dfsFold_spec2 succ cs U (U.length + 1)
      (dfsVisit_spec2 succ cs U hsucc (U.length + 1)) keys [] ⟨[], []⟩
      hkeys (by simp)
      (fun d _ v hv => absurd hv (List.not_mem_nil v))
      (dfsInv2_empty succ U)
  exact ⟨hinv, hmem⟩

theorem dfsForest_vis_iff (succ : String → List String) (cs : Bool)
    (U keys : List String) (hsucc : ∀ u v, v ∈ succ u → v ∈ U)
    (hkeys : ∀ k ∈ keys, k ∈ U) :
    ∀ x, x ∈ (dfsForest succ cs (U.length + 1) keys).visited ↔
      x ∈ (dfsForest succ cs (U.length + 1) keys).result := by
  intro x
  rw [(dfsForest_spec succ cs U keys hsucc hkeys).1.vchar x]
  simp

theorem dfsForest_closed (succ : String → List String) (cs : Bool)
    (U keys : List String) (hsucc : ∀ u v, v ∈ succ u → v ∈ U)
    (hkeys : ∀ k ∈ keys, k ∈ U) :
    ∀ a b, Reaches succ a b →
      a ∈ (dfsForest succ cs (U.length + 1) keys).result →
      b ∈ (dfsForest succ cs (U.length + 1) keys).result := by
  intro a b h
  induction h with
  | refl => exact fun h' => h'
  | step _ he ih =>
    intro ha
    have hy := ih ha
    have hv := ((dfsForest_spec succ cs U keys hsucc hkeys).1.post2 _ hy _ he).1
    exact (dfsForest_vis_iff succ cs U keys hsucc hkeys _).mp hv

/-- Adjacent-component maximum-finish lemma: a cross-component edge `y → r`
points from a component holding a vertex that finishes after everything in
the target's component. -/
theorem scc_edge_max (succ : String → List String) (cs : Bool)
    (U keys : List String) (hsucc : ∀ u v, v ∈ succ u → v ∈ U)
    (hkeys : ∀ k ∈ keys, k ∈ U)
    (hsrcR : ∀ u v, v ∈ succ u →
      u ∈ (dfsForest succ cs (U.length + 1) keys).result)
    (y r : String) (hyr : r ∈ succ y) (hnry : ¬ Reaches succ r y) :
    ∃ m, SameSCC succ y m ∧ ∀ w, SameSCC succ r w →
      Before (dfsForest succ cs (U.length + 1) keys).result w m := by
  set S := dfsForest succ cs (U.length + 1) keys with hS
  have hyR : y ∈ S.result := hsrcR y r hyr
  have hndR : S.result.Nodup :=
    (dfsForest_spec succ cs U keys hsucc hkeys).1.rnodup
  set Q : String → Prop :=
    fun v => SameSCC succ y v ∨ SameSCC succ r v with hQ
  have hdisj : ∀ v, SameSCC succ y v → SameSCC succ r v → False :=
    fun v h1 h2 => hnry (h2.1.trans h1.2)
  have hex : ∃ q, Q q ∧ q ∈ S.visited :=
    ⟨y, Or.inl (SameSCC.refl succ y),
      (dfsForest_vis_iff succ cs U keys hsucc hkeys y).mpr hyR⟩
  obtain ⟨d, hQd, hdres, hb, hc⟩ :=
    gen_top succ cs U Q hsucc keys hkeys hex
  rcases hQd with hdC | hdC'
  · -- the first-discovered vertex lies in `y`'s component: it finishes last
    refine ⟨d, hdC, ?_⟩
    intro w hw
    have hri : ReachesIn succ Q d w := by
      have h1 : ReachesIn succ Q d y :=
        (reaches_strengthen hdC.2).weaken
          (fun v hv => Or.inl ⟨hdC.1.trans hv.1, hv.2⟩)
      have h2 : ReachesIn succ Q d r :=
        ReachesIn.step h1 hyr (Or.inr (SameSCC.refl succ r))
      have h3 : ReachesIn succ Q r w :=
        (reaches_strengthen hw.1).weaken
          (fun v hv => Or.inr ⟨hv.1, hv.2.trans hw.2⟩)
      exact h2.trans_in h3
    rcases hb w (Or.inr hw) hri with heq | hbf
    · exact (hdisj d hdC (heq ▸ hw)).elim
    · exact hbf
  · -- it lies in `r`'s component: everything of `y`'s finishes later still
    have hndy : ¬ Reaches succ d y := fun h => hnry (hdC'.1.trans h)
    have hyd : y ≠ d := fun h =>
      hdisj y (SameSCC.refl succ y) (by rw [h]; exact hdC')
    have hBdy : Before S.result d y := by
      rcases hc y (Or.inl (SameSCC.refl succ y)) hndy with heq | himp
      · exact absurd heq hyd
      · exact himp hyR
    refine ⟨y, SameSCC.refl succ y, ?_⟩
    intro w hw
    by_cases hwd : w = d
    · rw [hwd]
      exact hBdy
    · have hri : ReachesIn succ Q d w := by
        have hdw : Reaches succ d w := hdC'.2.trans hw.1
        exact (reaches_strengthen hdw).weaken
          (fun v hv => Or.inr ⟨hdC'.1.trans hv.1, hv.2.trans hw.2⟩)
      rcases hb w (Or.inr hw) hri with heq | hbf
      · exact absurd heq hwd
      · exact before_trans hndR hbf hBdy

/-- Kosaraju core: if `z` reaches `r` but not conversely, `z`'s component
holds a vertex finishing after everything in `r`'s component. -/
theorem scc_reach_max (succ : String → List String) (cs : Bool)
    (U keys : List String) (hsucc : ∀ u v, v ∈ succ u → v ∈ U)
    (hkeys : ∀ k ∈ keys, k ∈ U)
    (hsrcR : ∀ u v, v ∈ succ u →
      u ∈ (dfsForest succ cs (U.length + 1) keys).result) :
    ∀ z r, Reaches succ z r → ¬ Reaches succ r z →
      ∃ m, SameSCC succ z m ∧ ∀ w, SameSCC succ r w →
        Before (dfsForest succ cs (U.length + 1) keys).result w m := by
  have hndR : (dfsForest succ cs (U.length + 1) keys).result.Nodup :=
    (dfsForest_spec succ cs U keys hsucc hkeys).1.rnodup
  intro z r hzr
  induction hzr with
  | refl =>
    intro hnrz
    exact absurd (Reaches.refl z) hnrz
  | @step y r' hzy hyr ih =>
    intro hnrz
    by_cases hyz : Reaches succ y z
    · have hzy' : SameSCC succ z y := ⟨hzy, hyz⟩
      have hnry : ¬ Reaches succ r' y := fun h => hnrz (h.trans hyz)
      obtain ⟨m, hm1, hm2⟩ :=
        scc_edge_max succ cs U keys hsucc hkeys hsrcR y r' hyr hnry
      exact ⟨m, hzy'.trans_scc hm1, hm2⟩
    · obtain ⟨m, hm1, hm2⟩ := ih hyz
      by_cases hry : Reaches succ r' y
      · refine ⟨m, hm1, ?_⟩
        intro w hw
        exact hm2 w ⟨(Reaches.step (Reaches.refl y) hyr).trans hw.1,
          hw.2.trans hry⟩
      · obtain ⟨m', hm'1, hm'2⟩ :=
          scc_edge_max succ cs U keys hsucc hkeys hsrcR y r' hyr hry
        refine ⟨m, hm1, ?_⟩
        intro w hw
        exact before_trans hndR (hm'2 w hw) (hm2 m' hm'1)


/-! ## Transposed-graph completeness -/

theorem transposed_inner_mono (id : String) :
    ∀ (deps : List String) (t : List (String × List String)) (w x : String),
      x ∈ (mapGet? t w).getD [] →
      x ∈ (mapGet? (deps.foldl (fun t' depId =>
        mapSet t' depId (insertOnce ((mapGet? t' depId).getD []) id)) t)
        w).getD [] := by
  intro deps
  induction deps with
  | nil => exact fun t w x hx => hx
  | cons d rest ih =>
    intro t w x hx
    rw [List.foldl_cons]
    refine ih _ w x ?_
    by_cases hw : w = d
    · subst hw
      rw [mapGet?_mapSet_self]
      simp only [Option.getD_some]
      exact subset_insertOnce _ _ hx
    · rw [mapGet?_mapSet_ne _ _ _ _ hw]
      exact hx

theorem transposed_outer_mono :
    ∀ (entries : List (String × List String))
      (t : List (String × List String)) (w x : String),
      x ∈ (mapGet? t w).getD [] →
      x ∈ (mapGet? (entries.foldl (fun t p =>
        p.2.foldl (fun t' depId =>
          mapSet t' depId (insertOnce ((mapGet? t' depId).getD []) p.1)) t)
        t) w).getD [] := by
  intro entries
  induction entries with
  | nil => exact fun t w x hx => hx
  | cons p rest ih =>
    intro t w x hx
    rw [List.foldl_cons]
    exact ih _ w x (transposed_inner_mono p.1 p.2 t w x hx)

theorem transposed_inner_puts (id : String) :
    ∀ (deps : List String) (t : List (String × List String)) (w : String),
      w ∈ deps →
      id ∈ (mapGet? (deps.foldl (fun t' depId =>
        mapSet t' depId (insertOnce ((mapGet? t' depId).getD []) id)) t)
        w).getD [] := by
  intro deps
  induction deps with
  | nil =>
    intro t w hw
    cases hw
  | cons d rest ih =>
    intro t w hw
    rw [List.foldl_cons]
    rcases List.mem_cons.mp hw with rfl | hw'
    · refine transposed_inner_mono id rest _ w id ?_
      rw [mapGet?_mapSet_self]
      simp only [Option.getD_some]
      exact self_mem_insertOnce _ _
    · exact ih _ w hw'

/-- Completeness of the transposition loop: every forward edge appears
reversed in the transposed graph. -/
theorem transposed_edge_complete (g : ModuleGraph) (u w : String)
    (deps : List String) (hdg : (u, deps) ∈ g.dependencyGraph)
    (hw : w ∈ deps) :
    u ∈ (mapGet? (buildTransposed g) w).getD [] := by
  obtain ⟨l1, l2, hsplit⟩ := List.append_of_mem hdg
  unfold buildTransposed
  rw [hsplit, List.foldl_append, List.foldl_cons]
  exact transposed_outer_mono l2 _ w u (transposed_inner_puts u deps _ w hw)

/-- On a graph whose `dependencyGraph` keys are duplicate-free, the
transposed adjacency is exactly the reversed forward adjacency. -/
theorem transposed_edge_iff (g : ModuleGraph)
    (hnd : (g.dependencyGraph.map Prod.fst).Nodup) (u w : String) :
    u ∈ (mapGet? (buildTransposed g) w).getD [] ↔ w ∈ importsOf g u := by
  constructor
  · intro hu
    obtain ⟨deps, hdg, hw⟩ := transposed_edge g w u hu
    unfold importsOf
    rw [mapGet?_eq_of_mem_nodup hnd hdg]
    simpa using hw
  · intro hw
    unfold importsOf at hw
    cases hm : mapGet? g.dependencyGraph u with
    | none =>
      rw [hm] at hw
      simp at hw
    | some deps =>
      rw [hm] at hw
      simp only [Option.getD_some] at hw
      exact transposed_edge_complete g u w deps (mapGet?_eq_some_mem hm) hw

theorem reaches_transpose_mp (g : ModuleGraph)
    (hnd : (g.dependencyGraph.map Prod.fst).Nodup) :
    ∀ a b, Reaches (fun id => (mapGet? (buildTransposed g) id).getD []) a b →
      Reaches (importsOf g) b a := by
  intro a b h
  induction h with
  | refl => exact Reaches.refl _
  | @step y z' _ he ih =>
    exact reaches_prepend ((transposed_edge_iff g hnd z' y).mp he) ih

theorem reaches_transpose_mpr (g : ModuleGraph)
    (hnd : (g.dependencyGraph.map Prod.fst).Nodup) :
    ∀ a b, Reaches (importsOf g) b a →
      Reaches (fun id => (mapGet? (buildTransposed g) id).getD []) a b := by
  intro a b h
  induction h with
  | refl => exact Reaches.refl _
  | @step y z' _ he ih =>
    exact reaches_prepend ((transposed_edge_iff g hnd y z').mpr he) ih


/-! ## Second-pass `assign` specification -/

theorem assignFold (tsucc : String → List String) (U2 : List String)
    (n : Nat)
    (IH : ∀ (id : String) (st : List String × List String),
      id ∈ U2 → (∀ x ∈ st.1, x ∈ U2) → st.1.Nodup →
      U2.length + 1 ≤ n + st.1.length →
      (∃ Δ, (assignVisit tsucc n id st).1 = st.1 ++ Δ ∧
        (assignVisit tsucc n id st).2 = st.2 ++ Δ) ∧
      (assignVisit tsucc n id st).1.Nodup ∧
      (∀ x ∈ (assignVisit tsucc n id st).1, x ∈ U2) ∧
      id ∈ (assignVisit tsucc n id st).1 ∧
      (∀ u ∈ (assignVisit tsucc n id st).1, u ∉ st.1 →
        Reaches tsucc id u) ∧
      (∀ u ∈ (assignVisit tsucc n id st).1, u ∉ st.1 →
        ∀ v ∈ tsucc u, v ∈ (assignVisit tsucc n id st).1)) :
    ∀ (l : List String) (st : List String × List String),
      (∀ d ∈ l, d ∈ U2) → (∀ x ∈ st.1, x ∈ U2) → st.1.Nodup →
      U2.length + 1 ≤ n + st.1.length →
      (∃ Δ, (l.foldl (fun st' d => assignVisit tsucc n d st') st).1 =
          st.1 ++ Δ ∧
        (l.foldl (fun st' d => assignVisit tsucc n d st') st).2 =
          st.2 ++ Δ) ∧
      (l.foldl (fun st' d => assignVisit tsucc n d st') st).1.Nodup ∧
      (∀ x ∈ (l.foldl (fun st' d => assignVisit tsucc n d st') st).1,
        x ∈ U2) ∧
      (∀ d ∈ l, d ∈ (l.foldl (fun st' d => assignVisit tsucc n d st') st).1) ∧
      (∀ u ∈ (l.foldl (fun st' d => assignVisit tsucc n d st') st).1,
        u ∉ st.1 → ∃ d ∈ l, Reaches tsucc d u) ∧
      (∀ u ∈ (l.foldl (fun st' d => assignVisit tsucc n d st') st).1,
        u ∉ st.1 → ∀ v ∈ tsucc u,
          v ∈ (l.foldl (fun st' d => assignVisit tsucc n d st') st).1) := by
  intro l
  induction l with
  | nil =>
    intro st hl hU hnd hfuel
    refine ⟨⟨[], by simp, by simp⟩, hnd, hU, ?_, ?_, ?_⟩
    · intro d hd
      cases hd
    · intro u hu hnot
      exact absurd hu hnot
    · intro u hu hnot
      exact absurd hu hnot
  | cons d rest ihl =>
    intro st hl hU hnd hfuel
    have hdU : d ∈ U2 := hl d (List.mem_cons_self _ _)
    obtain ⟨⟨Δ1, h11, h12⟩, hnd1, hU1, hdmem1, hreach1, hclos1⟩ :=
      IH d st hdU hU hnd hfuel
    have hfuel1 : U2.length + 1 ≤ n + (assignVisit tsucc n d st).1.length := by
      rw [h11, List.length_append]
      omega
    have hlrest : ∀ e ∈ rest, e ∈ U2 :=
      fun e he => hl e (List.mem_cons_of_mem _ he)
    obtain ⟨⟨Δ2, h21, h22⟩, hnd2, hU2', hdmem2, hreach2, hclos2⟩ :=
      ihl (assignVisit tsucc n d st) hlrest hU1 hnd1 hfuel1
    rw [List.foldl_cons]
    refine ⟨⟨Δ1 ++ Δ2, by rw [h21, h11, List.append_assoc],
      by rw [h22, h12, List.append_assoc]⟩, hnd2, hU2', ?_, ?_, ?_⟩
    · intro e he
      rcases List.mem_cons.mp he with rfl | he'
      · rw [h21]
        exact List.mem_append_left _ hdmem1
      · exact hdmem2 e he'
    · intro u hu hnot
      by_cases h1 : u ∈ (assignVisit tsucc n d st).1
      · exact ⟨d, List.mem_cons_self _ _, hreach1 u h1 hnot⟩
      · obtain ⟨e, he, hre⟩ := hreach2 u hu h1
        exact ⟨e, List.mem_cons_of_mem _ he, hre⟩
    · intro u hu hnot v hv
      by_cases h1 : u ∈ (assignVisit tsucc n d st).1
      · rw [h21]
        exact List.mem_append_left _ (hclos1 u h1 hnot v hv)
      · exact hclos2 u hu h1 v hv

theorem assign_spec (tsucc : String → List String) (U2 : List String)
    (htsucc : ∀ u v, v ∈ tsucc u → v ∈ U2) :
    ∀ (n : Nat) (id : String) (st : List String × List String),
      id ∈ U2 → (∀ x ∈ st.1, x ∈ U2) → st.1.Nodup →
      U2.length + 1 ≤ n + st.1.length →
      (∃ Δ, (assignVisit tsucc n id st).1 = st.1 ++ Δ ∧
        (assignVisit tsucc n id st).2 = st.2 ++ Δ) ∧
      (assignVisit tsucc n id st).1.Nodup ∧
      (∀ x ∈ (assignVisit tsucc n id st).1, x ∈ U2) ∧
      id ∈ (assignVisit tsucc n id st).1 ∧
      (∀ u ∈ (assignVisit tsucc n id st).1, u ∉ st.1 →
        Reaches tsucc id u) ∧
      (∀ u ∈ (assignVisit tsucc n id st).1, u ∉ st.1 →
        ∀ v ∈ tsucc u, v ∈ (assignVisit tsucc n id st).1) := by
  intro n
  induction n with
  | zero =>
    intro id st hid hU hnd hfuel
    exfalso
    have hle : st.1.length ≤ U2.length :=
      (hnd.subperm (fun y hy => hU y hy)).length_le
    omega
  | succ n ih =>
    intro id st hid hU hnd hfuel
    by_cases hin : id ∈ st.1
    · rw [show assignVisit tsucc (n + 1) id st = st from by
        simp [assignVisit, hin]]
      refine ⟨⟨[], by simp, by simp⟩, hnd, hU, hin, ?_, ?_⟩
      · intro u hu hnot
        exact absurd hu hnot
      · intro u hu hnot
        exact absurd hu hnot
    · have hstep : assignVisit tsucc (n + 1) id st =
          (tsucc id).foldl (fun st' d => assignVisit tsucc n d st')
            (st.1 ++ [id], st.2 ++ [id]) := by
        simp [assignVisit, hin]
      have hU' : ∀ x ∈ st.1 ++ [id], x ∈ U2 := by
        intro x hx
        rcases List.mem_append.mp hx with hx' | hx'
        · exact hU x hx'
        · rw [List.mem_singleton.mp hx']
          exact hid
      have hnd' : (st.1 ++ [id]).Nodup := by
        rw [List.nodup_append]
        exact ⟨hnd, List.nodup_singleton id,
          fun y hy hy' => hin ((List.mem_singleton.mp hy') ▸ hy)⟩
      have hfuel' : U2.length + 1 ≤ n + (st.1 ++ [id]).length := by
        rw [List.length_append, List.length_singleton]
        omega
      obtain ⟨⟨Δf, hf1, hf2⟩, hndf, hUf, hdmemf, hreachf, hclosf⟩ :=
        assignFold tsucc U2 n ih (tsucc id) (st.1 ++ [id], st.2 ++ [id])
          (fun e he => htsucc id e he) hU' hnd' hfuel'
      rw [hstep]
      constructor
      · exact ⟨[id] ++ Δf, by rw [hf1, List.append_assoc],
          by rw [hf2, List.append_assoc]⟩
      refine ⟨hndf, hUf, ?_, ?_, ?_⟩
      · rw [hf1]
        exact List.mem_append_left _ (List.mem_append_right _
          (List.mem_singleton.mpr rfl))
      · intro u hu hnot
        by_cases h1 : u ∈ st.1 ++ [id]
        · rcases List.mem_append.mp h1 with h1' | h1'
          · exact absurd h1' hnot
          · rw [List.mem_singleton.mp h1']
            exact Reaches.refl id
        · obtain ⟨e, he, hre⟩ := hreachf u hu h1
          exact reaches_prepend he hre
      · intro u hu hnot v hv
        by_cases h1 : u ∈ st.1 ++ [id]
        · rcases List.mem_append.mp h1 with h1' | h1'
          · exact absurd h1' hnot
          · have hu_id : u = id := List.mem_singleton.mp h1'
            subst hu_id
            exact hdmemf v hv
        · exact hclosf u hu h1 v hv

theorem assign_complete (tsucc : String → List String) (U2 : List String)
    (htsucc : ∀ u v, v ∈ tsucc u → v ∈ U2) (n : Nat) (id : String)
    (st : List String × List String) (hid : id ∈ U2)
    (hU : ∀ x ∈ st.1, x ∈ U2) (hnd : st.1.Nodup)
    (hfuel : U2.length + 1 ≤ n + st.1.length) :
    ∀ x, ReachesNotIn tsucc st.1 id x →
      x ∈ (assignVisit tsucc n id st).1 := by
  obtain ⟨_, _, _, hidmem, _, hclos⟩ :=
    assign_spec tsucc U2 htsucc n id st hid hU hnd hfuel
  intro x hx
  induction hx with
  | refl _ => exact hidmem
  | step hpath he hfresh ih =>
    exact hclos _ ih hpath.last_not_mem _ he


/-! ## Second-pass loop -/

theorem ReachesNotIn.trans_avoid {succ : String → List String} {V : List String}
    {a b c : String} (h1 : ReachesNotIn succ V a b)
    (h2 : ReachesNotIn succ V b c) : ReachesNotIn succ V a c := by
  induction h2 with
  | refl _ => exact h1
  | step _ he hf ih => exact ReachesNotIn.step ih he hf

theorem reaches_transpose_abs (succ tsucc : String → List String)
    (hedge : ∀ u w, u ∈ tsucc w ↔ w ∈ succ u) :
    ∀ a b, Reaches tsucc a b → Reaches succ b a := by
  intro a b h
  induction h with
  | refl => exact Reaches.refl _
  | step _ he ih => exact reaches_prepend ((hedge _ _).mp he) ih

theorem reachesIn_to_notIn_transpose (succ tsucc : String → List String)
    (hedge : ∀ u w, u ∈ tsucc w ↔ w ∈ succ u) (V : List String)
    {Q : String → Prop} (hQV : ∀ v, Q v → v ∉ V) :
    ∀ {a b : String}, ReachesIn succ Q a b → ReachesNotIn tsucc V b a := by
  intro a b h
  induction h with
  | refl hq => exact ReachesNotIn.refl _ (hQV _ hq)
  | step _ he hq ih =>
    exact ReachesNotIn.trans_avoid
      (ReachesNotIn.step (ReachesNotIn.refl _ (hQV _ hq))
        ((hedge _ _).mpr he) ih.head_not_mem) ih

theorem one_lt_length_of_two_mem {l : List String} {a b : String}
    (ha : a ∈ l) (hb : b ∈ l) (hne : b ≠ a) : 1 < l.length := by
  obtain ⟨l1, l2, rfl⟩ := List.append_of_mem ha
  rcases List.mem_append.mp hb with h | h
  · have h1 : 0 < l1.length := List.length_pos_of_mem h
    simp only [List.length_append, List.length_cons]
    omega
  · rcases List.mem_cons.mp h with rfl | h'
    · exact absurd rfl hne
    · have h1 : 0 < l2.length := List.length_pos_of_mem h'
      simp only [List.length_append, List.length_cons]
      omega

/-- An element strictly after `r` in the finish order lies strictly before
`r` in the reversed order, hence in the already-processed prefix. -/
theorem before_mem_processed {R processed rest : List String} {r m : String}
    (hnd : R.Nodup) (hsplit : processed ++ r :: rest = R.reverse)
    (hbf : Before R r m) : m ∈ processed := by
  have hndL : R.reverse.Nodup := by
    rw [List.nodup_reverse]
    exact hnd
  obtain ⟨ir, hgr⟩ := List.get_of_mem hbf.mem_left
  obtain ⟨im, hgm⟩ := List.get_of_mem hbf.mem_right
  have hirlt : ir.1 < R.length := ir.2
  have himlt : im.1 < R.length := im.2
  have hlt : ir.1 < im.1 := before_index_lt hnd hbf ir.2 im.2 hgr hgm
  have hplen : processed.length < R.reverse.length := by
    rw [← hsplit]
    simp
  have hgetp : R.reverse.get ⟨processed.length, hplen⟩ = r := by
    rw [List.get_of_eq hsplit.symm]
    exact get_append_length processed r rest _
  have hrl : R.length - 1 - ir.1 < R.reverse.length := by
    simp only [List.length_reverse]
    omega
  have hr2 : R.length - 1 - (R.length - 1 - ir.1) < R.length := by
    omega
  have hgetr2 : R.reverse.get ⟨R.length - 1 - ir.1, hrl⟩ = r := by
    rw [get_reverse_eq R _ hrl hr2]
    have hfin : (⟨R.length - 1 - (R.length - 1 - ir.1), hr2⟩ :
        Fin R.length) = ir := by
      apply Fin.ext
      simp only
      omega
    rw [hfin]
    exact hgr
  have heqidx : (⟨processed.length, hplen⟩ : Fin R.reverse.length) =
      ⟨R.length - 1 - ir.1, hrl⟩ :=
    hndL.get_inj_iff.mp (hgetp.trans hgetr2.symm)
  have heq : processed.length = R.length - 1 - ir.1 :=
    congrArg Fin.val heqidx
  have hml : R.length - 1 - im.1 < R.reverse.length := by
    simp only [List.length_reverse]
    omega
  have hm2 : R.length - 1 - (R.length - 1 - im.1) < R.length := by
    omega
  have hgetm2 : R.reverse.get ⟨R.length - 1 - im.1, hml⟩ = m := by
    rw [get_reverse_eq R _ hml hm2]
    have hfin : (⟨R.length - 1 - (R.length - 1 - im.1), hm2⟩ :
        Fin R.length) = im := by
      apply Fin.ext
      simp only
      omega
    rw [hfin]
    exact hgm
  have hmlt : R.length - 1 - im.1 < processed.length := by
    omega
  have hmem := mem_take_of_get R.reverse processed.length
    (R.length - 1 - im.1) hml hmlt
  rw [hgetm2] at hmem
  have htake : R.reverse.take processed.length = processed := by
    rw [← hsplit]
    exact List.take_left processed (r :: rest)
  rw [htake] at hmem
  exact hmem

theorem sccLoop_cons_skip (tsucc : String → List String) (fuel : Nat)
    (id : String) (rest vis : List String) (comps : List (List String))
    (hid : id ∈ vis) :
    sccLoop tsucc fuel (id :: rest) vis comps =
      sccLoop tsucc fuel rest vis comps := by
  simp [sccLoop, hid]

theorem sccLoop_cons_fresh (tsucc : String → List String) (fuel : Nat)
    (id : String) (rest vis : List String) (comps : List (List String))
    (hid : id ∉ vis) :
    sccLoop tsucc fuel (id :: rest) vis comps =
      sccLoop tsucc fuel rest (assignVisit tsucc fuel id (vis, [])).1
        (if (assignVisit tsucc fuel id (vis, [])).2.length > 1 then
          comps ++ [(assignVisit tsucc fuel id (vis, [])).2] else comps) := by
  simp [sccLoop, hid]


/-- Main invariant of the second-pass loop: processing the reversed finish
order with an assigned set that is a union of complete components yields
exactly the components of size at least two. -/
theorem sccLoop_main (succ tsucc : String → List String) (U R : List String)
    (n : Nat)
    (hedge : ∀ u w, u ∈ tsucc w ↔ w ∈ succ u)
    (htU : ∀ u v, v ∈ tsucc u → v ∈ U)
    (hRnd : R.Nodup)
    (hRU : ∀ x ∈ R, x ∈ U)
    (hnU : U.length + 1 ≤ n)
    (hM : ∀ z r, Reaches succ z r → ¬ Reaches succ r z →
      ∃ m, SameSCC succ z m ∧ ∀ w, SameSCC succ r w → Before R w m) :
    ∀ (rem processed vis : List String) (comps : List (List String)),
      processed ++ rem = R.reverse →
      (∀ x ∈ processed, x ∈ vis) →
      (∀ x ∈ vis, x ∈ U) → vis.Nodup →
      (∀ a ∈ vis, ∀ b, SameSCC succ a b → b ∈ vis) →
      (∀ c ∈ comps, 2 ≤ c.length ∧ c.Nodup ∧
        (∀ a ∈ c, ∀ b, (b ∈ c ↔ SameSCC succ a b))) →
      (∀ a ∈ vis, (∃ b, SameSCC succ a b ∧ b ≠ a) → ∃ c ∈ comps, a ∈ c) →
      (∀ c ∈ (sccLoop tsucc n rem vis comps).2, 2 ≤ c.length ∧ c.Nodup ∧
        (∀ a ∈ c, ∀ b, (b ∈ c ↔ SameSCC succ a b))) ∧
      (∀ a, (a ∈ vis ∨ a ∈ rem) → (∃ b, SameSCC succ a b ∧ b ≠ a) →
        ∃ c ∈ (sccLoop tsucc n rem vis comps).2, a ∈ c) := by
  intro rem
  induction rem with
  | nil =>
    intro processed vis comps hsplit hproc hvisU hvisnd hclosed hcomps hcover
    rw [show sccLoop tsucc n [] vis comps = (vis, comps) from rfl]
    refine ⟨hcomps, ?_⟩
    intro a ha hab
    rcases ha with ha | ha
    · exact hcover a ha hab
    · cases ha
  | cons r rest ih =>
    intro processed vis comps hsplit hproc hvisU hvisnd hclosed hcomps hcover
    by_cases hrv : r ∈ vis
    · rw [sccLoop_cons_skip tsucc n r rest vis comps hrv]
      have hres := ih (processed ++ [r]) vis comps
        (by rw [List.append_assoc, List.singleton_append]; exact hsplit)
        (by
          intro x hx
          rcases List.mem_append.mp hx with h | h
          · exact hproc x h
          · rw [List.mem_singleton.mp h]
            exact hrv)
        hvisU hvisnd hclosed hcomps hcover
      refine ⟨hres.1, ?_⟩
      intro a ha hab
      refine hres.2 a ?_ hab
      rcases ha with ha | ha
      · exact Or.inl ha
      · rcases List.mem_cons.mp ha with rfl | ha'
        · exact Or.inl hrv
        · exact Or.inr ha'
    · -- `r` becomes a root; its assignment collects exactly its component
      have hrR : r ∈ R := by
        have hm : r ∈ R.reverse := by
          rw [← hsplit]
          exact List.mem_append_right _ (List.mem_cons_self _ _)
        exact List.mem_reverse.mp hm
      have hrU : r ∈ U := hRU r hrR
      have hfuel : U.length + 1 ≤ n + vis.length := by omega
      obtain ⟨⟨Δ, hΔ1, hΔ2⟩, hndst, hUst, hrmem, hreachst, _⟩ :=
        assign_spec tsucc U htU n r (vis, []) hrU hvisU hvisnd hfuel
      have hcompΔ : (assignVisit tsucc n r (vis, [])).2 = Δ := by
        rw [hΔ2]
        simp
      have hlater : ∀ m, Before R r m → m ∈ vis := by
        intro m hbf
        exact hproc m (before_mem_processed hRnd hsplit hbf)
      have hdisjΔ : ∀ x ∈ Δ, x ∉ vis := by
        have hnd' := hndst
        rw [hΔ1, List.nodup_append] at hnd'
        exact fun x hx hv => (hnd'.2.2 hv) hx
      have hΔnd : Δ.Nodup := by
        have hnd' := hndst
        rw [hΔ1, List.nodup_append] at hnd'
        exact hnd'.2.1
      have hrΔ : r ∈ Δ := by
        have hm := hrmem
        rw [hΔ1] at hm
        rcases List.mem_append.mp hm with h | h
        · exact absurd h hrv
        · exact h
      -- the collected component is exactly `r`'s strongly connected component
      have hchar : ∀ x, x ∈ Δ ↔ SameSCC succ r x := by
        intro x
        constructor
        · intro hx
          have hxvis : x ∉ vis := hdisjΔ x hx
          have hx1 : x ∈ (assignVisit tsucc n r (vis, [])).1 := by
            rw [hΔ1]
            exact List.mem_append_right _ hx
          have hreach_t : Reaches tsucc r x := hreachst x hx1 hxvis
          have hxr : Reaches succ x r :=
            reaches_transpose_abs succ tsucc hedge r x hreach_t
          by_cases hrx : Reaches succ r x
          · exact ⟨hrx, hxr⟩
          · exfalso
            obtain ⟨m, hm1, hm2⟩ := hM x r hxr hrx
            have hbm : Before R r m := hm2 r (SameSCC.refl succ r)
            have hmvis : m ∈ vis := hlater m hbm
            exact hxvis (hclosed m hmvis x hm1.symm)
        · intro hsx
          have hxvis : x ∉ vis := fun hv => hrv (hclosed x hv r hsx.symm)
          have hQpath : ReachesIn succ
              (fun v => Reaches succ x v ∧ Reaches succ v r) x r :=
            reaches_strengthen hsx.2
          have hQnotvis : ∀ v,
              (Reaches succ x v ∧ Reaches succ v r) → v ∉ vis := by
            intro v hv hvv
            exact hrv (hclosed v hvv r ⟨hv.2, hsx.1.trans hv.1⟩)
          have hnotin : ReachesNotIn tsucc vis r x :=
            reachesIn_to_notIn_transpose succ tsucc hedge vis hQnotvis hQpath
          have hx1 := assign_complete tsucc U htU n r (vis, []) hrU hvisU
            hvisnd hfuel x hnotin
          rw [hΔ1] at hx1
          rcases List.mem_append.mp hx1 with h | h
          · exact absurd h hxvis
          · exact h
      -- shared pieces of the new invariant
      have hsplit' : (processed ++ [r]) ++ rest = R.reverse := by
        rw [List.append_assoc, List.singleton_append]
        exact hsplit
      have hproc' : ∀ x ∈ processed ++ [r],
          x ∈ (assignVisit tsucc n r (vis, [])).1 := by
        intro x hx
        rcases List.mem_append.mp hx with h | h
        · rw [hΔ1]
          exact List.mem_append_left _ (hproc x h)
        · rw [List.mem_singleton.mp h]
          exact hrmem
      have hclosed' : ∀ a ∈ (assignVisit tsucc n r (vis, [])).1, ∀ b,
          SameSCC succ a b → b ∈ (assignVisit tsucc n r (vis, [])).1 := by
        intro a ha b hab
        rw [hΔ1] at ha ⊢
        rcases List.mem_append.mp ha with h | h
        · exact List.mem_append_left _ (hclosed a h b hab)
        · have hra : SameSCC succ r a := (hchar a).mp h
          exact List.mem_append_right _ ((hchar b).mpr (hra.trans_scc hab))
      have hcontΔ : ∀ a ∈ Δ, ∀ b, (b ∈ Δ ↔ SameSCC succ a b) := by
        intro a ha b
        have hra : SameSCC succ r a := (hchar a).mp ha
        constructor
        · intro hb
          exact hra.symm.trans_scc ((hchar b).mp hb)
        · intro hab
          exact (hchar b).mpr (hra.trans_scc hab)
      rw [sccLoop_cons_fresh tsucc n r rest vis comps hrv]
      by_cases hlen : (assignVisit tsucc n r (vis, [])).2.length > 1
      · rw [if_pos hlen]
        have hcomps' : ∀ c ∈ comps ++ [(assignVisit tsucc n r (vis, [])).2],
            2 ≤ c.length ∧ c.Nodup ∧
            (∀ a ∈ c, ∀ b, (b ∈ c ↔ SameSCC succ a b)) := by
          intro c hc
          rcases List.mem_append.mp hc with h | h
          · exact hcomps c h
          · rw [List.mem_singleton.mp h, hcompΔ]
            refine ⟨?_, hΔnd, hcontΔ⟩
            rw [hcompΔ] at hlen
            omega
        have hcover' : ∀ a ∈ (assignVisit tsucc n r (vis, [])).1,
            (∃ b, SameSCC succ a b ∧ b ≠ a) →
            ∃ c ∈ comps ++ [(assignVisit tsucc n r (vis, [])).2], a ∈ c := by
          intro a ha hab
          rw [hΔ1] at ha
          rcases List.mem_append.mp ha with h | h
          · obtain ⟨c, hc, hac⟩ := hcover a h hab
            exact ⟨c, List.mem_append_left _ hc, hac⟩
          · refine ⟨(assignVisit tsucc n r (vis, [])).2,
              List.mem_append_right _ (List.mem_singleton.mpr rfl), ?_⟩
            rw [hcompΔ]
            exact h
        have hres := ih (processed ++ [r]) (assignVisit tsucc n r (vis, [])).1
          (comps ++ [(assignVisit tsucc n r (vis, [])).2])
          hsplit' hproc' hUst hndst hclosed' hcomps' hcover'
        refine ⟨hres.1, ?_⟩
        intro a ha hab
        refine hres.2 a ?_ hab
        rcases ha with ha | ha
        · refine Or.inl ?_
          rw [hΔ1]
          exact List.mem_append_left _ ha
        · rcases List.mem_cons.mp ha with rfl | ha'
          · exact Or.inl hrmem
          · exact Or.inr ha'
      · rw [if_neg hlen]
        -- a singleton component: its root has no distinct component mate
        have hsingle : ∀ a ∈ Δ, ¬ ∃ b, SameSCC succ a b ∧ b ≠ a := by
          intro a ha hab
          obtain ⟨b, hb1, hb2⟩ := hab
          have hbΔ : b ∈ Δ := (hcontΔ a ha b).mpr hb1
          have := one_lt_length_of_two_mem ha hbΔ hb2
          rw [hcompΔ] at hlen
          omega
        have hcover' : ∀ a ∈ (assignVisit tsucc n r (vis, [])).1,
            (∃ b, SameSCC succ a b ∧ b ≠ a) → ∃ c ∈ comps, a ∈ c := by
          intro a ha hab
          rw [hΔ1] at ha
          rcases List.mem_append.mp ha with h | h
          · exact hcover a h hab
          · exact absurd hab (hsingle a h)
        have hres := ih (processed ++ [r]) (assignVisit tsucc n r (vis, [])).1
          comps hsplit' hproc' hUst hndst hclosed' hcomps hcover'
        refine ⟨hres.1, ?_⟩
        intro a ha hab
        refine hres.2 a ?_ hab
        rcases ha with ha | ha
        · refine Or.inl ?_
          rw [hΔ1]
          exact List.mem_append_left _ ha
        · rcases List.mem_cons.mp ha with rfl | ha'
          · exact Or.inl hrmem
          · exact Or.inr ha'


/-! ## Kosaraju exactness for reachable graphs -/

/-- On every reachable graph state, `detectStronglyConnectedComponents`
returns exactly the strongly connected components of size at least two of
the forward import relation. -/
theorem detectSCC_exact (ops : List UpdateOp) :
    (∀ c ∈ detectStronglyConnectedComponents (applyOps ops),
      2 ≤ c.length ∧ c.Nodup ∧
      (∀ a ∈ c, ∀ b, (b ∈ c ↔ SameSCC (importsOf (applyOps ops)) a b))) ∧
    (∀ x y, SameSCC (importsOf (applyOps ops)) x y → x ≠ y →
      ∃ c ∈ detectStronglyConnectedComponents (applyOps ops),
        x ∈ c ∧ y ∈ c) := by
  set g := applyOps ops with hgdef
  set U := g.modules.map Prod.fst ++ (g.dependencyGraph.map Prod.snd).flatten
    with hUdef
  have hfuelEq : sccFuel g = U.length + 1 := rfl
  have hnd : (g.dependencyGraph.map Prod.fst).Nodup :=
    applyOps_dg_keys_nodup ops
  have hkeys : ∀ p ∈ g.dependencyGraph, p.1 ∈ g.modules.map Prod.fst :=
    (graphInv_applyOps ops).2.2
  have hsucc : ∀ u v, v ∈ importsOf g u → v ∈ U := by
    intro u v hv
    unfold importsOf at hv
    cases hm : mapGet? g.dependencyGraph u with
    | none =>
      rw [hm] at hv
      cases hv
    | some l =>
      rw [hm] at hv
      simp only [Option.getD_some] at hv
      refine List.mem_append_right _ (List.mem_flatten.mpr ⟨l, ?_, hv⟩)
      exact List.mem_map.mpr ⟨(u, l), mapGet?_eq_some_mem hm, rfl⟩
  have hkeysU : ∀ k ∈ g.modules.map Prod.fst, k ∈ U :=
    fun k hk => List.mem_append_left _ hk
  have hforest : sccPass1 g = dfsForest (importsOf g) false (U.length + 1)
      (g.modules.map Prod.fst) := rfl
  obtain ⟨hinvS, hkeymem⟩ := dfsForest_spec (importsOf g) false U
    (g.modules.map Prod.fst) hsucc hkeysU
  have hvis_iff := dfsForest_vis_iff (importsOf g) false U
    (g.modules.map Prod.fst) hsucc hkeysU
  set R := (sccPass1 g).result with hRdef
  have hsrcR : ∀ u v, v ∈ importsOf g u → u ∈ R := by
    intro u v hv
    unfold importsOf at hv
    cases hm : mapGet? g.dependencyGraph u with
    | none =>
      rw [hm] at hv
      cases hv
    | some l =>
      have hu : u ∈ g.modules.map Prod.fst :=
        hkeys (u, l) (mapGet?_eq_some_mem hm)
      rw [hRdef, hforest]
      exact (hvis_iff u).mp (hkeymem u hu)
  have hedge : ∀ u w,
      u ∈ (fun id => (mapGet? (buildTransposed g) id).getD []) w ↔
      w ∈ importsOf g u := by
    intro u w
    exact transposed_edge_iff g hnd u w
  have htU : ∀ u v,
      v ∈ (fun id => (mapGet? (buildTransposed g) id).getD []) u → v ∈ U := by
    intro u v hv
    obtain ⟨deps, hdg, _⟩ := transposed_edge g u v hv
    exact List.mem_append_left _ (hkeys (v, deps) hdg)
  have hRnd : R.Nodup := by
    rw [hRdef, hforest]
    exact hinvS.rnodup
  have hRU : ∀ x ∈ R, x ∈ U := by
    intro x hx
    rw [hRdef, hforest] at hx
    exact hinvS.vsub x ((hvis_iff x).mpr hx)
  have hM : ∀ z r, Reaches (importsOf g) z r → ¬ Reaches (importsOf g) r z →
      ∃ m, SameSCC (importsOf g) z m ∧
        ∀ w, SameSCC (importsOf g) r w → Before R w m := by
    intro z r hzr hnrz
    have hsrcR' : ∀ u v, v ∈ importsOf g u →
        u ∈ (dfsForest (importsOf g) false (U.length + 1)
          (g.modules.map Prod.fst)).result := by
      intro u v hv
      rw [hRdef, hforest] at hsrcR
      exact hsrcR u v hv
    obtain ⟨m, hm1, hm2⟩ := scc_reach_max (importsOf g) false U
      (g.modules.map Prod.fst) hsucc hkeysU hsrcR' z r hzr hnrz
    refine ⟨m, hm1, ?_⟩
    intro w hw
    rw [hRdef, hforest]
    exact hm2 w hw
  have hdet : detectStronglyConnectedComponents g =
      (sccLoop (fun id => (mapGet? (buildTransposed g) id).getD [])
        (sccFuel g) R.reverse [] []).2 := rfl
  have hloop := sccLoop_main (importsOf g)
    (fun id => (mapGet? (buildTransposed g) id).getD []) U R (sccFuel g)
    hedge htU hRnd hRU (Nat.le_of_eq hfuelEq.symm) hM
    R.reverse [] [] []
    (by simp)
    (fun x hx => absurd hx (List.not_mem_nil x))
    (fun x hx => absurd hx (List.not_mem_nil x))
    List.nodup_nil
    (fun a ha => absurd ha (List.not_mem_nil a))
    (fun c hc => absurd hc (List.not_mem_nil c))
    (fun a ha => absurd ha (List.not_mem_nil a))
  constructor
  · intro c hc
    rw [hdet] at hc
    exact hloop.1 c hc
  · intro x y hxy hne
    have hxR : x ∈ R := by
      rcases reaches_first_step hxy.1 with heq | ⟨w, hw, _⟩
      · exact absurd heq hne
      · exact hsrcR x w hw
    obtain ⟨c, hc, hxc⟩ := hloop.2 x (Or.inr (List.mem_reverse.mpr hxR))
      ⟨y, hxy, fun h => hne h.symm⟩
    refine ⟨c, by rw [hdet]; exact hc, hxc, ?_⟩
    exact ((hloop.1 c hc).2.2 x hxc y).mpr hxy


theorem witness_graph_fwd_edge_char (u v : String)
    (hv : v ∈ importsOf (applyOps [("b", [], true), ("a", ["b"], true)]) u) :
    u = "a" ∧ v = "b" := by
  have hdg : (applyOps [("b", [], true), ("a", ["b"], true)]).dependencyGraph
      = [("b", []), ("a", ["b"])] := by decide
  unfold importsOf at hv
  rw [hdg] at hv
  by_cases hb : ("b" : String) = u
  · rw [show mapGet? [("b", ([] : List String)), ("a", ["b"])] u =
      some [] from by simp [mapGet?, hb]] at hv
    simp at hv
  · by_cases ha : ("a" : String) = u
    · rw [show mapGet? [("b", ([] : List String)), ("a", ["b"])] u =
        some ["b"] from by simp [mapGet?, hb, ha]] at hv
      simp at hv
      exact ⟨ha.symm, hv⟩
    · rw [show mapGet? [("b", ([] : List String)), ("a", ["b"])] u =
        none from by simp [mapGet?, hb, ha]] at hv
      cases hv

theorem witness_graph_fwd_noCycle :
    NoCycle (importsOf (applyOps [("b", [], true), ("a", ["b"], true)])) := by
  intro y z hreach hedge
  obtain ⟨hz, hy⟩ := witness_graph_fwd_edge_char z y hedge
  subst hz
  subst hy
  have hmain : ∀ p q,
      Reaches (importsOf (applyOps [("b", [], true), ("a", ["b"], true)]))
        p q → p = "b" → q = "b" := by
    intro p q h
    induction h with
    | refl => exact fun h' => h'
    | step hr hedge' ih =>
      intro hp
      obtain ⟨hsrc, _⟩ := witness_graph_fwd_edge_char _ _ hedge'
      have := ih hp
      rw [this] at hsrc
      exact absurd hsrc (by decide)
  have hab : ("a" : String) = "b" := hmain "b" "a" hreach rfl
  exact absurd hab (by decide)

/-- C9 amended: the computation returns exactly the strongly connected
components of size at least 2 of the forward import relation — every
returned list is duplicate-free and is precisely the component of each of
its members, and every pair of distinct mutually-reachable modules appears
together in some returned component; singleton components are never
returned, even with a self-edge, so on an acyclic graph nothing is
returned. -/
theorem claim9_amended (ops : List UpdateOp) :
    (∀ c ∈ detectStronglyConnectedComponents (applyOps ops),
      2 ≤ c.length ∧ c.Nodup ∧
      (∀ a ∈ c, ∀ b, (b ∈ c ↔ SameSCC (importsOf (applyOps ops)) a b))) ∧
    (∀ x y, SameSCC (importsOf (applyOps ops)) x y → x ≠ y →
      ∃ c ∈ detectStronglyConnectedComponents (applyOps ops),
        x ∈ c ∧ y ∈ c) ∧
    (NoCycle (importsOf (applyOps ops)) →
      detectStronglyConnectedComponents (applyOps ops) = []) := by
  obtain ⟨hsound, hcompl⟩ := detectSCC_exact ops
  refine ⟨hsound, hcompl, ?_⟩
  intro hnc
  cases hres : detectStronglyConnectedComponents (applyOps ops) with
  | nil => rfl
  | cons c cs =>
    exfalso
    have hcmem : c ∈ detectStronglyConnectedComponents (applyOps ops) := by
      rw [hres]
      exact List.mem_cons_self _ _
    obtain ⟨hlen, hcnd, hiff⟩ := hsound c hcmem
    cases c with
    | nil => simp at hlen
    | cons a t =>
      cases t with
      | nil => simp at hlen
      | cons b t2 =>
        have hane : a ≠ b := by
          have hnd' := hcnd
          rw [List.nodup_cons] at hnd'
          exact fun h => hnd'.1 (h ▸ List.mem_cons_self b t2)
        have hsame : SameSCC (importsOf (applyOps ops)) a b :=
          (hiff a (List.mem_cons_self _ _) b).mp
            (List.mem_cons_of_mem _ (List.mem_cons_self _ _))
        rcases reaches_last_step hsame.2 with heq | ⟨w, hw1, hw2⟩
        · exact hane heq.symm
        · exact hnc a w (hsame.1.trans hw1) hw2

/-- Witness for the amended C9: on the two-module cycle `a ↔ b` the
computation returns a component holding both modules; on the acyclic graph
where `a` imports `b` it returns nothing. -/
theorem claim9_amended_witness :
    (∃ c ∈ detectStronglyConnectedComponents
        (applyOps [("a", ["b"], true), ("b", ["a"], true)]),
      "a" ∈ c ∧ "b" ∈ c) ∧
    detectStronglyConnectedComponents
      (applyOps [("b", [], true), ("a", ["b"], true)]) = [] :=
  ⟨(claim9_amended [("a", ["b"], true), ("b", ["a"], true)]).2.1 "a" "b"
      ⟨Reaches.step (Reaches.refl "a") (by decide),
        Reaches.step (Reaches.refl "b") (by decide)⟩
      (by decide),
    (claim9_amended [("b", [], true), ("a", ["b"], true)]).2.2
      witness_graph_fwd_noCycle⟩


end HMR
